import Mathlib

/-! # gdwg::graph, a generic directed weighted graph

A shallow embedding of `src/include/gdwg/graph.hpp` and proofs of its
contract.

Modelling conventions.

* `std::set<T, Cmp>` is represented by the in-order sequence of its elements,
  a `List T`.  A set iterator is represented by the element it denotes
  (`some x`) or by `none` for `end()`; this is what survives insertions and
  erasures of other elements, as the iterators of a node-based container do.
* `std::unique_ptr<N>` / `std::unique_ptr<E>` boxes are never reassigned, so a
  box is identified with the value it owns.  A `node` is therefore its value,
  and the raw pointers `N* src`, `N* dest` of an `edge` are identified with the
  value stored in the node they point to (two live nodes never hold the same
  value, so comparing such pointers is comparing the pointees).
* For the copy operations the boxes are made explicit in a second model
  (namespace `boxed`): the `N` boxes live at addresses of a store that the
  graph objects share, a `node` is the address of its box, `src` and `dest` are
  addresses, and destroying a node frees its box.  `boxed.Boxed` relates an
  object of that model to the graph it stands for in the first model, and every
  modifier is shown to act on the object as it acts on the graph.
* `N` and `E` are totally ordered types (`operator<` together with a matching
  `operator==`).
* A member function that mutates the graph returns its result together with
  the graph state after the call; a thrown `std::runtime_error` is an
  `Except.error` and the state that accompanies it is the state at the throw.
-/

set_option linter.unusedSectionVars false

namespace gdwg

/-! ## The `std::set` operations used by the graph -/

namespace stdset

variable {T K : Type}

/-- Model of `std::set::emplace(x)`: the sequence after the call and the
`second` of the returned pair (whether an insertion took place). -/
def emplace (cmp : T → T → Bool) (x : T) : List T → List T × Bool
  | [] => ([x], true)
  | y :: ys =>
    if cmp x y then (x :: y :: ys, true)
    else if cmp y x then (y :: (emplace cmp x ys).1, (emplace cmp x ys).2)
    else (y :: ys, false)

/-- Model of the transparent `std::set::find(k)`: the first element that is not
less than the key, provided the key is not less than it; `none` is `end()`. -/
def find (cmp_ek : T → K → Bool) (cmp_ke : K → T → Bool) (k : K) : List T → Option T
  | [] => none
  | y :: ys =>
    if cmp_ek y k then find cmp_ek cmp_ke k ys
    else if cmp_ke k y then none
    else some y

/-- Model of `std::set::erase(pos)` for an iterator `pos` denoting `x`. -/
def erase [DecidableEq T] (x : T) (l : List T) : List T :=
  l.erase x

/-- The position following the one that denotes `x` (`end()` after the last). -/
def after [DecidableEq T] (x : T) : List T → Option T
  | [] => none
  | y :: ys => if y = x then ys.head? else after x ys

/-- Model of `++` on a set iterator (incrementing `end()` is not defined in
C++; the model stays at `end()`). -/
def next [DecidableEq T] (l : List T) : Option T → Option T
  | none => none
  | some x => after x l

/-- The position preceding the one that denotes `x`. -/
def before [DecidableEq T] (x : T) : List T → Option T
  | y :: z :: rest => if z = x then some y else before x (z :: rest)
  | _ => none

/-- Model of `--` on a set iterator: from `end()` to the last element, otherwise
to the preceding element (decrementing `begin()` is not defined in C++; the
model gives `end()`). -/
def prev [DecidableEq T] (l : List T) : Option T → Option T
  | none => l.getLast?
  | some x => before x l

/-- Model of `std::set::erase(first, last)`: the elements from position `first`
up to, not including, position `last` are removed. -/
def erase_range [DecidableEq T] (first last : Option T) (l : List T) : List T :=
  l.takeWhile (fun x => decide (some x ≠ first))
    ++ (l.dropWhile (fun x => decide (some x ≠ first))).dropWhile (fun x => decide (some x ≠ last))

/-- Model of `operator==` on two `std::set`s: the same size and the elements
pairwise equal under `operator==` of the element type, in order. -/
def eq (elem_eq : T → T → Bool) : List T → List T → Bool
  | [], [] => true
  | x :: xs, y :: ys => elem_eq x y && eq elem_eq xs ys
  | _, _ => false

/-- The comparator is a strict total order. -/
structure StrictTotal (cmp : T → T → Bool) : Prop where
  irrefl : ∀ a, cmp a a = false
  trans : ∀ a b c, cmp a b = true → cmp b c = true → cmp a c = true
  tri : ∀ a b, cmp a b = false → cmp b a = false → a = b

/-- The representation invariant of a set: strictly ascending. -/
def Sorted (cmp : T → T → Bool) (l : List T) : Prop :=
  l.Pairwise (fun a b => cmp a b = true)

end stdset

/-! ## Data model -/

/-- `graph::value_type` (graph.hpp 16-25). -/
structure value_type (N E : Type) where
  from_ : N
  to_ : N
  weight : E
deriving DecidableEq

/-- `graph::edge` (graph.hpp 28-49); `src` and `dest` stand for the pointees. -/
structure edge (N E : Type) where
  src : N
  dest : N
  weight : E
deriving DecidableEq

/-- `std::runtime_error`. -/
inductive exception where
  | runtime_error (what : String)
deriving DecidableEq

/-- `gdwg::graph<N, E>` (graph.hpp 103-104). -/
structure graph (N E : Type) where
  nodes_ : List N
  edges_ : List (edge N E)
deriving DecidableEq

/-- `graph::iterator` (graph.hpp 153-205). -/
structure iterator (N E : Type) where
  itor_ : Option (edge N E)
deriving DecidableEq

section
variable {N E : Type} [LinearOrder N] [LinearOrder E]

/-- `operator<` on `std::tie(a1, a2, a3)` and `std::tie(b1, b2, b3)`. -/
def tie_lt (a1 a2 : N) (a3 : E) (b1 b2 : N) (b3 : E) : Bool :=
  if a1 < b1 then true
  else if b1 < a1 then false
  else if a2 < b2 then true
  else if b2 < a2 then false
  else decide (a3 < b3)

/-- `edge_cmp::operator()(edge const&, edge const&)` (graph.hpp 53-56). -/
def edge_cmp (lhs rhs : edge N E) : Bool :=
  tie_lt lhs.src lhs.dest lhs.weight rhs.src rhs.dest rhs.weight

/-- `edge_cmp::operator()(value_type const&, edge const&)` (graph.hpp 58-61). -/
def edge_cmp_value_edge (lhs : value_type N E) (rhs : edge N E) : Bool :=
  tie_lt lhs.from_ lhs.to_ lhs.weight rhs.src rhs.dest rhs.weight

/-- `edge_cmp::operator()(edge const&, value_type const&)` (graph.hpp 63-66). -/
def edge_cmp_edge_value (lhs : edge N E) (rhs : value_type N E) : Bool :=
  tie_lt lhs.src lhs.dest lhs.weight rhs.from_ rhs.to_ rhs.weight

/-- `node_cmp::operator()` (graph.hpp 90-100); its three overloads coincide once
a node is identified with its value. -/
def node_cmp (lhs rhs : N) : Bool :=
  decide (lhs < rhs)

/-- `edge::operator==` (graph.hpp 33-35). -/
def edge.eq (e other : edge N E) : Bool :=
  decide (e.src = other.src ∧ e.dest = other.dest ∧ e.weight = other.weight)

/-- The snapshot `value_type{*e.src, *e.dest, *e.weight}` of an edge. -/
def edge.value (e : edge N E) : value_type N E :=
  ⟨e.src, e.dest, e.weight⟩

/-- The key under which `edge_cmp` orders an edge: the triple, compared
lexicographically. -/
def edge.key (e : edge N E) : N ×ₗ (N ×ₗ E) :=
  toLex (e.src, toLex (e.dest, e.weight))

/-! ## Iterator -/

/-- `graph::begin` (graph.hpp 389-391). -/
def graph.begin (g : graph N E) : iterator N E :=
  ⟨g.edges_.head?⟩

/-- `graph::end` (graph.hpp 393-395). -/
def graph.end_ (_g : graph N E) : iterator N E :=
  ⟨none⟩

/-- `iterator::operator*` (graph.hpp 165-167); not defined at `end()`. -/
def iterator.deref (it : iterator N E) : Option (value_type N E) :=
  it.itor_.map edge.value

/-- `iterator::operator++` (graph.hpp 170-173), for an iterator into `g`. -/
def iterator.incr (g : graph N E) (it : iterator N E) : iterator N E :=
  ⟨stdset.next g.edges_ it.itor_⟩

/-- `iterator::operator--` (graph.hpp 181-184), for an iterator into `g`. -/
def iterator.decr (g : graph N E) (it : iterator N E) : iterator N E :=
  ⟨stdset.prev g.edges_ it.itor_⟩

/-- `iterator::operator==` (graph.hpp 193-195). -/
def iterator.eq (it other : iterator N E) : Bool :=
  decide (it.itor_ = other.itor_)

/-! ## Accessors and modifiers -/

/-- `graph::is_node` (graph.hpp 321-323). -/
def is_node (g : graph N E) (value : N) : Bool :=
  (stdset.find node_cmp node_cmp value g.nodes_).isSome

/-- `graph::insert_node` (graph.hpp 208-210). -/
def insert_node (g : graph N E) (value : N) : Bool × graph N E :=
  ((stdset.emplace node_cmp value g.nodes_).2,
   { g with nodes_ := (stdset.emplace node_cmp value g.nodes_).1 })

/-- `graph::insert_edge` (graph.hpp 212-220). -/
def insert_edge (g : graph N E) (src dest : N) (weight : E) :
    Except exception Bool × graph N E :=
  match stdset.find node_cmp node_cmp src g.nodes_,
        stdset.find node_cmp node_cmp dest g.nodes_ with
  | some s, some d =>
    (.ok (stdset.emplace edge_cmp ⟨s, d, weight⟩ g.edges_).2,
     { g with edges_ := (stdset.emplace edge_cmp ⟨s, d, weight⟩ g.edges_).1 })
  | _, _ =>
    (.error (.runtime_error
      "Cannot call gdwg::graph<N, E>::insert_edge when either src or dst node does not exist"), g)

/-- `graph::erase_edge(N const&, N const&, E const&)` (graph.hpp 293-306). -/
def erase_edge (g : graph N E) (src dest : N) (weight : E) :
    Except exception Bool × graph N E :=
  match stdset.find node_cmp node_cmp src g.nodes_,
        stdset.find node_cmp node_cmp dest g.nodes_ with
  | some _, some _ =>
    match stdset.find edge_cmp_edge_value edge_cmp_value_edge
        (value_type.mk src dest weight) g.edges_ with
    | none => (.ok false, g)
    | some e => (.ok true, { g with edges_ := stdset.erase e g.edges_ })
  | _, _ =>
    (.error (.runtime_error
      "Cannot call gdwg::graph<N, E>::erase_edge on src or dst if they don't exist in the graph"), g)

/-- `std::for_each` with a callable that works on the graph and may throw: the
first exception ends the loop and leaves the state reached so far. -/
def for_each {α σ : Type} (xs : List α) (f : α → σ → Except exception Unit × σ) (s : σ) :
    Except exception Unit × σ :=
  match xs with
  | [] => (.ok (), s)
  | x :: rest =>
    match f x s with
    | (.ok _, s') => for_each rest f s'
    | (.error ex, s') => (.error ex, s')

/-- The loop shared by `replace_node`, `merge_replace_node` and `erase_node`
(graph.hpp 232-237, 258-263, 280-285): the snapshots, in set order, of the
edges whose `src` or `dest` points to the given node. -/
def incident_edges (g : graph N E) (node : N) : List (value_type N E) :=
  (g.edges_.filter (fun e => decide (e.src = node) || decide (e.dest = node))).map edge.value

/-- The callable of the second loop of `replace_node` (graph.hpp 238-243). -/
def replace_node_body (old_data new_data : N) (e : value_type N E) (g : graph N E) :
    Except exception Unit × graph N E :=
  let new_src := if e.from_ = old_data then new_data else e.from_
  let new_dest := if e.to_ = old_data then new_data else e.to_
  match insert_edge g new_src new_dest e.weight with
  | (.error ex, g1) => (.error ex, g1)
  | (.ok _, g1) =>
    match erase_edge g1 e.from_ e.to_ e.weight with
    | (.error ex, g2) => (.error ex, g2)
    | (.ok _, g2) => (.ok (), g2)

/-- `graph::replace_node` (graph.hpp 222-246). -/
def replace_node (g : graph N E) (old_data new_data : N) :
    Except exception Bool × graph N E :=
  match stdset.find node_cmp node_cmp old_data g.nodes_ with
  | none =>
    (.error (.runtime_error
      "Cannot call gdwg::graph<N, E>::replace_node on a node that doesn't exist"), g)
  | some old_node =>
    if is_node g new_data then (.ok false, g)
    else
      let g1 : graph N E := { g with nodes_ := (stdset.emplace node_cmp new_data g.nodes_).1 }
      match for_each (incident_edges g1 old_node) (replace_node_body old_data new_data) g1 with
      | (.error ex, g2) => (.error ex, g2)
      | (.ok _, g2) => (.ok true, { g2 with nodes_ := stdset.erase old_node g2.nodes_ })

/-- The callable of the second loop of `merge_replace_node` (graph.hpp 264-271). -/
def merge_replace_node_body (old_data new_data : N) (e : value_type N E) (g : graph N E) :
    Except exception Unit × graph N E :=
  let new_src := if e.from_ = old_data then new_data else e.from_
  let new_dest := if e.to_ = old_data then new_data else e.to_
  let r : Except exception Unit × graph N E :=
    match stdset.find edge_cmp_edge_value edge_cmp_value_edge
        (value_type.mk new_src new_dest e.weight) g.edges_ with
    | none =>
      match insert_edge g new_src new_dest e.weight with
      | (.error ex, g1) => (.error ex, g1)
      | (.ok _, g1) => (.ok (), g1)
    | some _ => (.ok (), g)
  match r with
  | (.error ex, g1) => (.error ex, g1)
  | (.ok _, g1) =>
    match erase_edge g1 e.from_ e.to_ e.weight with
    | (.error ex, g2) => (.error ex, g2)
    | (.ok _, g2) => (.ok (), g2)

/-- `graph::merge_replace_node` (graph.hpp 248-273). -/
def merge_replace_node (g : graph N E) (old_data new_data : N) :
    Except exception Unit × graph N E :=
  match stdset.find node_cmp node_cmp old_data g.nodes_,
        stdset.find node_cmp node_cmp new_data g.nodes_ with
  | some old_node, some new_node =>
    if old_node = new_node then (.ok (), g)
    else
      match for_each (incident_edges g old_node) (merge_replace_node_body old_data new_data) g with
      | (.error ex, g2) => (.error ex, g2)
      | (.ok _, g2) => (.ok (), { g2 with nodes_ := stdset.erase old_node g2.nodes_ })
  | _, _ =>
    (.error (.runtime_error
      "Cannot call gdwg::graph<N, E>::merge_replace_node on old or new data if they don't exist in the graph"),
     g)

/-- The callable of the second loop of `erase_node` (graph.hpp 286-288). -/
def erase_node_body (e : value_type N E) (g : graph N E) : Except exception Unit × graph N E :=
  match erase_edge g e.from_ e.to_ e.weight with
  | (.error ex, g1) => (.error ex, g1)
  | (.ok _, g1) => (.ok (), g1)

/-- `graph::erase_node` (graph.hpp 275-291). -/
def erase_node (g : graph N E) (value : N) : Except exception Bool × graph N E :=
  match stdset.find node_cmp node_cmp value g.nodes_ with
  | none => (.ok false, g)
  | some node =>
    match for_each (incident_edges g node) erase_node_body g with
    | (.error ex, g2) => (.error ex, g2)
    | (.ok _, g2) => (.ok true, { g2 with nodes_ := stdset.erase node g2.nodes_ })

/-- `graph::erase_edge(iterator)` (graph.hpp 308-310).  Erasing at `end()` is
not defined in C++; the model leaves the graph as it is there. -/
def erase_edge_iterator (g : graph N E) (i : iterator N E) : iterator N E × graph N E :=
  match i.itor_ with
  | none => (⟨none⟩, g)
  | some e => (⟨stdset.after e g.edges_⟩, { g with edges_ := stdset.erase e g.edges_ })

/-- `graph::erase_edge(iterator, iterator)` (graph.hpp 311-313). -/
def erase_edge_range (g : graph N E) (i s : iterator N E) : iterator N E × graph N E :=
  (s, { g with edges_ := stdset.erase_range i.itor_ s.itor_ g.edges_ })

/-- `graph::clear` (graph.hpp 315-318). -/
def clear (_g : graph N E) : graph N E :=
  { nodes_ := [], edges_ := [] }

/-- `graph::is_connected` (graph.hpp 329-343). -/
def is_connected (g : graph N E) (src dest : N) : Except exception Bool :=
  match stdset.find node_cmp node_cmp src g.nodes_,
        stdset.find node_cmp node_cmp dest g.nodes_ with
  | some s, some d =>
    .ok (g.edges_.find? (fun e => decide (e.src = s) && decide (e.dest = d))).isSome
  | _, _ =>
    .error (.runtime_error
      "Cannot call gdwg::graph<N, E>::is_connected if src or dst node don't exist in the graph")

/-- `graph::nodes` (graph.hpp 345-351). -/
def nodes (g : graph N E) : List N :=
  g.nodes_.map (fun n => n)

/-- `graph::weights` (graph.hpp 353-367). -/
def weights (g : graph N E) (src dest : N) : Except exception (List E) :=
  match stdset.find node_cmp node_cmp src g.nodes_,
        stdset.find node_cmp node_cmp dest g.nodes_ with
  | some s, some d =>
    .ok ((g.edges_.filter (fun e => decide (e.src = s) && decide (e.dest = d))).map
      (fun e => e.weight))
  | _, _ =>
    .error (.runtime_error
      "Cannot call gdwg::graph<N, E>::weights if src or dst node don't exist in the graph")

/-- `graph::find` (graph.hpp 369-371). -/
def graph.find (g : graph N E) (src dest : N) (weight : E) : iterator N E :=
  ⟨stdset.find edge_cmp_edge_value edge_cmp_value_edge (value_type.mk src dest weight) g.edges_⟩

/-- `std::less<N>`, the comparator of the local `std::set<N>` of `connections`. -/
def less (a b : N) : Bool :=
  decide (a < b)

/-- `graph::connections` (graph.hpp 373-386). -/
def connections (g : graph N E) (src : N) : Except exception (List N) :=
  match stdset.find node_cmp node_cmp src g.nodes_ with
  | none =>
    .error (.runtime_error
      "Cannot call gdwg::graph<N, E>::connections if src doesn't exist in the graph")
  | some s =>
    .ok ((g.edges_.foldl
      (fun conns e => if e.src = s then (stdset.emplace less e.dest conns).1 else conns)
      []).map (fun n => n))

/-- `node::operator==` (graph.hpp 72-74). -/
def node_eq (n other : N) : Bool :=
  decide (n = other)

/-- `graph::operator==` (graph.hpp 398): the defaulted comparison, member by
member. -/
def graph.eq (g other : graph N E) : Bool :=
  stdset.eq node_eq g.nodes_ other.nodes_ && stdset.eq edge.eq g.edges_ other.edges_

/-- `operator<<` (graph.hpp 401-413): the text written to the stream, where
`put_N` and `put_E` are the stream insertions of the two value types. -/
def graph.output (put_N : N → String) (put_E : E → String) (g : graph N E) : String :=
  g.nodes_.foldl
    (fun oss n =>
      (g.edges_.foldl
        (fun oss e =>
          if e.src = n then oss ++ "  " ++ put_N e.dest ++ " | " ++ put_E e.weight ++ "\n"
          else oss)
        (oss ++ put_N n ++ " (\n")) ++ ")\n")
    ""

/-- The default-constructed graph (graph.hpp 108). -/
def graph.empty : graph N E :=
  { nodes_ := [], edges_ := [] }

/-- The iterator at position `k` of the edge sequence; position `size` is `end()`. -/
def graph.at_ (g : graph N E) (k : Nat) : iterator N E :=
  ⟨g.edges_.get? k⟩

/-- `graph::empty` (graph.hpp 325-327). -/
def empty (g : graph N E) : Bool :=
  g.nodes_.isEmpty

/-- `graph::graph(InputIt first, InputIt last)` (graph.hpp 113-116); the range
is given by the sequence of its values. -/
def graph.from_range (xs : List N) : graph N E :=
  xs.foldl (fun g n => (insert_node g n).2) graph.empty

/-- `graph::graph(std::initializer_list<N>)` (graph.hpp 110-111). -/
def graph.from_initializer_list (il : List N) : graph N E :=
  graph.from_range il

/-- The callable of the second loop of the copy operations
(graph.hpp 129-131, 142-144). -/
def copy_edge (e : edge N E) (g : graph N E) : Except exception Unit × graph N E :=
  match insert_edge g e.src e.dest e.weight with
  | (.error ex, g1) => (.error ex, g1)
  | (.ok _, g1) => (.ok (), g1)

/-- `graph::graph(graph const&)` (graph.hpp 125-132): the constructed graph,
and whether an `insert_edge` threw on the way. -/
def graph.copy (orig : graph N E) : Except exception Unit × graph N E :=
  for_each orig.edges_ copy_edge
    (orig.nodes_.foldl (fun g n => (insert_node g n).2) graph.empty)

/-- `graph::operator=(graph const&)` (graph.hpp 135-147) on the target `self`;
`same_object` is the outcome of `this != &orig` being false, in which case
`self` and `orig` are one object. -/
def graph.copy_assign (self orig : graph N E) (same_object : Bool) :
    Except exception Unit × graph N E :=
  if same_object then (.ok (), self)
  else
    for_each orig.edges_ copy_edge
      (orig.nodes_.foldl (fun g n => (insert_node g n).2) (clear self))

/-- A call of `insert_node` or of `insert_edge`. -/
inductive build_call (N E : Type) where
  | node (v : N)
  | edge (s d : N) (w : E)

/-- The graph after a sequence of `insert_node` / `insert_edge` calls on a
default-constructed graph. -/
def build (calls : List (build_call N E)) : graph N E :=
  calls.foldl
    (fun g c =>
      match c with
      | .node v => (insert_node g v).2
      | .edge s d w => (insert_edge g s d w).2)
    graph.empty

/-- The iterator after `k` increments. -/
def advance (g : graph N E) : Nat → iterator N E → iterator N E
  | 0, it => it
  | k + 1, it => advance g k (iterator.incr g it)

/-- The sequence of calls that `replace_node` is compared with:
`insert_node(new_data)` followed by `merge_replace_node(old_data, new_data)`,
with what each of the two calls returns and the graph they leave. -/
def insert_then_merge (g : graph N E) (old_data new_data : N) :
    Bool × Except exception Unit × graph N E :=
  let r := insert_node g new_data
  let m := merge_replace_node r.2 old_data new_data
  (r.1, m.1, m.2)

/-- Graphs obtained from the default-constructed graph by member function
calls.  A call that throws leaves the state it had reached.  The iterator forms
of `erase_edge` are called as C++ requires: on an iterator that denotes an edge
of the graph, and on a range `[first, last)` of positions of the graph. -/
inductive Reachable : graph N E → Prop
  | default : Reachable graph.empty
  | insert_node (g : graph N E) (v : N) : Reachable g → Reachable (insert_node g v).2
  | insert_edge (g : graph N E) (s d : N) (w : E) :
      Reachable g → Reachable (insert_edge g s d w).2
  | replace_node (g : graph N E) (o n : N) : Reachable g → Reachable (replace_node g o n).2
  | merge_replace_node (g : graph N E) (o n : N) :
      Reachable g → Reachable (merge_replace_node g o n).2
  | erase_node (g : graph N E) (v : N) : Reachable g → Reachable (erase_node g v).2
  | erase_edge (g : graph N E) (s d : N) (w : E) :
      Reachable g → Reachable (erase_edge g s d w).2
  | erase_edge_iterator (g : graph N E) (e : edge N E) :
      Reachable g → e ∈ g.edges_ → Reachable (erase_edge_iterator g ⟨some e⟩).2
  | erase_edge_range (g : graph N E) (i j : Nat) :
      Reachable g → i ≤ j → j ≤ g.edges_.length →
      Reachable (erase_edge_range g (g.at_ i) (g.at_ j)).2
  | clear (g : graph N E) : Reachable g → Reachable (clear g)

/-- Walk of the edge iterator: dereference and `++` until `end()` is met.  The
result is `none` when `end()` is not met within `fuel` comparisons. -/
def walk (g : graph N E) : Nat → iterator N E → Option (List (value_type N E))
  | 0, _ => none
  | fuel + 1, it =>
    match it.itor_ with
    | none => some []
    | some e => (walk g fuel (iterator.incr g it)).map (fun vs => edge.value e :: vs)

/-- The substitution applied by `replace_node` and `merge_replace_node`. -/
def subst (old_data new_data : N) (v : N) : N :=
  if v = old_data then new_data else v

/-- The edge record with the triple of a snapshot. -/
def value_type.edge (v : value_type N E) : edge N E :=
  ⟨v.from_, v.to_, v.weight⟩

/-- The substitution applied to both ends of an edge. -/
def edge.subst (old_data new_data : N) (e : edge N E) : edge N E :=
  ⟨gdwg.subst old_data new_data e.src, gdwg.subst old_data new_data e.dest, e.weight⟩

/-- What one round of the second loop of `replace_node` and of
`merge_replace_node` does to the edge set: the substituted edge is put in and
the original edge is taken out. -/
def rename_edge (old_data new_data : N) (es : List (edge N E)) (v : value_type N E) :
    List (edge N E) :=
  stdset.erase v.edge (stdset.emplace edge_cmp (v.edge.subst old_data new_data) es).1

/-- What one round of the second loop of `erase_node` does to the edge set. -/
def drop_edge (es : List (edge N E)) (v : value_type N E) : List (edge N E) :=
  stdset.erase v.edge es

/-- The triple of a snapshot under the lexicographic order of
(source value, destination value, weight). -/
def value_type.key (v : value_type N E) : N ×ₗ (N ×ₗ E) :=
  toLex (v.from_, toLex (v.to_, v.weight))

/-- The concatenation of a sequence of strings. -/
def concat : List String → String
  | [] => ""
  | s :: rest => s ++ concat rest

/-- The text dump in the words of the specification: for each node, in
ascending order of value, the value and an opening marker, then one line
"destination | weight" for each edge whose source is that node, in ascending
(destination, weight) order, then a closing marker. -/
def dump_spec (put_N : N → String) (put_E : E → String) (g : graph N E) : String :=
  concat (((nodes g).insertionSort (fun a b => a ≤ b)).map (fun n =>
    put_N n ++ " (\n"
      ++ concat (((g.edges_.filter (fun e => decide (e.src = n))).insertionSort
          (fun a b => toLex (a.dest, a.weight) ≤ toLex (b.dest, b.weight))).map
          (fun e => "  " ++ put_N e.dest ++ " | " ++ put_E e.weight ++ "\n"))
      ++ ")\n"))

/-- The invariant of the representation: both sets are strictly ascending and
every edge points to nodes of the node set. -/
structure graph.WF (g : graph N E) : Prop where
  nodes_sorted : stdset.Sorted node_cmp g.nodes_
  edges_sorted : stdset.Sorted edge_cmp g.edges_
  src_mem : ∀ e ∈ g.edges_, e.src ∈ g.nodes_
  dest_mem : ∀ e ∈ g.edges_, e.dest ∈ g.nodes_

end

/-- A graph over the naturals built through the public interface: nodes 1, 2
and 3 with the edges 1 -> 1 (3), 1 -> 2 (5), 2 -> 1 (5) and 2 -> 1 (7). -/
def sample : graph Nat Nat :=
  (insert_edge (insert_edge (insert_edge (insert_edge
    (insert_node (insert_node (insert_node graph.empty 1).2 2).2 3).2
      1 2 5).2 2 1 7).2 1 1 3).2 2 1 5).2

/-- The graph of the test case "Replace node", section "New data does not
exist" (graph_modifiers_test.cpp 100-120) with hello, wonderful, world numbered
1, 2, 3 in their order. -/
def test_replace_graph : graph Nat Int :=
  (insert_edge (insert_edge (insert_edge (insert_node (insert_node graph.empty 1).2 3).2
    1 3 1).2 3 1 2).2 1 1 3).2

/-- The graph of the test case "Merge replace node", section "Has duplicate
edges after merge replace" (graph_modifiers_test.cpp 156-215) with are, how,
you numbered 1, 2, 3 in their order. -/
def test_merge_graph : graph Nat Int :=
  (insert_edge (insert_edge (insert_edge (insert_edge
    (insert_node (insert_node (insert_node graph.empty 2).2 1).2 3).2
      2 1 1).2 1 3 2).2 1 1 3).2 2 3 2).2

/-- The graph of the test case "Erase node", section "Remove relevant edges"
(graph_modifiers_test.cpp 241-265) with are, how, you numbered 1, 2, 3. -/
def test_erase_graph : graph Nat Int :=
  (insert_edge (insert_edge (insert_edge (insert_edge
    (insert_node (insert_node (insert_node graph.empty 2).2 1).2 3).2
      2 1 1).2 1 3 2).2 3 2 3).2 2 2 4).2

/-- The graph of the test case "Accessors", section "Weights in vector /
Multiple edges" (graph_accessors_test.cpp 5-49) with are, how, you numbered 1,
2, 3 in their order. -/
def test_weights_graph : graph Nat Int :=
  (insert_edge (insert_edge (insert_edge (insert_edge (insert_edge (insert_edge
    (insert_node (insert_node (insert_node graph.empty 2).2 1).2 3).2
      2 1 1).2 2 3 2).2 1 3 3).2 2 3 6).2 2 3 4).2 2 3 5).2

/-- The graph of the test case "Accessors", section "Connections / Multiple
connections in correct order" (graph_accessors_test.cpp 5-101) with are, how,
you numbered 1, 2, 3 in their order. -/
def test_connections_graph : graph Nat Int :=
  (insert_edge (insert_edge (insert_edge (insert_edge (insert_edge (insert_edge
    (insert_node (insert_node (insert_node graph.empty 2).2 1).2 3).2
      2 1 1).2 2 3 2).2 1 3 3).2 2 3 6).2 2 3 4).2 2 2 5).2

/-- The graph of the test case "Extractor <<", section "Easy"
(graph_extract_cmp_test.cpp 13-17) with are, how, you numbered 1, 2, 3 in their
order. -/
def test_output_graph : graph Nat Int :=
  (insert_edge (insert_edge (insert_edge
    (insert_node (insert_node (insert_node graph.empty 2).2 1).2 3).2
      2 1 1).2 1 3 2).2 1 1 3).2

/-- The stream insertion of the node values of `test_output_graph`. -/
def test_output_names : Nat → String
  | 1 => "are"
  | 2 => "how"
  | 3 => "you"
  | _ => "?"

/-- The graph of the test case "Extractor <<", section "Hard"
(graph_extract_cmp_test.cpp 33-47). -/
def test_output_hard_graph : graph Int Int :=
  (insert_node (insert_edge (insert_edge (insert_edge (insert_edge (insert_edge (insert_edge
    (insert_edge (insert_edge (insert_edge (insert_edge
      (insert_node (insert_node (insert_node (insert_node (insert_node (insert_node
        graph.empty 1).2 2).2 3).2 4).2 5).2 6).2
      4 1 (-4)).2 3 2 2).2 2 4 2).2 2 1 1).2 6 2 5).2 6 3 10).2 1 5 (-1)).2 3 6 (-8)).2
      4 5 3).2 5 2 7).2 64).2

/-- The first graph of the test case "Comparison", section "Graphs have edges"
(graph_extract_cmp_test.cpp 96-99) with are, how, you numbered 1, 2, 3. -/
def test_eq_graph1 : graph Nat Int :=
  (insert_edge (insert_edge (insert_edge
    (insert_node (insert_node (insert_node graph.empty 2).2 1).2 3).2
      2 3 1).2 2 2 2).2 1 3 3).2

/-- The second graph of the test case "Comparison", section "Graphs have edges"
(graph_extract_cmp_test.cpp 101-104): the same nodes inserted in another
order. -/
def test_eq_graph2 : graph Nat Int :=
  (insert_edge (insert_edge (insert_edge
    (insert_node (insert_node (insert_node graph.empty 1).2 3).2 2).2
      2 3 1).2 2 2 2).2 1 3 3).2

/-- The graph of the test cases "Copy constructor" and "Copy assignment"
(graph_construct_assign_test.cpp 183-263) with are, good, hello, how numbered
1, 2, 3, 4 in their order. -/
def test_copy_graph : graph Nat Int :=
  (insert_edge (insert_edge (insert_edge (insert_edge
    (graph.from_initializer_list [3, 4, 1])
      3 4 5).2 3 1 8).2 1 4 2).2 1 1 4).2

/-- The calls that build the first graph of the test case "Comparison", section
"Graphs have edges" (graph_extract_cmp_test.cpp 96-99) with are, how, you
numbered 1, 2, 3. -/
def test_build_calls1 : List (build_call Nat Int) :=
  [.node 2, .node 1, .node 3, .edge 2 3 1, .edge 2 2 2, .edge 1 3 3]

/-- Calls that insert the same nodes and edges in another order. -/
def test_build_calls2 : List (build_call Nat Int) :=
  [.node 1, .node 3, .edge 1 3 3, .node 2, .edge 2 2 2, .edge 2 3 1]

/-- The graph of the test case "Iterator test" (graph_iterator_test.cpp 4-9)
with are, how, you numbered 1, 2, 3 in their order. -/
def test_iterator_graph : graph Nat Int :=
  (insert_edge (insert_edge (insert_edge
    (graph.from_initializer_list [2, 1, 3])
      2 1 1).2 2 3 2).2 1 3 3).2

end gdwg

namespace gdwg

/-! ## The graph as an object that owns boxes

A second, finer model, made for the copy operations.  The `N` boxes live at
addresses of a store that all graph objects share; a `node` is the address of
the box its `std::unique_ptr<N>` owns, and `src`, `dest` of an `edge` are
addresses (`N*`).  Comparators dereference, the scans of the edges compare
addresses as the source compares pointers, and destroying a node frees its
box.  `std::make_unique<N>` is an allocator `alloc`, a function that gives for
a store the address of the new box; the theorems hold for every allocator that
gives an address not in use, so an address that was freed may be given again.
The weight box of an edge is made by the edge's constructor from a value and no
other pointer to it is ever kept, so an edge is still taken with its weight. -/

/-- The `N` boxes in use: the address of each with the value it holds. -/
structure store (N : Type) where
  boxes : List (Nat × N)

/-- The value `*p` behind a pointer `p`; `none` when no box is in use at `p`. -/
def store.deref {N : Type} (s : store N) (p : Nat) : Option N :=
  s.boxes.lookup p

/-- The store after `std::make_unique<N>(value)` has returned the address `p`. -/
def store.make_unique {N : Type} (s : store N) (p : Nat) (value : N) : store N :=
  ⟨(p, value) :: s.boxes⟩

/-- The store after the box at `p` has been destroyed. -/
def store.free {N : Type} (s : store N) (p : Nat) : store N :=
  ⟨s.boxes.filter (fun c => !(c.1 == p))⟩

/-- An allocator: the first address above all the addresses in use. -/
def store.bump {N : Type} (s : store N) : Nat :=
  s.boxes.foldr (fun c m => max (c.1 + 1) m) 0

/-- The values of a sequence of reads, provided every read succeeds. -/
def collect {α β : Type} (f : α → Option β) : List α → Option (List β)
  | [] => some []
  | x :: xs =>
    match f x, collect f xs with
    | some y, some ys => some (y :: ys)
    | _, _ => none

namespace boxed

/-- `graph::edge` (graph.hpp 28-49) with `src` and `dest` as addresses. -/
structure edge (E : Type) where
  src : Nat
  dest : Nat
  weight : E
deriving DecidableEq

/-- `gdwg::graph<N, E>` (graph.hpp 103-104) as an object: a `node` is the
address of the box it owns. -/
structure graph (E : Type) where
  nodes_ : List Nat
  edges_ : List (edge E)
deriving DecidableEq

/-- Every `src` and `dest` of the object points to a box that a node of the
object itself owns. -/
def graph.Owned {E : Type} (g : graph E) : Prop :=
  ∀ e ∈ g.edges_, e.src ∈ g.nodes_ ∧ e.dest ∈ g.nodes_

section
variable {N E : Type} [LinearOrder N] [LinearOrder E]

/-- The edge with its pointers dereferenced: `(*src, *dest, *weight)`. -/
def edge.read (s : store N) (e : edge E) : Option (gdwg.edge N E) :=
  match s.deref e.src, s.deref e.dest with
  | some x, some y => some ⟨x, y, e.weight⟩
  | _, _ => none

/-- `node_cmp::operator()(node const&, node const&)` (graph.hpp 90-92). -/
def node_cmp (s : store N) (lhs rhs : Nat) : Bool :=
  match s.deref lhs, s.deref rhs with
  | some x, some y => decide (x < y)
  | _, _ => false

/-- `node_cmp::operator()(node const&, N const&)` (graph.hpp 94-96). -/
def node_cmp_node_value (s : store N) (lhs : Nat) (rhs : N) : Bool :=
  match s.deref lhs with
  | some x => decide (x < rhs)
  | none => false

/-- `node_cmp::operator()(N const&, node const&)` (graph.hpp 98-100). -/
def node_cmp_value_node (s : store N) (lhs : N) (rhs : Nat) : Bool :=
  match s.deref rhs with
  | some y => decide (lhs < y)
  | none => false

/-- `edge_cmp::operator()(edge const&, edge const&)` (graph.hpp 53-56). -/
def edge_cmp (s : store N) (lhs rhs : edge E) : Bool :=
  match edge.read s lhs, edge.read s rhs with
  | some a, some b => gdwg.edge_cmp a b
  | _, _ => false

/-- `edge_cmp::operator()(value_type const&, edge const&)` (graph.hpp 58-61). -/
def edge_cmp_value_edge (s : store N) (lhs : value_type N E) (rhs : edge E) : Bool :=
  match edge.read s rhs with
  | some b => gdwg.edge_cmp_value_edge lhs b
  | none => false

/-- `edge_cmp::operator()(edge const&, value_type const&)` (graph.hpp 63-66). -/
def edge_cmp_edge_value (s : store N) (lhs : edge E) (rhs : value_type N E) : Bool :=
  match edge.read s lhs with
  | some a => gdwg.edge_cmp_edge_value a rhs
  | none => false

/-- The default-constructed object (graph.hpp 108). -/
def graph.empty : graph E :=
  { nodes_ := [], edges_ := [] }

/-- The graph that the object stands for: every pointer dereferenced. -/
def read (st : store N × graph E) : Option (gdwg.graph N E) :=
  match collect st.1.deref st.2.nodes_, collect (edge.read st.1) st.2.edges_ with
  | some ns, some es => some ⟨ns, es⟩
  | _, _ => none

variable (alloc : store N → Nat)

/-- `nodes_.emplace(value)`: the node is constructed, which makes a box, and is
destroyed again when an equivalent node was there. -/
def emplace_node (st : store N × graph E) (value : N) : Bool × store N × graph E :=
  let p := alloc st.1
  let s1 := st.1.make_unique p value
  let r := stdset.emplace (node_cmp s1) p st.2.nodes_
  (r.2, (if r.2 then s1 else s1.free p), { st.2 with nodes_ := r.1 })

/-- `nodes_.erase(pos)` for an iterator `pos` denoting the node `p`: the node
is destroyed and with it the box. -/
def erase_node_at (st : store N × graph E) (p : Nat) : store N × graph E :=
  (st.1.free p, { st.2 with nodes_ := stdset.erase p st.2.nodes_ })

/-- `graph::is_node` (graph.hpp 321-323). -/
def is_node (st : store N × graph E) (value : N) : Bool :=
  (stdset.find (node_cmp_node_value st.1) (node_cmp_value_node st.1) value st.2.nodes_).isSome

/-- `graph::insert_node` (graph.hpp 208-210). -/
def insert_node (st : store N × graph E) (value : N) : Bool × store N × graph E :=
  emplace_node alloc st value

/-- `graph::insert_edge` (graph.hpp 212-220). -/
def insert_edge (st : store N × graph E) (src dest : N) (weight : E) :
    Except exception Bool × store N × graph E :=
  match stdset.find (node_cmp_node_value st.1) (node_cmp_value_node st.1) src st.2.nodes_,
        stdset.find (node_cmp_node_value st.1) (node_cmp_value_node st.1) dest st.2.nodes_ with
  | some s, some d =>
    (.ok (stdset.emplace (edge_cmp st.1) ⟨s, d, weight⟩ st.2.edges_).2,
     st.1, { st.2 with edges_ := (stdset.emplace (edge_cmp st.1) ⟨s, d, weight⟩ st.2.edges_).1 })
  | _, _ =>
    (.error (.runtime_error
      "Cannot call gdwg::graph<N, E>::insert_edge when either src or dst node does not exist"), st)

/-- `graph::erase_edge(N const&, N const&, E const&)` (graph.hpp 293-306). -/
def erase_edge (st : store N × graph E) (src dest : N) (weight : E) :
    Except exception Bool × store N × graph E :=
  match stdset.find (node_cmp_node_value st.1) (node_cmp_value_node st.1) src st.2.nodes_,
        stdset.find (node_cmp_node_value st.1) (node_cmp_value_node st.1) dest st.2.nodes_ with
  | some _, some _ =>
    match stdset.find (edge_cmp_edge_value st.1) (edge_cmp_value_edge st.1)
        (value_type.mk src dest weight) st.2.edges_ with
    | none => (.ok false, st)
    | some e => (.ok true, st.1, { st.2 with edges_ := stdset.erase e st.2.edges_ })
  | _, _ =>
    (.error (.runtime_error
      "Cannot call gdwg::graph<N, E>::erase_edge on src or dst if they don't exist in the graph"), st)

/-- The first loop of `replace_node`, `merge_replace_node` and `erase_node`
(graph.hpp 232-237, 258-263, 280-285): the snapshots, in set order, of the
edges whose `src` or `dest` is the pointer to the box of the given node. -/
def incident_edges (st : store N × graph E) (node : Nat) : List (value_type N E) :=
  (st.2.edges_.filter (fun e => decide (e.src = node) || decide (e.dest = node))).filterMap
    (fun e => (edge.read st.1 e).map gdwg.edge.value)

/-- The callable of the second loop of `replace_node` (graph.hpp 238-243). -/
def replace_node_body (old_data new_data : N) (e : value_type N E) (st : store N × graph E) :
    Except exception Unit × store N × graph E :=
  let new_src := if e.from_ = old_data then new_data else e.from_
  let new_dest := if e.to_ = old_data then new_data else e.to_
  match insert_edge st new_src new_dest e.weight with
  | (.error ex, st1) => (.error ex, st1)
  | (.ok _, st1) =>
    match erase_edge st1 e.from_ e.to_ e.weight with
    | (.error ex, st2) => (.error ex, st2)
    | (.ok _, st2) => (.ok (), st2)

/-- `graph::replace_node` (graph.hpp 222-246). -/
def replace_node (st : store N × graph E) (old_data new_data : N) :
    Except exception Bool × store N × graph E :=
  match stdset.find (node_cmp_node_value st.1) (node_cmp_value_node st.1) old_data st.2.nodes_ with
  | none =>
    (.error (.runtime_error
      "Cannot call gdwg::graph<N, E>::replace_node on a node that doesn't exist"), st)
  | some old_node =>
    if is_node st new_data then (.ok false, st)
    else
      let st1 := (emplace_node alloc st new_data).2
      match for_each (incident_edges st1 old_node) (replace_node_body old_data new_data) st1 with
      | (.error ex, st2) => (.error ex, st2)
      | (.ok _, st2) => (.ok true, erase_node_at st2 old_node)

/-- The callable of the second loop of `merge_replace_node` (graph.hpp 264-271). -/
def merge_replace_node_body (old_data new_data : N) (e : value_type N E)
    (st : store N × graph E) : Except exception Unit × store N × graph E :=
  let new_src := if e.from_ = old_data then new_data else e.from_
  let new_dest := if e.to_ = old_data then new_data else e.to_
  let r : Except exception Unit × store N × graph E :=
    match stdset.find (edge_cmp_edge_value st.1) (edge_cmp_value_edge st.1)
        (value_type.mk new_src new_dest e.weight) st.2.edges_ with
    | none =>
      match insert_edge st new_src new_dest e.weight with
      | (.error ex, st1) => (.error ex, st1)
      | (.ok _, st1) => (.ok (), st1)
    | some _ => (.ok (), st)
  match r with
  | (.error ex, st1) => (.error ex, st1)
  | (.ok _, st1) =>
    match erase_edge st1 e.from_ e.to_ e.weight with
    | (.error ex, st2) => (.error ex, st2)
    | (.ok _, st2) => (.ok (), st2)

/-- `graph::merge_replace_node` (graph.hpp 248-273). -/
def merge_replace_node (st : store N × graph E) (old_data new_data : N) :
    Except exception Unit × store N × graph E :=
  match stdset.find (node_cmp_node_value st.1) (node_cmp_value_node st.1) old_data st.2.nodes_,
        stdset.find (node_cmp_node_value st.1) (node_cmp_value_node st.1) new_data st.2.nodes_ with
  | some old_node, some new_node =>
    if old_node = new_node then (.ok (), st)
    else
      match for_each (incident_edges st old_node) (merge_replace_node_body old_data new_data)
          st with
      | (.error ex, st2) => (.error ex, st2)
      | (.ok _, st2) => (.ok (), erase_node_at st2 old_node)
  | _, _ =>
    (.error (.runtime_error
      "Cannot call gdwg::graph<N, E>::merge_replace_node on old or new data if they don't exist in the graph"),
     st)

/-- The callable of the second loop of `erase_node` (graph.hpp 286-288). -/
def erase_node_body (e : value_type N E) (st : store N × graph E) :
    Except exception Unit × store N × graph E :=
  match erase_edge st e.from_ e.to_ e.weight with
  | (.error ex, st1) => (.error ex, st1)
  | (.ok _, st1) => (.ok (), st1)

/-- `graph::erase_node` (graph.hpp 275-291). -/
def erase_node (st : store N × graph E) (value : N) :
    Except exception Bool × store N × graph E :=
  match stdset.find (node_cmp_node_value st.1) (node_cmp_value_node st.1) value st.2.nodes_ with
  | none => (.ok false, st)
  | some node =>
    match for_each (incident_edges st node) erase_node_body st with
    | (.error ex, st2) => (.error ex, st2)
    | (.ok _, st2) => (.ok true, erase_node_at st2 node)

/-- `graph::erase_edge(iterator)` (graph.hpp 308-310); an iterator is the edge
it denotes, `none` is `end()`, where the model leaves the object as it is. -/
def erase_edge_iterator (st : store N × graph E) (i : Option (edge E)) :
    Option (edge E) × store N × graph E :=
  match i with
  | none => (none, st)
  | some e => (stdset.after e st.2.edges_, st.1, { st.2 with edges_ := stdset.erase e st.2.edges_ })

/-- `graph::erase_edge(iterator, iterator)` (graph.hpp 311-313). -/
def erase_edge_range (st : store N × graph E) (i s : Option (edge E)) :
    Option (edge E) × store N × graph E :=
  (s, st.1, { st.2 with edges_ := stdset.erase_range i s st.2.edges_ })

/-- `graph::clear` (graph.hpp 315-318): every node is destroyed and with it its
box. -/
def clear (st : store N × graph E) : store N × graph E :=
  (st.2.nodes_.foldl store.free st.1, { nodes_ := [], edges_ := [] })

/-- `graph::nodes` (graph.hpp 345-351). -/
def nodes (st : store N × graph E) : Option (List N) :=
  collect st.1.deref st.2.nodes_

/-- `graph::is_connected` (graph.hpp 329-343). -/
def is_connected (st : store N × graph E) (src dest : N) : Except exception Bool :=
  match stdset.find (node_cmp_node_value st.1) (node_cmp_value_node st.1) src st.2.nodes_,
        stdset.find (node_cmp_node_value st.1) (node_cmp_value_node st.1) dest st.2.nodes_ with
  | some s, some d =>
    .ok (st.2.edges_.find? (fun e => decide (e.src = s) && decide (e.dest = d))).isSome
  | _, _ =>
    .error (.runtime_error
      "Cannot call gdwg::graph<N, E>::is_connected if src or dst node don't exist in the graph")

/-- `node::operator==` (graph.hpp 72-74). -/
def node_eq (s : store N) (n other : Nat) : Bool :=
  match s.deref n, s.deref other with
  | some x, some y => decide (x = y)
  | _, _ => false

/-- `edge::operator==` (graph.hpp 33-35). -/
def edge.eq (s : store N) (e other : edge E) : Bool :=
  match edge.read s e, edge.read s other with
  | some a, some b => gdwg.edge.eq a b
  | _, _ => false

/-- `graph::operator==` (graph.hpp 398) on two objects of the store: the
defaulted comparison, member by member. -/
def eq (s : store N) (g other : graph E) : Bool :=
  stdset.eq (node_eq s) g.nodes_ other.nodes_ && stdset.eq (edge.eq s) g.edges_ other.edges_

/-- `operator<<` (graph.hpp 401-413): the text written to the stream, `none`
when a pointer without a box is dereferenced. -/
def output (put_N : N → String) (put_E : E → String) (st : store N × graph E) :
    Option String :=
  st.2.nodes_.foldlM
    (fun oss n =>
      match st.1.deref n with
      | none => none
      | some v =>
        (st.2.edges_.foldlM
          (fun oss e =>
            if e.src = n then
              match st.1.deref e.dest with
              | none => none
              | some d => some (oss ++ "  " ++ put_N d ++ " | " ++ put_E e.weight ++ "\n")
            else some oss)
          (oss ++ put_N v ++ " (\n")).map (fun oss => oss ++ ")\n"))
    ""

/-- The callable of the first loop of the copy operations
(graph.hpp 126-128, 139-141): `insert_node(*n.value)` on the object under
construction, for a node `n` of the original. -/
def copy_node (n : Nat) (st : store N × graph E) : store N × graph E :=
  match st.1.deref n with
  | some v => (insert_node alloc st v).2
  | none => st

/-- The callable of the second loop of the copy operations
(graph.hpp 129-131, 142-144): `insert_edge(*e.src, *e.dest, *e.weight)` on the
object under construction, for an edge `e` of the original. -/
def copy_edge (e : edge E) (st : store N × graph E) :
    Except exception Unit × store N × graph E :=
  match edge.read st.1 e with
  | some v =>
    match insert_edge st v.src v.dest v.weight with
    | (.error ex, st1) => (.error ex, st1)
    | (.ok _, st1) => (.ok (), st1)
  | none => (.ok (), st)

/-- `graph::graph(graph const&)` (graph.hpp 125-132) in the store `s`: the
store afterwards with the constructed object, and whether an `insert_edge`
threw on the way. -/
def copy (s : store N) (orig : graph E) : Except exception Unit × store N × graph E :=
  for_each orig.edges_ (copy_edge)
    (orig.nodes_.foldl (fun st n => copy_node alloc n st) (s, graph.empty))

/-- `graph::operator=(graph const&)` (graph.hpp 135-147) on the target object
of the state; `same_object` is the outcome of `this != &orig` being false. -/
def copy_assign (st : store N × graph E) (orig : graph E) (same_object : Bool) :
    Except exception Unit × store N × graph E :=
  if same_object then (.ok (), st)
  else
    for_each orig.edges_ (copy_edge)
      (orig.nodes_.foldl (fun st n => copy_node alloc n st) (clear st))

/-- The object and the graph it stands for: every node box holds the value of
the node at its place, every edge reads as the edge at its place, the pointers
of the edges go to boxes of the object's own nodes, and the graph satisfies the
invariant of the representation. -/
structure Boxed (st : store N × graph E) (g : gdwg.graph N E) : Prop where
  nodes : List.Forall₂ (fun p v => st.1.deref p = some v) st.2.nodes_ g.nodes_
  edges : List.Forall₂ (fun pe e => edge.read st.1 pe = some e) st.2.edges_ g.edges_
  owned : st.2.Owned
  wf : g.WF

/-- What a call on an object does to the rest of the store: a box in use that
no node of the object owns is left as it is, and a node that the object has
afterwards is one it had or owns a box at an address that was not in use. -/
def Frame (st st' : store N × graph E) : Prop :=
  (∀ p, p ∉ st.2.nodes_ → st.1.deref p ≠ none → st'.1.deref p = st.1.deref p) ∧
  (∀ p ∈ st'.2.nodes_, p ∈ st.2.nodes_ ∨ st.1.deref p = none)

end

end boxed

/-- A call of a modifier of the graph; an iterator argument is given by its
position in the edge sequence, the number of edges standing for `end()`. -/
inductive mutation (N E : Type) where
  | insert_node (value : N)
  | insert_edge (src dest : N) (weight : E)
  | replace_node (old_data new_data : N)
  | merge_replace_node (old_data new_data : N)
  | erase_node (value : N)
  | erase_edge (src dest : N) (weight : E)
  | erase_edge_iterator (i : Nat)
  | erase_edge_range (i s : Nat)
  | clear

section
variable {N E : Type} [LinearOrder N] [LinearOrder E]

/-- The graph after a call of a modifier, also when the call throws. -/
def mutation.apply (m : mutation N E) (g : graph N E) : graph N E :=
  match m with
  | .insert_node v => (gdwg.insert_node g v).2
  | .insert_edge s d w => (gdwg.insert_edge g s d w).2
  | .replace_node a b => (gdwg.replace_node g a b).2
  | .merge_replace_node a b => (gdwg.merge_replace_node g a b).2
  | .erase_node v => (gdwg.erase_node g v).2
  | .erase_edge s d w => (gdwg.erase_edge g s d w).2
  | .erase_edge_iterator i => (gdwg.erase_edge_iterator g (g.at_ i)).2
  | .erase_edge_range i s => (gdwg.erase_edge_range g (g.at_ i) (g.at_ s)).2
  | .clear => gdwg.clear g

/-- The store and the object after a call of a modifier on the object, also
when the call throws. -/
def boxed.apply (alloc : store N → Nat) (m : mutation N E) (st : store N × boxed.graph E) :
    store N × boxed.graph E :=
  match m with
  | .insert_node v => (boxed.insert_node alloc st v).2
  | .insert_edge s d w => (boxed.insert_edge st s d w).2
  | .replace_node a b => (boxed.replace_node alloc st a b).2
  | .merge_replace_node a b => (boxed.merge_replace_node st a b).2
  | .erase_node v => (boxed.erase_node st v).2
  | .erase_edge s d w => (boxed.erase_edge st s d w).2
  | .erase_edge_iterator i => (boxed.erase_edge_iterator st (st.2.edges_.get? i)).2
  | .erase_edge_range i s =>
    (boxed.erase_edge_range st (st.2.edges_.get? i) (st.2.edges_.get? s)).2
  | .clear => boxed.clear st

/-- The call is made as C++ requires: an iterator to erase at denotes an edge,
and a range of positions is in order and within the edge sequence. -/
def mutation.Valid (m : mutation N E) (g : graph N E) : Prop :=
  match m with
  | .erase_edge_iterator i => i < g.edges_.length
  | .erase_edge_range i s => i ≤ s ∧ s ≤ g.edges_.length
  | _ => True

/-- Every call of the sequence is made as C++ requires, in the graph that the
calls before it give. -/
def mutation.ValidRun : List (mutation N E) → graph N E → Prop
  | [], _ => True
  | m :: ms, g => m.Valid g ∧ mutation.ValidRun ms (m.apply g)

/-- The graph after a sequence of calls of modifiers. -/
def mutation.run (ms : List (mutation N E)) (g : graph N E) : graph N E :=
  ms.foldl (fun g m => m.apply g) g

/-- The store and the object after a sequence of calls of modifiers on the
object. -/
def boxed.run (alloc : store N → Nat) (ms : List (mutation N E))
    (st : store N × boxed.graph E) : store N × boxed.graph E :=
  ms.foldl (fun st m => boxed.apply alloc m st) st

end

end gdwg

namespace gdwg

/-- The object of the test case "Copy constructor"
(graph_construct_assign_test.cpp 183-215), built in an empty store, with
are, good, hello, how numbered 1, 2, 3, 4 in their order. -/
def boxed.test_copy_orig : store Nat × boxed.graph Int :=
  (boxed.insert_edge (boxed.insert_edge (boxed.insert_edge (boxed.insert_edge
    (boxed.insert_node store.bump (boxed.insert_node store.bump
      (boxed.insert_node store.bump (⟨[]⟩, boxed.graph.empty) 3).2 4).2 1).2
        3 4 5).2 3 1 8).2 1 4 2).2 1 1 4).2

/-- A second object in the store of the first, with the nodes 10, 11, 12 and
the edges 10 -> 11 (5) and 11 -> 11 (4). -/
def boxed.test_copy_target : store Nat × boxed.graph Int :=
  (boxed.insert_edge (boxed.insert_edge
    (boxed.insert_node store.bump (boxed.insert_node store.bump
      (boxed.insert_node store.bump (boxed.test_copy_orig.1, boxed.graph.empty) 10).2 11).2 12).2
        10 11 5).2 11 11 4).2

end gdwg

/-! ## Facts about the set operations -/

namespace gdwg

namespace stdset
variable {T K : Type} {cmp : T → T → Bool}

theorem StrictTotal.ne_of_lt (h : StrictTotal cmp) {a b : T} (hab : cmp a b = true) : a ≠ b := by
  rintro rfl
  rw [h.irrefl] at hab
  exact Bool.false_ne_true hab

theorem mem_emplace (h : StrictTotal cmp) (x y : T) (l : List T) :
    y ∈ (emplace cmp x l).1 ↔ y = x ∨ y ∈ l := by
  induction l with
  | nil => simp [emplace]
  | cons z zs ih =>
    unfold emplace
    cases h1 : cmp x z with
    | true => simp
    | false =>
      cases h2 : cmp z x with
      | true =>
        simp only [Bool.false_eq_true, if_true, if_false, List.mem_cons, ih]
        tauto
      | false =>
        have hxz : x = z := h.tri x z h1 h2
        simp [hxz]

theorem sorted_emplace (h : StrictTotal cmp) (x : T) (l : List T) (hs : Sorted cmp l) :
    Sorted cmp (emplace cmp x l).1 := by
  induction l with
  | nil => simp [emplace, Sorted]
  | cons z zs ih =>
    unfold emplace
    have hz := List.pairwise_cons.1 hs
    cases h1 : cmp x z with
    | true =>
      simp only [if_true]
      refine List.pairwise_cons.2 ⟨fun a ha => ?_, hs⟩
      rcases List.mem_cons.1 ha with rfl | ha
      · exact h1
      · exact h.trans _ _ _ h1 (hz.1 a ha)
    | false =>
      cases h2 : cmp z x with
      | true =>
        simp only [Bool.false_eq_true, if_true, if_false]
        refine List.pairwise_cons.2 ⟨fun a ha => ?_, ih hz.2⟩
        rcases (mem_emplace h x a zs).1 ha with rfl | ha
        · exact h2
        · exact hz.1 a ha
      | false => simpa using hs

theorem Sorted.nodup (h : StrictTotal cmp) {l : List T} (hs : Sorted cmp l) : l.Nodup :=
  List.Pairwise.imp (fun {_ _} hab => h.ne_of_lt hab) hs

theorem Sorted.not_mem_of_lt (h : StrictTotal cmp) {x z : T} {zs : List T}
    (hs : Sorted cmp (z :: zs)) (hxz : cmp x z = true) : x ∉ z :: zs := by
  intro hx
  have hz := List.pairwise_cons.1 hs
  rcases List.mem_cons.1 hx with rfl | hx
  · exact h.ne_of_lt hxz rfl
  · exact h.ne_of_lt (h.trans _ _ _ (hz.1 x hx) hxz) rfl

theorem emplace_snd (h : StrictTotal cmp) [DecidableEq T] (x : T) (l : List T)
    (hs : Sorted cmp l) : (emplace cmp x l).2 = decide (x ∉ l) := by
  induction l with
  | nil => simp [emplace]
  | cons z zs ih =>
    unfold emplace
    have hz := List.pairwise_cons.1 hs
    cases h1 : cmp x z with
    | true =>
      have := Sorted.not_mem_of_lt h hs h1
      simp only [if_true]
      exact (decide_eq_true this).symm
    | false =>
      cases h2 : cmp z x with
      | true =>
        have hne : x ≠ z := (h.ne_of_lt h2).symm
        simp only [Bool.false_eq_true, if_true, if_false, ih hz.2, List.mem_cons, hne, false_or]
      | false =>
        have hxz : x = z := h.tri x z h1 h2
        simp [hxz]

theorem emplace_fst_of_mem (h : StrictTotal cmp) (x : T) (l : List T) (hs : Sorted cmp l)
    (hx : x ∈ l) : (emplace cmp x l).1 = l := by
  induction l with
  | nil => simp at hx
  | cons z zs ih =>
    unfold emplace
    have hz := List.pairwise_cons.1 hs
    cases h1 : cmp x z with
    | true => exact absurd hx (Sorted.not_mem_of_lt h hs h1)
    | false =>
      cases h2 : cmp z x with
      | true =>
        have hne : x ≠ z := (h.ne_of_lt h2).symm
        have hx2 : x ∈ zs := by
          rcases List.mem_cons.1 hx with h3 | h3
          · exact absurd h3 hne
          · exact h3
        simp only [Bool.false_eq_true, if_true, if_false, ih hz.2 hx2]
      | false => simp

theorem emplace_length (x : T) (l : List T) (h : (emplace cmp x l).2 = true) :
    (emplace cmp x l).1.length = l.length + 1 := by
  induction l with
  | nil => rfl
  | cons z zs ih =>
    unfold emplace at h ⊢
    cases h1 : cmp x z with
    | true => simp
    | false =>
      cases h2 : cmp z x with
      | true =>
        simp only [h1, h2, Bool.false_eq_true, if_true, if_false] at h ⊢
        simp [ih h]
      | false => simp [h1, h2] at h

theorem find_eq (h : StrictTotal cmp) (cek : T → K → Bool) (cke : K → T → Bool) (f : K → T)
    (hek : ∀ e k, cek e k = cmp e (f k)) (hke : ∀ k e, cke k e = cmp (f k) e)
    [DecidableEq T] (k : K) (l : List T) (hs : Sorted cmp l) :
    find cek cke k l = if f k ∈ l then some (f k) else none := by
  induction l with
  | nil => simp [find]
  | cons z zs ih =>
    unfold find
    have hz := List.pairwise_cons.1 hs
    rw [hek, hke]
    cases h1 : cmp z (f k) with
    | true =>
      have hne : f k ≠ z := (h.ne_of_lt h1).symm
      simp only [if_true, ih hz.2, List.mem_cons, hne, false_or]
    | false =>
      cases h2 : cmp (f k) z with
      | true =>
        have := Sorted.not_mem_of_lt h hs h2
        simp only [Bool.false_eq_true, if_true, if_false, this]
      | false =>
        have hxz : f k = z := h.tri _ _ h2 h1
        simp [hxz]

theorem mem_erase (h : StrictTotal cmp) [DecidableEq T] (x y : T) (l : List T)
    (hs : Sorted cmp l) : y ∈ erase x l ↔ y ≠ x ∧ y ∈ l :=
  (Sorted.nodup h hs).mem_erase_iff

theorem sorted_erase [DecidableEq T] (x : T) (l : List T) (hs : Sorted cmp l) :
    Sorted cmp (erase x l) :=
  List.Pairwise.sublist (List.erase_sublist x l) hs

theorem erase_range_sublist [DecidableEq T] (first last : Option T) (l : List T) :
    (erase_range first last l).Sublist l := by
  unfold erase_range
  conv_rhs => rw [← List.takeWhile_append_dropWhile (fun x => decide (some x ≠ first)) l]
  exact List.Sublist.append (List.Sublist.refl _) (List.dropWhile_sublist _)

theorem after_append [DecidableEq T] (x : T) (pre rest : List T) (hx : x ∉ pre) :
    after x (pre ++ x :: rest) = rest.head? := by
  induction pre with
  | nil => simp [after]
  | cons p ps ih =>
    have hp : p ≠ x := fun hpx => hx (by simp [hpx])
    have hps : x ∉ ps := fun hxs => hx (List.mem_cons_of_mem _ hxs)
    simp [after, hp, ih hps]

end stdset

end gdwg

/-! ## The comparators are strict total orders -/

namespace gdwg
section
variable {N E : Type} [LinearOrder N] [LinearOrder E]

theorem tie_lt_iff (a1 a2 : N) (a3 : E) (b1 b2 : N) (b3 : E) :
    tie_lt a1 a2 a3 b1 b2 b3 = true ↔
      toLex (a1, toLex (a2, a3)) < toLex (b1, toLex (b2, b3)) := by
  unfold tie_lt
  simp only [Prod.Lex.lt_iff]
  split_ifs with h1 h2 h3 h4
  · simp [h1]
  · simp [h1, ne_of_gt h2]
  · have h12 : a1 = b1 := le_antisymm (not_lt.1 h2) (not_lt.1 h1)
    simp [h12, h3]
  · have h12 : a1 = b1 := le_antisymm (not_lt.1 h2) (not_lt.1 h1)
    simp [h12, h3, ne_of_gt h4]
  · have h12 : a1 = b1 := le_antisymm (not_lt.1 h2) (not_lt.1 h1)
    have h34 : a2 = b2 := le_antisymm (not_lt.1 h4) (not_lt.1 h3)
    simp [h12, h34]

theorem edge_cmp_iff (a b : edge N E) : edge_cmp a b = true ↔ a.key < b.key :=
  tie_lt_iff _ _ _ _ _ _

theorem edge.key_injective (a b : edge N E) (h : a.key = b.key) : a = b := by
  cases a; cases b
  simp only [edge.key] at h
  have h1 := congrArg (fun p => (ofLex p).1) h
  have h2 := congrArg (fun p => (ofLex (ofLex p).2).1) h
  have h3 := congrArg (fun p => (ofLex (ofLex p).2).2) h
  simp at h1 h2 h3
  simp [h1, h2, h3]

theorem edge_cmp_strictTotal : stdset.StrictTotal (edge_cmp : edge N E → edge N E → Bool) where
  irrefl a := by
    rw [Bool.eq_false_iff, Ne, edge_cmp_iff]
    exact lt_irrefl _
  trans a b c hab hbc := by
    rw [edge_cmp_iff] at *
    exact lt_trans hab hbc
  tri a b hab hba := by
    rw [Bool.eq_false_iff, Ne, edge_cmp_iff] at hab hba
    exact edge.key_injective a b (le_antisymm (not_lt.1 hba) (not_lt.1 hab))

theorem node_cmp_strictTotal : stdset.StrictTotal (node_cmp : N → N → Bool) where
  irrefl a := by simp [node_cmp]
  trans a b c hab hbc := by
    simp only [node_cmp, decide_eq_true_eq] at *
    exact lt_trans hab hbc
  tri a b hab hba := by
    simp only [node_cmp, decide_eq_false_iff_not] at *
    exact le_antisymm (not_lt.1 hba) (not_lt.1 hab)

end
end gdwg

/-! ## The primitive calls on a well-formed graph -/

namespace gdwg
section
variable {N E : Type} [LinearOrder N] [LinearOrder E]

theorem find_node_eq (v : N) (l : List N) (hs : stdset.Sorted node_cmp l) :
    stdset.find node_cmp node_cmp v l = if v ∈ l then some v else none :=
  stdset.find_eq node_cmp_strictTotal node_cmp node_cmp id (fun _ _ => rfl) (fun _ _ => rfl) v l hs

theorem find_edge_eq (v : value_type N E) (l : List (edge N E))
    (hs : stdset.Sorted edge_cmp l) :
    stdset.find edge_cmp_edge_value edge_cmp_value_edge v l
      = if (⟨v.from_, v.to_, v.weight⟩ : edge N E) ∈ l then some ⟨v.from_, v.to_, v.weight⟩
        else none :=
  stdset.find_eq edge_cmp_strictTotal edge_cmp_edge_value edge_cmp_value_edge
    (fun (v : value_type N E) => (⟨v.from_, v.to_, v.weight⟩ : edge N E))
    (fun _ _ => rfl) (fun _ _ => rfl) v l hs

theorem is_node_iff (g : graph N E) (hs : stdset.Sorted node_cmp g.nodes_) (v : N) :
    is_node g v = true ↔ v ∈ g.nodes_ := by
  unfold is_node
  rw [find_node_eq v _ hs]
  by_cases h : v ∈ g.nodes_ <;> simp [h]

theorem insert_edge_ok (g : graph N E) (s d : N) (w : E)
    (hs : stdset.Sorted node_cmp g.nodes_) (h1 : s ∈ g.nodes_) (h2 : d ∈ g.nodes_) :
    insert_edge g s d w
      = (.ok (stdset.emplace edge_cmp ⟨s, d, w⟩ g.edges_).2,
         { g with edges_ := (stdset.emplace edge_cmp ⟨s, d, w⟩ g.edges_).1 }) := by
  unfold insert_edge
  rw [find_node_eq s _ hs, find_node_eq d _ hs]
  simp [h1, h2]

theorem insert_edge_error (g : graph N E) (s d : N) (w : E)
    (hs : stdset.Sorted node_cmp g.nodes_) (h : s ∉ g.nodes_ ∨ d ∉ g.nodes_) :
    insert_edge g s d w
      = (.error (.runtime_error
          "Cannot call gdwg::graph<N, E>::insert_edge when either src or dst node does not exist"),
         g) := by
  unfold insert_edge
  rw [find_node_eq s _ hs, find_node_eq d _ hs]
  rcases h with h | h
  · simp [h]
  · by_cases h1 : s ∈ g.nodes_ <;> simp [h, h1]

theorem erase_edge_ok (g : graph N E) (s d : N) (w : E)
    (hs : stdset.Sorted node_cmp g.nodes_) (he : stdset.Sorted edge_cmp g.edges_)
    (h1 : s ∈ g.nodes_) (h2 : d ∈ g.nodes_) :
    erase_edge g s d w
      = (.ok (decide ((⟨s, d, w⟩ : edge N E) ∈ g.edges_)),
         { g with edges_ := stdset.erase ⟨s, d, w⟩ g.edges_ }) := by
  unfold erase_edge
  rw [find_node_eq s _ hs, find_node_eq d _ hs, find_edge_eq _ _ he]
  by_cases h : (⟨s, d, w⟩ : edge N E) ∈ g.edges_
  · simp [h1, h2, h]
  · simp [h1, h2, h, stdset.erase, List.erase_of_not_mem h]

theorem erase_edge_error (g : graph N E) (s d : N) (w : E)
    (hs : stdset.Sorted node_cmp g.nodes_) (h : s ∉ g.nodes_ ∨ d ∉ g.nodes_) :
    erase_edge g s d w
      = (.error (.runtime_error
          "Cannot call gdwg::graph<N, E>::erase_edge on src or dst if they don't exist in the graph"),
         g) := by
  unfold erase_edge
  rw [find_node_eq s _ hs, find_node_eq d _ hs]
  rcases h with h | h
  · simp [h]
  · by_cases h1 : s ∈ g.nodes_ <;> simp [h, h1]

end
end gdwg

/-! ## The loops of the compound modifiers -/

namespace gdwg
section
variable {N E : Type} [LinearOrder N] [LinearOrder E]

theorem subst_mem (old_data new_data v : N) (ns : List N) (hn : new_data ∈ ns) (hv : v ∈ ns) :
    subst old_data new_data v ∈ ns := by
  unfold subst
  split_ifs <;> assumption

theorem subst_ne_old (old_data new_data v : N) (hne : old_data ≠ new_data) :
    subst old_data new_data v ≠ old_data := by
  unfold subst
  split_ifs with h
  · exact fun h' => hne h'.symm
  · exact h

theorem replace_node_body_eq (old_data new_data : N) (v : value_type N E) (g : graph N E)
    (hs : stdset.Sorted node_cmp g.nodes_) (he : stdset.Sorted edge_cmp g.edges_)
    (hf : v.from_ ∈ g.nodes_) (ht : v.to_ ∈ g.nodes_) (hn : new_data ∈ g.nodes_) :
    replace_node_body old_data new_data v g
      = (.ok (), { g with edges_ := rename_edge old_data new_data g.edges_ v }) := by
  obtain ⟨ns, es⟩ := g
  simp only at hs he hf ht hn
  have h1 := subst_mem old_data new_data v.from_ ns hn hf
  have h2 := subst_mem old_data new_data v.to_ ns hn ht
  unfold subst at h1 h2
  simp only [replace_node_body]
  rw [insert_edge_ok ⟨ns, es⟩ _ _ v.weight hs h1 h2]
  simp only []
  rw [erase_edge_ok (⟨ns, _⟩ : graph N E) v.from_ v.to_ v.weight hs
    (stdset.sorted_emplace edge_cmp_strictTotal _ _ he) hf ht]
  rfl

theorem merge_replace_node_body_eq (old_data new_data : N) (v : value_type N E) (g : graph N E)
    (hs : stdset.Sorted node_cmp g.nodes_) (he : stdset.Sorted edge_cmp g.edges_)
    (hf : v.from_ ∈ g.nodes_) (ht : v.to_ ∈ g.nodes_) (hn : new_data ∈ g.nodes_) :
    merge_replace_node_body old_data new_data v g
      = (.ok (), { g with edges_ := rename_edge old_data new_data g.edges_ v }) := by
  obtain ⟨ns, es⟩ := g
  simp only at hs he hf ht hn
  have h1 := subst_mem old_data new_data v.from_ ns hn hf
  have h2 := subst_mem old_data new_data v.to_ ns hn ht
  unfold subst at h1 h2
  simp only [merge_replace_node_body]
  rw [find_edge_eq _ _ he, insert_edge_ok ⟨ns, es⟩ _ _ v.weight hs h1 h2]
  by_cases hm : v.edge.subst old_data new_data ∈ es
  · have hm' := hm
    simp only [edge.subst, value_type.edge, subst] at hm'
    simp only [hm', if_true]
    rw [erase_edge_ok (⟨ns, es⟩ : graph N E) v.from_ v.to_ v.weight hs he hf ht]
    simp only [rename_edge, stdset.emplace_fst_of_mem edge_cmp_strictTotal _ _ he hm]
    rfl
  · have hm' := hm
    simp only [edge.subst, value_type.edge, subst] at hm'
    simp only [hm', if_false]
    rw [erase_edge_ok (⟨ns, _⟩ : graph N E) v.from_ v.to_ v.weight hs
      (stdset.sorted_emplace edge_cmp_strictTotal _ _ he) hf ht]
    rfl

theorem erase_node_body_eq (v : value_type N E) (g : graph N E)
    (hs : stdset.Sorted node_cmp g.nodes_) (he : stdset.Sorted edge_cmp g.edges_)
    (hf : v.from_ ∈ g.nodes_) (ht : v.to_ ∈ g.nodes_) :
    erase_node_body v g = (.ok (), { g with edges_ := drop_edge g.edges_ v }) := by
  unfold erase_node_body
  rw [erase_edge_ok g v.from_ v.to_ v.weight hs he hf ht]
  rfl

theorem for_each_edges (body : value_type N E → graph N E → Except exception Unit × graph N E)
    (step : List (edge N E) → value_type N E → List (edge N E))
    (hstep : ∀ es v, stdset.Sorted edge_cmp es → stdset.Sorted edge_cmp (step es v))
    (ns : List N) (L : List (value_type N E))
    (hbody : ∀ (g : graph N E) (v : value_type N E), g.nodes_ = ns →
      stdset.Sorted edge_cmp g.edges_ → v ∈ L →
      body v g = (.ok (), { g with edges_ := step g.edges_ v }))
    (g : graph N E) (hg : g.nodes_ = ns) (he : stdset.Sorted edge_cmp g.edges_) :
    for_each L body g = (.ok (), { g with edges_ := L.foldl step g.edges_ }) := by
  induction L generalizing g with
  | nil => rfl
  | cons v rest ih =>
    unfold for_each
    rw [hbody g v hg he (List.mem_cons_self _ _)]
    simp only []
    rw [ih (fun g' v' h1 h2 h3 => hbody g' v' h1 h2 (List.mem_cons_of_mem _ h3))
      { g with edges_ := step g.edges_ v } hg (hstep _ _ he)]
    rfl

theorem sorted_foldl (step : List (edge N E) → value_type N E → List (edge N E))
    (hstep : ∀ es v, stdset.Sorted edge_cmp es → stdset.Sorted edge_cmp (step es v))
    (L : List (value_type N E)) (es : List (edge N E)) (he : stdset.Sorted edge_cmp es) :
    stdset.Sorted edge_cmp (L.foldl step es) := by
  induction L generalizing es with
  | nil => exact he
  | cons v rest ih => exact ih _ (hstep _ _ he)

theorem sorted_rename_edge (old_data new_data : N) (es : List (edge N E)) (v : value_type N E)
    (he : stdset.Sorted edge_cmp es) :
    stdset.Sorted edge_cmp (rename_edge old_data new_data es v) :=
  stdset.sorted_erase _ _ (stdset.sorted_emplace edge_cmp_strictTotal _ _ he)

theorem sorted_drop_edge (es : List (edge N E)) (v : value_type N E)
    (he : stdset.Sorted edge_cmp es) : stdset.Sorted edge_cmp (drop_edge es v) :=
  stdset.sorted_erase _ _ he

theorem mem_rename_edge (old_data new_data : N) (es : List (edge N E)) (v : value_type N E)
    (he : stdset.Sorted edge_cmp es) (x : edge N E) :
    x ∈ rename_edge old_data new_data es v
      ↔ x ≠ v.edge ∧ (x = v.edge.subst old_data new_data ∨ x ∈ es) := by
  unfold rename_edge
  rw [stdset.mem_erase edge_cmp_strictTotal _ _ _
    (stdset.sorted_emplace edge_cmp_strictTotal _ _ he), stdset.mem_emplace edge_cmp_strictTotal]

end
end gdwg

namespace gdwg
section
variable {N E : Type} [LinearOrder N] [LinearOrder E]

theorem mem_incident_edges (g : graph N E) (node : N) (v : value_type N E) :
    v ∈ incident_edges g node ↔ v.edge ∈ g.edges_ ∧ (v.from_ = node ∨ v.to_ = node) := by
  unfold incident_edges
  simp only [List.mem_map, List.mem_filter, Bool.or_eq_true, decide_eq_true_eq]
  constructor
  · rintro ⟨e, ⟨he, hinc⟩, rfl⟩
    exact ⟨he, hinc⟩
  · rintro ⟨he, hinc⟩
    exact ⟨v.edge, ⟨he, hinc⟩, rfl⟩

theorem edge.subst_ne (old_data new_data : N) (hne : old_data ≠ new_data) (e : edge N E) :
    (e.subst old_data new_data).src ≠ old_data ∧ (e.subst old_data new_data).dest ≠ old_data :=
  ⟨subst_ne_old _ _ _ hne, subst_ne_old _ _ _ hne⟩

theorem edge.subst_of_not_incident (old_data new_data : N) (e : edge N E)
    (h1 : e.src ≠ old_data) (h2 : e.dest ≠ old_data) : e.subst old_data new_data = e := by
  cases e
  simp only [edge.subst, gdwg.subst] at *
  simp [h1, h2]

theorem mem_foldl_rename_edge (old_data new_data : N) (hne : old_data ≠ new_data)
    (L : List (value_type N E)) (es : List (edge N E)) (he : stdset.Sorted edge_cmp es)
    (hL : ∀ v ∈ L, v.from_ = old_data ∨ v.to_ = old_data) (x : edge N E) :
    x ∈ L.foldl (rename_edge old_data new_data) es
      ↔ (x ∈ es ∧ x.value ∉ L) ∨ ∃ v ∈ L, x = v.edge.subst old_data new_data := by
  induction L generalizing es with
  | nil => simp
  | cons v rest ih =>
    have hrest : ∀ v ∈ rest, v.from_ = old_data ∨ v.to_ = old_data :=
      fun u hu => hL u (List.mem_cons_of_mem _ hu)
    have hv := hL v (List.mem_cons_self _ _)
    have hsub := edge.subst_ne old_data new_data hne v.edge
    rw [List.foldl_cons, ih _ (sorted_rename_edge _ _ _ _ he) hrest, mem_rename_edge _ _ _ _ he]
    simp only [List.mem_cons, not_or, exists_eq_or_imp]
    constructor
    · rintro (⟨⟨h1, h2 | h2⟩, h3⟩ | h4)
      · exact Or.inr (Or.inl h2)
      · refine Or.inl ⟨h2, fun h => h1 ?_, h3⟩
        rw [← h]; rfl
      · exact Or.inr (Or.inr h4)
    · rintro (⟨h1, h2, h3⟩ | h4 | h4)
      · exact Or.inl ⟨⟨fun h => h2 (by rw [h]; rfl), Or.inr h1⟩, h3⟩
      · refine Or.inl ⟨⟨?_, Or.inl h4⟩, ?_⟩
        · intro heq
          have h5 : v.edge.subst old_data new_data = v.edge := by rw [← h4, heq]
          rcases hv with hv | hv
          · exact hsub.1 (by rw [h5]; exact hv)
          · exact hsub.2 (by rw [h5]; exact hv)
        · intro hmem
          rcases hrest _ hmem with h5 | h5
          · exact hsub.1 (by rw [← h4]; exact h5)
          · exact hsub.2 (by rw [← h4]; exact h5)
      · exact Or.inr h4

theorem mem_foldl_drop_edge (L : List (value_type N E)) (es : List (edge N E))
    (he : stdset.Sorted edge_cmp es) (x : edge N E) :
    x ∈ L.foldl drop_edge es ↔ x ∈ es ∧ x.value ∉ L := by
  induction L generalizing es with
  | nil => simp
  | cons v rest ih =>
    rw [List.foldl_cons, ih _ (sorted_drop_edge _ _ he)]
    unfold drop_edge
    rw [stdset.mem_erase edge_cmp_strictTotal _ _ _ he]
    simp only [List.mem_cons, not_or]
    constructor
    · rintro ⟨⟨h1, h2⟩, h3⟩
      exact ⟨h2, fun h => h1 (by rw [← h]; rfl), h3⟩
    · rintro ⟨h1, h2, h3⟩
      exact ⟨⟨fun h => h2 (by rw [h]; rfl), h1⟩, h3⟩

end
end gdwg

/-! ## What the compound modifiers compute on a well-formed graph -/

namespace gdwg
section
variable {N E : Type} [LinearOrder N] [LinearOrder E]

theorem mem_renamed_edges (old_data new_data : N) (hne : old_data ≠ new_data)
    (ns : List N) (es : List (edge N E)) (he : stdset.Sorted edge_cmp es) (x : edge N E) :
    x ∈ (incident_edges (⟨ns, es⟩ : graph N E) old_data).foldl (rename_edge old_data new_data) es
      ↔ ∃ e ∈ es, x = e.subst old_data new_data := by
  rw [mem_foldl_rename_edge old_data new_data hne _ es he
    (fun v hv => ((mem_incident_edges _ _ v).1 hv).2)]
  constructor
  · rintro (⟨h1, h2⟩ | ⟨v, hv, rfl⟩)
    · refine ⟨x, h1, (edge.subst_of_not_incident _ _ x ?_ ?_).symm⟩
      · exact fun h => h2 ((mem_incident_edges _ _ _).2 ⟨h1, Or.inl h⟩)
      · exact fun h => h2 ((mem_incident_edges _ _ _).2 ⟨h1, Or.inr h⟩)
    · exact ⟨v.edge, ((mem_incident_edges _ _ v).1 hv).1, rfl⟩
  · rintro ⟨e, h1, rfl⟩
    by_cases hinc : e.src = old_data ∨ e.dest = old_data
    · exact Or.inr ⟨e.value, (mem_incident_edges _ _ _).2 ⟨h1, hinc⟩, rfl⟩
    · rw [not_or] at hinc
      rw [edge.subst_of_not_incident _ _ e hinc.1 hinc.2]
      exact Or.inl ⟨h1, fun h => (not_or.2 hinc) ((mem_incident_edges _ _ _).1 h).2⟩

theorem mem_remaining_edges (node : N) (ns : List N) (es : List (edge N E))
    (he : stdset.Sorted edge_cmp es) (x : edge N E) :
    x ∈ (incident_edges (⟨ns, es⟩ : graph N E) node).foldl drop_edge es
      ↔ x ∈ es ∧ x.src ≠ node ∧ x.dest ≠ node := by
  rw [mem_foldl_drop_edge _ _ he, mem_incident_edges]
  constructor
  · rintro ⟨h1, h2⟩
    exact ⟨h1, fun h => h2 ⟨h1, Or.inl h⟩, fun h => h2 ⟨h1, Or.inr h⟩⟩
  · rintro ⟨h1, h2, h3⟩
    refine ⟨h1, ?_⟩
    rintro ⟨_, h | h⟩
    · exact h2 h
    · exact h3 h

theorem replace_node_error (g : graph N E) (old_data new_data : N)
    (hs : stdset.Sorted node_cmp g.nodes_) (ho : old_data ∉ g.nodes_) :
    replace_node g old_data new_data
      = (.error (.runtime_error
          "Cannot call gdwg::graph<N, E>::replace_node on a node that doesn't exist"), g) := by
  unfold replace_node
  rw [find_node_eq _ _ hs]
  simp only [ho, if_false]

theorem replace_node_false (g : graph N E) (old_data new_data : N)
    (hs : stdset.Sorted node_cmp g.nodes_) (ho : old_data ∈ g.nodes_)
    (hn : new_data ∈ g.nodes_) :
    replace_node g old_data new_data = (.ok false, g) := by
  unfold replace_node
  rw [find_node_eq _ _ hs]
  simp only [ho, if_true, (is_node_iff g hs new_data).2 hn]

theorem replace_node_true (g : graph N E) (old_data new_data : N) (hg : g.WF)
    (ho : old_data ∈ g.nodes_) (hn : new_data ∉ g.nodes_) :
    replace_node g old_data new_data
      = (.ok true,
         ⟨stdset.erase old_data (stdset.emplace node_cmp new_data g.nodes_).1,
          (incident_edges g old_data).foldl (rename_edge old_data new_data) g.edges_⟩) := by
  obtain ⟨ns, es⟩ := g
  have hs := hg.nodes_sorted
  have he := hg.edges_sorted
  have hsrc := hg.src_mem
  have hdst := hg.dest_mem
  simp only at hs he ho hn hsrc hdst
  have hnn : is_node (⟨ns, es⟩ : graph N E) new_data = false := by
    rw [Bool.eq_false_iff, Ne, is_node_iff _ hs]
    exact hn
  have hs1 := stdset.sorted_emplace node_cmp_strictTotal new_data ns hs
  have hmem1 : ∀ u, u ∈ ns → u ∈ (stdset.emplace node_cmp new_data ns).1 :=
    fun u hu => (stdset.mem_emplace node_cmp_strictTotal _ _ _).2 (Or.inr hu)
  have hnew1 : new_data ∈ (stdset.emplace node_cmp new_data ns).1 :=
    (stdset.mem_emplace node_cmp_strictTotal _ _ _).2 (Or.inl rfl)
  unfold replace_node
  rw [find_node_eq _ _ hs]
  simp only [ho, if_true, hnn, Bool.false_eq_true, if_false]
  rw [for_each_edges (replace_node_body old_data new_data) (rename_edge old_data new_data)
    (sorted_rename_edge old_data new_data) (stdset.emplace node_cmp new_data ns).1 _
    (fun g' v h1 h2 h3 => by
      have hv := ((mem_incident_edges _ _ v).1 h3).1
      exact replace_node_body_eq old_data new_data v g' (h1 ▸ hs1) h2
        (h1 ▸ hmem1 _ (hsrc _ hv)) (h1 ▸ hmem1 _ (hdst _ hv)) (h1 ▸ hnew1))
    _ rfl he]
  rfl

theorem merge_replace_node_error (g : graph N E) (old_data new_data : N)
    (hs : stdset.Sorted node_cmp g.nodes_) (h : old_data ∉ g.nodes_ ∨ new_data ∉ g.nodes_) :
    merge_replace_node g old_data new_data
      = (.error (.runtime_error
          "Cannot call gdwg::graph<N, E>::merge_replace_node on old or new data if they don't exist in the graph"),
         g) := by
  unfold merge_replace_node
  rw [find_node_eq _ _ hs, find_node_eq _ _ hs]
  rcases h with h | h
  · simp [h]
  · by_cases h1 : old_data ∈ g.nodes_ <;> simp [h, h1]

theorem merge_replace_node_same (g : graph N E) (v : N)
    (hs : stdset.Sorted node_cmp g.nodes_) (hv : v ∈ g.nodes_) :
    merge_replace_node g v v = (.ok (), g) := by
  unfold merge_replace_node
  rw [find_node_eq _ _ hs]
  simp [hv]

theorem merge_replace_node_ok (g : graph N E) (old_data new_data : N) (hg : g.WF)
    (ho : old_data ∈ g.nodes_) (hn : new_data ∈ g.nodes_) (hne : old_data ≠ new_data) :
    merge_replace_node g old_data new_data
      = (.ok (),
         ⟨stdset.erase old_data g.nodes_,
          (incident_edges g old_data).foldl (rename_edge old_data new_data) g.edges_⟩) := by
  obtain ⟨ns, es⟩ := g
  have hs := hg.nodes_sorted
  have he := hg.edges_sorted
  have hsrc := hg.src_mem
  have hdst := hg.dest_mem
  simp only at hs he ho hn hsrc hdst
  unfold merge_replace_node
  rw [find_node_eq _ _ hs, find_node_eq _ _ hs]
  simp only [ho, hn, if_true, hne, if_false]
  rw [for_each_edges (merge_replace_node_body old_data new_data) (rename_edge old_data new_data)
    (sorted_rename_edge old_data new_data) ns _
    (fun g' v h1 h2 h3 => by
      have hv := ((mem_incident_edges _ _ v).1 h3).1
      exact merge_replace_node_body_eq old_data new_data v g' (h1 ▸ hs) h2
        (h1 ▸ hsrc _ hv) (h1 ▸ hdst _ hv) (h1 ▸ hn))
    _ rfl he]

theorem erase_node_false (g : graph N E) (v : N)
    (hs : stdset.Sorted node_cmp g.nodes_) (hv : v ∉ g.nodes_) :
    erase_node g v = (.ok false, g) := by
  unfold erase_node
  rw [find_node_eq _ _ hs]
  simp only [hv, if_false]

theorem erase_node_true (g : graph N E) (v : N) (hg : g.WF) (hv : v ∈ g.nodes_) :
    erase_node g v
      = (.ok true,
         ⟨stdset.erase v g.nodes_, (incident_edges g v).foldl drop_edge g.edges_⟩) := by
  obtain ⟨ns, es⟩ := g
  have hs := hg.nodes_sorted
  have he := hg.edges_sorted
  have hsrc := hg.src_mem
  have hdst := hg.dest_mem
  simp only at hs he hv hsrc hdst
  unfold erase_node
  rw [find_node_eq _ _ hs]
  simp only [hv, if_true]
  rw [for_each_edges erase_node_body drop_edge sorted_drop_edge ns _
    (fun g' u h1 h2 h3 => by
      have hu := ((mem_incident_edges _ _ u).1 h3).1
      exact erase_node_body_eq u g' (h1 ▸ hs) h2 (h1 ▸ hsrc _ hu) (h1 ▸ hdst _ hu))
    _ rfl he]

end
end gdwg

/-! ## The invariant holds in every reachable graph -/

namespace gdwg
section
variable {N E : Type} [LinearOrder N] [LinearOrder E]

theorem graph.WF.empty : (graph.empty : graph N E).WF :=
  ⟨List.Pairwise.nil, List.Pairwise.nil, fun _ h => absurd h (List.not_mem_nil _),
    fun _ h => absurd h (List.not_mem_nil _)⟩

theorem graph.WF.of_sublist {g : graph N E} (hg : g.WF) (es : List (edge N E))
    (h : es.Sublist g.edges_) : (⟨g.nodes_, es⟩ : graph N E).WF :=
  ⟨hg.nodes_sorted, List.Pairwise.sublist h hg.edges_sorted,
    fun e he => hg.src_mem e (h.subset he), fun e he => hg.dest_mem e (h.subset he)⟩

theorem graph.WF.insert_node {g : graph N E} (hg : g.WF) (v : N) : (insert_node g v).2.WF :=
  ⟨stdset.sorted_emplace node_cmp_strictTotal _ _ hg.nodes_sorted, hg.edges_sorted,
    fun e he => (stdset.mem_emplace node_cmp_strictTotal _ _ _).2 (Or.inr (hg.src_mem e he)),
    fun e he => (stdset.mem_emplace node_cmp_strictTotal _ _ _).2 (Or.inr (hg.dest_mem e he))⟩

theorem graph.WF.insert_edge {g : graph N E} (hg : g.WF) (s d : N) (w : E) :
    (insert_edge g s d w).2.WF := by
  by_cases h : s ∈ g.nodes_ ∧ d ∈ g.nodes_
  · rw [insert_edge_ok g s d w hg.nodes_sorted h.1 h.2]
    refine ⟨hg.nodes_sorted, stdset.sorted_emplace edge_cmp_strictTotal _ _ hg.edges_sorted,
      fun e he => ?_, fun e he => ?_⟩
    · rcases (stdset.mem_emplace edge_cmp_strictTotal _ _ _).1 he with rfl | he
      · exact h.1
      · exact hg.src_mem e he
    · rcases (stdset.mem_emplace edge_cmp_strictTotal _ _ _).1 he with rfl | he
      · exact h.2
      · exact hg.dest_mem e he
  · rw [insert_edge_error g s d w hg.nodes_sorted (not_and_or.1 h)]
    exact hg

theorem graph.WF.erase_edge {g : graph N E} (hg : g.WF) (s d : N) (w : E) :
    (erase_edge g s d w).2.WF := by
  by_cases h : s ∈ g.nodes_ ∧ d ∈ g.nodes_
  · rw [erase_edge_ok g s d w hg.nodes_sorted hg.edges_sorted h.1 h.2]
    exact hg.of_sublist _ (List.erase_sublist _ _)
  · rw [erase_edge_error g s d w hg.nodes_sorted (not_and_or.1 h)]
    exact hg

theorem graph.WF.replace_node {g : graph N E} (hg : g.WF) (old_data new_data : N) :
    (replace_node g old_data new_data).2.WF := by
  by_cases ho : old_data ∈ g.nodes_
  · by_cases hn : new_data ∈ g.nodes_
    · rw [replace_node_false g _ _ hg.nodes_sorted ho hn]
      exact hg
    · rw [replace_node_true g _ _ hg ho hn]
      have hne : old_data ≠ new_data := fun h => hn (h ▸ ho)
      have hs1 := stdset.sorted_emplace node_cmp_strictTotal new_data _ hg.nodes_sorted
      have hmem : ∀ u, u ∈ g.nodes_ →
          subst old_data new_data u
            ∈ stdset.erase old_data (stdset.emplace node_cmp new_data g.nodes_).1 := by
        intro u hu
        rw [stdset.mem_erase node_cmp_strictTotal _ _ _ hs1,
          stdset.mem_emplace node_cmp_strictTotal]
        refine ⟨subst_ne_old _ _ _ hne, ?_⟩
        unfold subst
        split_ifs
        · exact Or.inl rfl
        · exact Or.inr hu
      refine ⟨stdset.sorted_erase _ _ hs1,
        sorted_foldl _ (sorted_rename_edge old_data new_data) _ _ hg.edges_sorted,
        fun e he => ?_, fun e he => ?_⟩
      · obtain ⟨e', he', rfl⟩ := (mem_renamed_edges _ _ hne _ _ hg.edges_sorted e).1 he
        exact hmem _ (hg.src_mem _ he')
      · obtain ⟨e', he', rfl⟩ := (mem_renamed_edges _ _ hne _ _ hg.edges_sorted e).1 he
        exact hmem _ (hg.dest_mem _ he')
  · rw [replace_node_error g _ _ hg.nodes_sorted ho]
    exact hg

theorem graph.WF.merge_replace_node {g : graph N E} (hg : g.WF) (old_data new_data : N) :
    (merge_replace_node g old_data new_data).2.WF := by
  by_cases h : old_data ∈ g.nodes_ ∧ new_data ∈ g.nodes_
  · by_cases hne : old_data = new_data
    · subst hne
      rw [merge_replace_node_same g _ hg.nodes_sorted h.1]
      exact hg
    · rw [merge_replace_node_ok g _ _ hg h.1 h.2 hne]
      have hmem : ∀ u, u ∈ g.nodes_ →
          subst old_data new_data u ∈ stdset.erase old_data g.nodes_ := by
        intro u hu
        rw [stdset.mem_erase node_cmp_strictTotal _ _ _ hg.nodes_sorted]
        exact ⟨subst_ne_old _ _ _ hne, subst_mem _ _ _ _ h.2 hu⟩
      refine ⟨stdset.sorted_erase _ _ hg.nodes_sorted,
        sorted_foldl _ (sorted_rename_edge old_data new_data) _ _ hg.edges_sorted,
        fun e he => ?_, fun e he => ?_⟩
      · obtain ⟨e', he', rfl⟩ := (mem_renamed_edges _ _ hne _ _ hg.edges_sorted e).1 he
        exact hmem _ (hg.src_mem _ he')
      · obtain ⟨e', he', rfl⟩ := (mem_renamed_edges _ _ hne _ _ hg.edges_sorted e).1 he
        exact hmem _ (hg.dest_mem _ he')
  · rw [merge_replace_node_error g _ _ hg.nodes_sorted (not_and_or.1 h)]
    exact hg

theorem graph.WF.erase_node {g : graph N E} (hg : g.WF) (v : N) : (erase_node g v).2.WF := by
  by_cases hv : v ∈ g.nodes_
  · rw [erase_node_true g v hg hv]
    refine ⟨stdset.sorted_erase _ _ hg.nodes_sorted,
      sorted_foldl _ sorted_drop_edge _ _ hg.edges_sorted, fun e he => ?_, fun e he => ?_⟩
    · obtain ⟨h1, h2, _⟩ := (mem_remaining_edges v _ _ hg.edges_sorted e).1 he
      exact (stdset.mem_erase node_cmp_strictTotal _ _ _ hg.nodes_sorted).2 ⟨h2, hg.src_mem e h1⟩
    · obtain ⟨h1, _, h3⟩ := (mem_remaining_edges v _ _ hg.edges_sorted e).1 he
      exact (stdset.mem_erase node_cmp_strictTotal _ _ _ hg.nodes_sorted).2 ⟨h3, hg.dest_mem e h1⟩
  · rw [erase_node_false g v hg.nodes_sorted hv]
    exact hg

theorem graph.WF.erase_edge_iterator {g : graph N E} (hg : g.WF) (i : iterator N E) :
    (erase_edge_iterator g i).2.WF := by
  unfold gdwg.erase_edge_iterator
  cases i.itor_ with
  | none => exact hg
  | some e => exact hg.of_sublist _ (List.erase_sublist _ _)

theorem graph.WF.erase_edge_range {g : graph N E} (hg : g.WF) (i s : iterator N E) :
    (erase_edge_range g i s).2.WF :=
  hg.of_sublist _ (stdset.erase_range_sublist _ _ _)

theorem Reachable.wf {g : graph N E} (h : Reachable g) : g.WF := by
  induction h with
  | default => exact graph.WF.empty
  | insert_node g v _ ih => exact ih.insert_node v
  | insert_edge g s d w _ ih => exact ih.insert_edge s d w
  | replace_node g o n _ ih => exact ih.replace_node o n
  | merge_replace_node g o n _ ih => exact ih.merge_replace_node o n
  | erase_node g v _ ih => exact ih.erase_node v
  | erase_edge g s d w _ ih => exact ih.erase_edge s d w
  | erase_edge_iterator g e _ _ ih => exact ih.erase_edge_iterator _
  | erase_edge_range g i j _ _ _ ih => exact ih.erase_edge_range _ _
  | clear g _ _ => exact graph.WF.empty

end
end gdwg

/-! ## The model on the unit tests of the repository -/

namespace gdwg

theorem test_replace_node :
    replace_node test_replace_graph 1 2
      = (.ok true, ⟨[2, 3], [⟨2, 2, 3⟩, ⟨2, 3, 1⟩, ⟨3, 2, 2⟩]⟩) := by
  rfl

theorem test_merge_replace_node :
    merge_replace_node test_merge_graph 1 2
      = (.ok (), ⟨[2, 3], [⟨2, 2, 1⟩, ⟨2, 2, 3⟩, ⟨2, 3, 2⟩]⟩) := by
  rfl

theorem test_erase_node :
    erase_node test_erase_graph 2 = (.ok true, ⟨[1, 3], [⟨1, 3, 2⟩]⟩) := by
  rfl

theorem test_insert_edge_absent_node :
    insert_edge test_erase_graph 7 1 1
      = (.error (.runtime_error
          "Cannot call gdwg::graph<N, E>::insert_edge when either src or dst node does not exist"),
         test_erase_graph) := by
  rfl

end gdwg

/-! ## Auxiliary facts for the contract -/

namespace gdwg

theorem sample_reachable : Reachable sample :=
  Reachable.insert_edge _ 2 1 5 (Reachable.insert_edge _ 1 1 3 (Reachable.insert_edge _ 2 1 7
    (Reachable.insert_edge _ 1 2 5 (Reachable.insert_node _ 3 (Reachable.insert_node _ 2
      (Reachable.insert_node _ 1 Reachable.default))))))

theorem sample_eq :
    sample = ⟨[1, 2, 3], [⟨1, 1, 3⟩, ⟨1, 2, 5⟩, ⟨2, 1, 5⟩, ⟨2, 1, 7⟩]⟩ := by
  decide

section
variable {N E : Type} [LinearOrder N] [LinearOrder E]

theorem walk_suffix (ns : List N) (es : List (edge N E)) (hnd : es.Nodup)
    (suf pre : List (edge N E)) (hes : es = pre ++ suf) (fuel : Nat) (hf : suf.length < fuel) :
    walk (⟨ns, es⟩ : graph N E) fuel ⟨suf.head?⟩ = some (suf.map edge.value) := by
  induction suf generalizing pre fuel with
  | nil =>
    cases fuel with
    | zero => exact absurd hf (Nat.lt_irrefl _)
    | succ k => rfl
  | cons x rest ih =>
    cases fuel with
    | zero => exact absurd hf (Nat.not_lt_zero _)
    | succ k =>
      have hx : x ∉ pre := by
        intro hmem
        rw [hes] at hnd
        exact (List.disjoint_of_nodup_append hnd) hmem (List.mem_cons_self _ _)
      have hnext : iterator.incr (⟨ns, es⟩ : graph N E) ⟨(x :: rest).head?⟩ = ⟨rest.head?⟩ := by
        simp only [iterator.incr, List.head?_cons, stdset.next]
        rw [hes, stdset.after_append x pre rest hx]
      have hk : rest.length < k := by
        simp only [List.length_cons] at hf
        omega
      simp only [walk, List.head?_cons]
      rw [show iterator.incr (⟨ns, es⟩ : graph N E) ⟨some x⟩ = ⟨rest.head?⟩ from hnext,
        ih (pre ++ [x]) (by rw [hes]; simp) k hk]
      rfl

theorem is_node_eq_false_iff (g : graph N E) (hs : stdset.Sorted node_cmp g.nodes_) (v : N) :
    is_node g v = false ↔ v ∉ g.nodes_ := by
  rw [Bool.eq_false_iff, Ne, is_node_iff g hs]

theorem is_connected_error (g : graph N E) (s d : N)
    (hs : stdset.Sorted node_cmp g.nodes_) (h : s ∉ g.nodes_ ∨ d ∉ g.nodes_) :
    is_connected g s d
      = .error (.runtime_error
          "Cannot call gdwg::graph<N, E>::is_connected if src or dst node don't exist in the graph") := by
  unfold is_connected
  rw [find_node_eq s _ hs, find_node_eq d _ hs]
  rcases h with h | h
  · simp [h]
  · by_cases h1 : s ∈ g.nodes_ <;> simp [h, h1]

end

end gdwg

/-! ## The contract -/

namespace gdwg

/-- C1. Referential integrity: in every graph reachable from the empty graph by
member function calls, both ends of every stored edge are nodes of the graph. -/
theorem reachable_referential_integrity {N E : Type} [LinearOrder N] [LinearOrder E]
    (g : graph N E) (h : Reachable g) :
    ∀ e ∈ g.edges_, is_node g e.src = true ∧ is_node g e.dest = true := by
  intro e he
  have hg := h.wf
  exact ⟨(is_node_iff g hg.nodes_sorted _).2 (hg.src_mem e he),
    (is_node_iff g hg.nodes_sorted _).2 (hg.dest_mem e he)⟩

theorem reachable_referential_integrity_witness :
    Reachable sample ∧ (⟨2, 1, 7⟩ : edge Nat Nat) ∈ sample.edges_ ∧
    is_node sample 2 = true ∧ is_node sample 1 = true :=
  ⟨sample_reachable, by decide,
    reachable_referential_integrity sample sample_reachable ⟨2, 1, 7⟩ (by decide)⟩

/-- C2. In every reachable graph the walk from `begin()` by `++` meets `end()`
after visiting the stored edges, each once, in strictly ascending lexicographic
order of (source, destination, weight); the first one visited is the least. -/
theorem walk_visits_edges_ascending {N E : Type} [LinearOrder N] [LinearOrder E]
    (g : graph N E) (h : Reachable g) :
    (∀ fuel, g.edges_.length < fuel → walk g fuel g.begin = some (g.edges_.map edge.value)) ∧
    (g.edges_.map edge.value).Pairwise (fun a b => a.key < b.key) ∧
    (g.edges_.map edge.value).Nodup ∧
    (∀ v ∈ g.edges_.map edge.value, ∃ b, g.begin.deref = some b ∧ b.key ≤ v.key) := by
  have hg := h.wf
  have hpw : (g.edges_.map edge.value).Pairwise (fun a b => a.key < b.key) := by
    rw [List.pairwise_map]
    exact List.Pairwise.imp (fun {a b} hab => (edge_cmp_iff a b).1 hab) hg.edges_sorted
  refine ⟨fun fuel hf => ?_, hpw, ?_, ?_⟩
  · obtain ⟨ns, es⟩ := g
    exact walk_suffix ns es (stdset.Sorted.nodup edge_cmp_strictTotal hg.edges_sorted) es []
      rfl fuel hf
  · exact List.Pairwise.imp (fun {a b} hab heq => by
      rw [heq] at hab
      exact lt_irrefl _ hab) hpw
  · obtain ⟨ns, es⟩ := g
    cases es with
    | nil => intro v hv; cases hv
    | cons x rest =>
      intro v hv
      refine ⟨x.value, rfl, ?_⟩
      simp only [List.map_cons, List.pairwise_cons] at hpw
      rcases List.mem_cons.1 hv with rfl | hv
      · exact le_refl _
      · exact le_of_lt (hpw.1 v hv)

theorem walk_visits_edges_ascending_witness :
    Reachable sample ∧
    (∀ fuel, sample.edges_.length < fuel →
      walk sample fuel sample.begin = some (sample.edges_.map edge.value)) ∧
    (sample.edges_.map edge.value).Pairwise (fun a b => a.key < b.key) ∧
    (sample.edges_.map edge.value).Nodup ∧
    (∀ v ∈ sample.edges_.map edge.value, ∃ b, sample.begin.deref = some b ∧ b.key ≤ v.key) :=
  ⟨sample_reachable, walk_visits_edges_ascending sample sample_reachable⟩

/-- C3. On a reachable graph, `replace_node(old, new)` with `old` a node and
`new` not a node returns true; the nodes become the former nodes without `old`
and with `new`, and the edges become the images of the former edges under the
substitution of `new` for `old`. -/
theorem replace_node_renames {N E : Type} [LinearOrder N] [LinearOrder E]
    (g : graph N E) (h : Reachable g) (old_data new_data : N)
    (ho : is_node g old_data = true) (hn : is_node g new_data = false) :
    ∃ g', replace_node g old_data new_data = (.ok true, g') ∧
      (∀ v, is_node g' v = true ↔ (is_node g v = true ∧ v ≠ old_data) ∨ v = new_data) ∧
      (∀ x, x ∈ g'.edges_ ↔ ∃ e ∈ g.edges_, x = e.subst old_data new_data) ∧
      (∀ w, (⟨old_data, old_data, w⟩ : edge N E) ∈ g.edges_ →
        (⟨new_data, new_data, w⟩ : edge N E) ∈ g'.edges_) ∧
      (∀ e ∈ g.edges_, e.src ≠ old_data → e.dest ≠ old_data → e ∈ g'.edges_) := by
  have hg := h.wf
  have hg' := hg.replace_node old_data new_data
  have ho' := (is_node_iff g hg.nodes_sorted _).1 ho
  have hn' := (is_node_eq_false_iff g hg.nodes_sorted _).1 hn
  have hne : old_data ≠ new_data := fun heq => hn' (heq ▸ ho')
  rw [replace_node_true g _ _ hg ho' hn'] at hg'
  have hedges := mem_renamed_edges old_data new_data hne g.nodes_ g.edges_ hg.edges_sorted
  refine ⟨_, replace_node_true g _ _ hg ho' hn', fun v => ?_, hedges, fun w hw => ?_,
    fun e he h1 h2 => ?_⟩
  · rw [is_node_iff _ hg'.nodes_sorted, is_node_iff g hg.nodes_sorted,
      stdset.mem_erase node_cmp_strictTotal _ _ _
        (stdset.sorted_emplace node_cmp_strictTotal _ _ hg.nodes_sorted),
      stdset.mem_emplace node_cmp_strictTotal]
    constructor
    · rintro ⟨h1, h2 | h2⟩
      · exact Or.inr h2
      · exact Or.inl ⟨h2, h1⟩
    · rintro (⟨h1, h2⟩ | h2)
      · exact ⟨h2, Or.inr h1⟩
      · exact ⟨fun h3 => hne (h3.symm.trans h2), Or.inl h2⟩
  · refine (hedges _).2 ⟨_, hw, ?_⟩
    simp [edge.subst, subst]
  · exact (hedges _).2 ⟨e, he, (edge.subst_of_not_incident _ _ e h1 h2).symm⟩

theorem replace_node_renames_witness :
    Reachable sample ∧ is_node sample 1 = true ∧ is_node sample 4 = false ∧
    ∃ g', replace_node sample 1 4 = (.ok true, g') ∧
      (∀ v, is_node g' v = true ↔ (is_node sample v = true ∧ v ≠ 1) ∨ v = 4) ∧
      (∀ x, x ∈ g'.edges_ ↔ ∃ e ∈ sample.edges_, x = e.subst 1 4) ∧
      (∀ w, (⟨1, 1, w⟩ : edge Nat Nat) ∈ sample.edges_ → (⟨4, 4, w⟩ : edge Nat Nat) ∈ g'.edges_) ∧
      (∀ e ∈ sample.edges_, e.src ≠ 1 → e.dest ≠ 1 → e ∈ g'.edges_) :=
  ⟨sample_reachable, by decide, by decide,
    replace_node_renames sample sample_reachable 1 4 (by decide) (by decide)⟩

/-- C4. `replace_node(old, new)` with `old` a node and `new` already a node
(possibly `old` itself) returns false and leaves the graph as it was. -/
theorem replace_node_existing {N E : Type} [LinearOrder N] [LinearOrder E]
    (g : graph N E) (old_data new_data : N)
    (ho : is_node g old_data = true) (hn : is_node g new_data = true) :
    replace_node g old_data new_data = (.ok false, g) := by
  unfold replace_node
  unfold is_node at ho
  cases hf : stdset.find node_cmp node_cmp old_data g.nodes_ with
  | none => rw [hf] at ho; cases ho
  | some x => simp only [hn, if_true]

theorem replace_node_existing_witness :
    is_node sample 1 = true ∧ is_node sample 2 = true ∧
    replace_node sample 1 2 = (.ok false, sample) ∧ replace_node sample 1 1 = (.ok false, sample) :=
  ⟨by decide, by decide, replace_node_existing sample 1 2 (by decide) (by decide),
    replace_node_existing sample 1 1 (by decide) (by decide)⟩

/-- C5. On a reachable graph, `merge_replace_node(old, new)` with distinct nodes
`old` and `new` returns normally; the nodes become the former nodes without
`old`, and the edges become the images of the former edges under the
substitution of `new` for `old`, each present once. -/
theorem merge_replace_node_merges {N E : Type} [LinearOrder N] [LinearOrder E]
    (g : graph N E) (h : Reachable g) (old_data new_data : N)
    (ho : is_node g old_data = true) (hn : is_node g new_data = true)
    (hne : old_data ≠ new_data) :
    ∃ g', merge_replace_node g old_data new_data = (.ok (), g') ∧
      (∀ v, is_node g' v = true ↔ is_node g v = true ∧ v ≠ old_data) ∧
      (∀ x, x ∈ g'.edges_ ↔ ∃ e ∈ g.edges_, x = e.subst old_data new_data) ∧
      g'.edges_.Nodup ∧
      (∀ e ∈ g.edges_, e.src ≠ old_data → e.dest ≠ old_data → e ∈ g'.edges_) ∧
      (∀ e ∈ g.edges_, e.subst old_data new_data ∈ g'.edges_) := by
  have hg := h.wf
  have hg' := hg.merge_replace_node old_data new_data
  have ho' := (is_node_iff g hg.nodes_sorted _).1 ho
  have hn' := (is_node_iff g hg.nodes_sorted _).1 hn
  rw [merge_replace_node_ok g _ _ hg ho' hn' hne] at hg'
  have hedges := mem_renamed_edges old_data new_data hne g.nodes_ g.edges_ hg.edges_sorted
  refine ⟨_, merge_replace_node_ok g _ _ hg ho' hn' hne, fun v => ?_, hedges,
    stdset.Sorted.nodup edge_cmp_strictTotal hg'.edges_sorted, fun e he h1 h2 => ?_,
    fun e he => (hedges _).2 ⟨e, he, rfl⟩⟩
  · rw [is_node_iff _ hg'.nodes_sorted, is_node_iff g hg.nodes_sorted,
      stdset.mem_erase node_cmp_strictTotal _ _ _ hg.nodes_sorted]
    exact And.comm
  · exact (hedges _).2 ⟨e, he, (edge.subst_of_not_incident _ _ e h1 h2).symm⟩

theorem merge_replace_node_merges_witness :
    Reachable sample ∧ is_node sample 1 = true ∧ is_node sample 2 = true ∧ (1 : Nat) ≠ 2 ∧
    ∃ g', merge_replace_node sample 1 2 = (.ok (), g') ∧
      (∀ v, is_node g' v = true ↔ is_node sample v = true ∧ v ≠ 1) ∧
      (∀ x, x ∈ g'.edges_ ↔ ∃ e ∈ sample.edges_, x = e.subst 1 2) ∧
      g'.edges_.Nodup ∧
      (∀ e ∈ sample.edges_, e.src ≠ 1 → e.dest ≠ 1 → e ∈ g'.edges_) ∧
      (∀ e ∈ sample.edges_, e.subst 1 2 ∈ g'.edges_) :=
  ⟨sample_reachable, by decide, by decide, by decide,
    merge_replace_node_merges sample sample_reachable 1 2 (by decide) (by decide) (by decide)⟩

/-- C6. On a reachable graph in which `old` and `new` are nodes,
`merge_replace_node(old, new)` returns normally and no two edges of the result
have the same source, destination and weight. -/
theorem merge_replace_node_no_duplicates {N E : Type} [LinearOrder N] [LinearOrder E]
    (g : graph N E) (h : Reachable g)
    (old_data new_data : N) (ho : is_node g old_data = true) (hn : is_node g new_data = true) :
    ∃ g', merge_replace_node g old_data new_data = (.ok (), g') ∧
      g'.edges_.Pairwise
        (fun a b => ¬(a.src = b.src ∧ a.dest = b.dest ∧ a.weight = b.weight)) := by
  have hg := h.wf
  have hg' := hg.merge_replace_node old_data new_data
  have ho' := (is_node_iff g hg.nodes_sorted _).1 ho
  have hn' := (is_node_iff g hg.nodes_sorted _).1 hn
  have hpw : ∀ es : List (edge N E), stdset.Sorted edge_cmp es →
      es.Pairwise (fun a b => ¬(a.src = b.src ∧ a.dest = b.dest ∧ a.weight = b.weight)) :=
    fun es hes => List.Pairwise.imp (fun {a b} hab heq => by
      have : a = b := by
        cases a; cases b
        simp only at heq
        simp [heq.1, heq.2.1, heq.2.2]
      exact edge_cmp_strictTotal.ne_of_lt hab this) hes
  by_cases hne : old_data = new_data
  · subst hne
    exact ⟨g, merge_replace_node_same g _ hg.nodes_sorted ho', hpw _ hg.edges_sorted⟩
  · rw [merge_replace_node_ok g _ _ hg ho' hn' hne] at hg'
    exact ⟨_, merge_replace_node_ok g _ _ hg ho' hn' hne, hpw _ hg'.edges_sorted⟩

theorem merge_replace_node_no_duplicates_witness :
    Reachable sample ∧ is_node sample 2 = true ∧ is_node sample 1 = true ∧
    ∃ g', merge_replace_node sample 2 1 = (.ok (), g') ∧
      g'.edges_.Pairwise
        (fun a b => ¬(a.src = b.src ∧ a.dest = b.dest ∧ a.weight = b.weight)) :=
  ⟨sample_reachable, by decide, by decide,
    merge_replace_node_no_duplicates sample sample_reachable 2 1 (by decide) (by decide)⟩

/-- C7. On a reachable graph, `erase_node(v)` returns false and changes nothing
when `v` is not a node; otherwise it returns true, removes `v` from the nodes
and removes exactly the edges that have `v` as source or destination, after
which `is_connected` with `v` as either argument throws. -/
theorem erase_node_removes_incident {N E : Type} [LinearOrder N] [LinearOrder E]
    (g : graph N E) (h : Reachable g) (v : N) :
    (is_node g v = false → erase_node g v = (.ok false, g)) ∧
    (is_node g v = true → ∃ g', erase_node g v = (.ok true, g') ∧
      (∀ u, is_node g' u = true ↔ is_node g u = true ∧ u ≠ v) ∧
      (∀ x, x ∈ g'.edges_ ↔ x ∈ g.edges_ ∧ x.src ≠ v ∧ x.dest ≠ v) ∧
      (∀ u, is_connected g' v u
          = .error (.runtime_error
              "Cannot call gdwg::graph<N, E>::is_connected if src or dst node don't exist in the graph")
        ∧ is_connected g' u v
          = .error (.runtime_error
              "Cannot call gdwg::graph<N, E>::is_connected if src or dst node don't exist in the graph"))) := by
  have hg := h.wf
  refine ⟨fun hv => erase_node_false g v hg.nodes_sorted
    ((is_node_eq_false_iff g hg.nodes_sorted v).1 hv), fun hv => ?_⟩
  have hv' := (is_node_iff g hg.nodes_sorted _).1 hv
  have hg' := hg.erase_node v
  rw [erase_node_true g v hg hv'] at hg'
  have hnot : v ∉ stdset.erase v g.nodes_ := fun hmem =>
    ((stdset.mem_erase node_cmp_strictTotal _ _ _ hg.nodes_sorted).1 hmem).1 rfl
  refine ⟨_, erase_node_true g v hg hv', fun u => ?_,
    mem_remaining_edges v g.nodes_ g.edges_ hg.edges_sorted, fun u => ⟨?_, ?_⟩⟩
  · rw [is_node_iff _ hg'.nodes_sorted, is_node_iff g hg.nodes_sorted,
      stdset.mem_erase node_cmp_strictTotal _ _ _ hg.nodes_sorted]
    exact And.comm
  · exact is_connected_error _ v u hg'.nodes_sorted (Or.inl hnot)
  · exact is_connected_error _ u v hg'.nodes_sorted (Or.inr hnot)

theorem erase_node_removes_incident_witness :
    Reachable sample ∧ is_node sample 9 = false ∧ is_node sample 1 = true ∧
    erase_node sample 9 = (.ok false, sample) ∧
    ∃ g', erase_node sample 1 = (.ok true, g') ∧
      (∀ u, is_node g' u = true ↔ is_node sample u = true ∧ u ≠ 1) ∧
      (∀ x, x ∈ g'.edges_ ↔ x ∈ sample.edges_ ∧ x.src ≠ 1 ∧ x.dest ≠ 1) ∧
      (∀ u, is_connected g' 1 u
          = .error (.runtime_error
              "Cannot call gdwg::graph<N, E>::is_connected if src or dst node don't exist in the graph")
        ∧ is_connected g' u 1
          = .error (.runtime_error
              "Cannot call gdwg::graph<N, E>::is_connected if src or dst node don't exist in the graph")) :=
  ⟨sample_reachable, by decide, by decide,
    (erase_node_removes_incident sample sample_reachable 9).1 (by decide),
    (erase_node_removes_incident sample sample_reachable 1).2 (by decide)⟩

/-- C8. On a reachable graph in which `src` and `dest` are nodes,
`insert_edge(src, dest, w)` returns true exactly when the edge is not yet
stored; then the edge set gains that one edge; otherwise the graph is
unchanged.  The nodes are unchanged, and a second identical call returns false
and changes nothing. -/
theorem insert_edge_adds_once {N E : Type} [LinearOrder N] [LinearOrder E]
    (g : graph N E) (h : Reachable g) (s d : N) (w : E)
    (hs : is_node g s = true) (hd : is_node g d = true) :
    ∃ b g', insert_edge g s d w = (.ok b, g') ∧
      (b = true ↔ (⟨s, d, w⟩ : edge N E) ∉ g.edges_) ∧
      g'.nodes_ = g.nodes_ ∧
      (b = true → (∀ x, x ∈ g'.edges_ ↔ x = ⟨s, d, w⟩ ∨ x ∈ g.edges_) ∧
        g'.edges_.length = g.edges_.length + 1) ∧
      (b = false → g' = g) ∧
      insert_edge g' s d w = (.ok false, g') := by
  have hg := h.wf
  have hs' := (is_node_iff g hg.nodes_sorted _).1 hs
  have hd' := (is_node_iff g hg.nodes_sorted _).1 hd
  have hsnd := stdset.emplace_snd edge_cmp_strictTotal (⟨s, d, w⟩ : edge N E) g.edges_
    hg.edges_sorted
  have hmem := stdset.mem_emplace edge_cmp_strictTotal (⟨s, d, w⟩ : edge N E)
  have hsorted := stdset.sorted_emplace edge_cmp_strictTotal (⟨s, d, w⟩ : edge N E) g.edges_
    hg.edges_sorted
  refine ⟨_, _, insert_edge_ok g s d w hg.nodes_sorted hs' hd', ?_, rfl, fun hb => ⟨?_, ?_⟩,
    fun hb => ?_, ?_⟩
  · rw [hsnd, decide_eq_true_eq]
  · exact fun x => hmem x g.edges_
  · exact stdset.emplace_length _ _ hb
  · rw [hsnd, decide_eq_false_iff_not, not_not] at hb
    obtain ⟨ns, es⟩ := g
    simp only at hb hg
    simp only [stdset.emplace_fst_of_mem edge_cmp_strictTotal _ _ hg.edges_sorted hb]
  · rw [insert_edge_ok (⟨g.nodes_, (stdset.emplace edge_cmp ⟨s, d, w⟩ g.edges_).1⟩ : graph N E)
      s d w hg.nodes_sorted hs' hd']
    have hin : (⟨s, d, w⟩ : edge N E) ∈ (stdset.emplace edge_cmp ⟨s, d, w⟩ g.edges_).1 :=
      (hmem _ _).2 (Or.inl rfl)
    simp only [stdset.emplace_snd edge_cmp_strictTotal _ _ hsorted,
      stdset.emplace_fst_of_mem edge_cmp_strictTotal _ _ hsorted hin, hin, not_true_eq_false,
      decide_False]

theorem insert_edge_adds_once_witness :
    Reachable sample ∧ is_node sample 2 = true ∧ is_node sample 3 = true ∧
    ∃ b g', insert_edge sample 2 3 1 = (.ok b, g') ∧
      (b = true ↔ (⟨2, 3, 1⟩ : edge Nat Nat) ∉ sample.edges_) ∧
      g'.nodes_ = sample.nodes_ ∧
      (b = true → (∀ x, x ∈ g'.edges_ ↔ x = ⟨2, 3, 1⟩ ∨ x ∈ sample.edges_) ∧
        g'.edges_.length = sample.edges_.length + 1) ∧
      (b = false → g' = sample) ∧
      insert_edge g' 2 3 1 = (.ok false, g') :=
  ⟨sample_reachable, by decide, by decide,
    insert_edge_adds_once sample sample_reachable 2 3 1 (by decide) (by decide)⟩

/-- C9. `insert_edge(src, dest, w)` throws exactly when `src` or `dest` is not a
node, and then the graph is as it was before the call. -/
theorem insert_edge_throws_iff {N E : Type} [LinearOrder N] [LinearOrder E]
    (g : graph N E) (s d : N) (w : E) :
    ((∃ ex, (insert_edge g s d w).1 = .error ex) ↔ (is_node g s = false ∨ is_node g d = false)) ∧
    ((is_node g s = false ∨ is_node g d = false) →
      insert_edge g s d w
        = (.error (.runtime_error
            "Cannot call gdwg::graph<N, E>::insert_edge when either src or dst node does not exist"),
           g)) := by
  unfold insert_edge is_node
  cases stdset.find node_cmp node_cmp s g.nodes_ <;>
    cases stdset.find node_cmp node_cmp d g.nodes_ <;> simp

/-- C10. On a reachable graph, `replace_node(old, new)` throws exactly when
`old` is not a node, whatever `new` is, and then the graph is as it was before
the call. -/
theorem replace_node_throws_iff {N E : Type} [LinearOrder N] [LinearOrder E]
    (g : graph N E) (h : Reachable g) (old_data new_data : N) :
    ((∃ ex, (replace_node g old_data new_data).1 = .error ex) ↔ is_node g old_data = false) ∧
    (is_node g old_data = false →
      replace_node g old_data new_data
        = (.error (.runtime_error
            "Cannot call gdwg::graph<N, E>::replace_node on a node that doesn't exist"), g)) := by
  have hg := h.wf
  have herr : is_node g old_data = false →
      replace_node g old_data new_data
        = (.error (.runtime_error
            "Cannot call gdwg::graph<N, E>::replace_node on a node that doesn't exist"), g) :=
    fun ho => replace_node_error g _ _ hg.nodes_sorted
      ((is_node_eq_false_iff g hg.nodes_sorted _).1 ho)
  refine ⟨⟨?_, fun ho => ⟨_, by rw [herr ho]⟩⟩, herr⟩
  rintro ⟨ex, hex⟩
  by_contra ho
  rw [Bool.not_eq_false] at ho
  have ho' := (is_node_iff g hg.nodes_sorted _).1 ho
  by_cases hn : new_data ∈ g.nodes_
  · rw [replace_node_false g _ _ hg.nodes_sorted ho' hn] at hex
    cases hex
  · rw [replace_node_true g _ _ hg ho' hn] at hex
    cases hex

theorem replace_node_throws_iff_witness :
    Reachable sample ∧
    ((∃ ex, (replace_node sample 9 2).1 = .error ex) ↔ is_node sample 9 = false) ∧
    (is_node sample 9 = false →
      replace_node sample 9 2
        = (.error (.runtime_error
            "Cannot call gdwg::graph<N, E>::replace_node on a node that doesn't exist"), sample)) :=
  ⟨sample_reachable, replace_node_throws_iff sample sample_reachable 9 2⟩

end gdwg

/-! ## Facts about the accessors -/

namespace gdwg
section
variable {N E : Type} [LinearOrder N] [LinearOrder E]

theorem less_strictTotal : stdset.StrictTotal (less : N → N → Bool) :=
  node_cmp_strictTotal

theorem sorted_less_iff (l : List N) : stdset.Sorted less l ↔ l.Pairwise (fun a b => a < b) := by
  unfold stdset.Sorted less
  simp only [decide_eq_true_eq]

theorem sorted_node_cmp_iff (l : List N) :
    stdset.Sorted node_cmp l ↔ l.Pairwise (fun a b => a < b) := by
  unfold stdset.Sorted node_cmp
  simp only [decide_eq_true_eq]

theorem edge_cmp_same_ends (a b : edge N E) (h1 : a.src = b.src) (h2 : a.dest = b.dest) :
    edge_cmp a b = true ↔ a.weight < b.weight := by
  unfold edge_cmp tie_lt
  simp [h1, h2]

theorem edge_cmp_same_src (a b : edge N E) (h1 : a.src = b.src) :
    edge_cmp a b = true ↔ a.dest < b.dest ∨ (a.dest = b.dest ∧ a.weight < b.weight) := by
  unfold edge_cmp tie_lt
  simp only [h1, lt_self_iff_false, if_false]
  split_ifs with h2 h3
  · simp [h2]
  · simp [h3, ne_of_gt h3, not_lt_of_gt h3]
  · have : a.dest = b.dest := le_antisymm (not_lt.1 h3) (not_lt.1 h2)
    simp [this]

theorem weights_ok (g : graph N E) (s d : N) (hs : stdset.Sorted node_cmp g.nodes_)
    (h1 : s ∈ g.nodes_) (h2 : d ∈ g.nodes_) :
    weights g s d
      = .ok ((g.edges_.filter (fun e => decide (e.src = s) && decide (e.dest = d))).map
          (fun e => e.weight)) := by
  unfold weights
  rw [find_node_eq s _ hs, find_node_eq d _ hs]
  simp [h1, h2]

theorem weights_error (g : graph N E) (s d : N)
    (hs : stdset.Sorted node_cmp g.nodes_) (h : s ∉ g.nodes_ ∨ d ∉ g.nodes_) :
    weights g s d
      = .error (.runtime_error
          "Cannot call gdwg::graph<N, E>::weights if src or dst node don't exist in the graph") := by
  unfold weights
  rw [find_node_eq s _ hs, find_node_eq d _ hs]
  rcases h with h | h
  · simp [h]
  · by_cases h1 : s ∈ g.nodes_ <;> simp [h, h1]

theorem connections_fold (s : N) (es : List (edge N E)) (acc : List N)
    (hacc : stdset.Sorted less acc) :
    stdset.Sorted less
        (es.foldl (fun conns e => if e.src = s then (stdset.emplace less e.dest conns).1
          else conns) acc) ∧
      ∀ x, x ∈ es.foldl (fun conns e => if e.src = s then (stdset.emplace less e.dest conns).1
          else conns) acc ↔ x ∈ acc ∨ ∃ e ∈ es, e.src = s ∧ e.dest = x := by
  induction es generalizing acc with
  | nil => simp [hacc]
  | cons e rest ih =>
    rw [List.foldl_cons]
    by_cases he : e.src = s
    · simp only [he, if_true]
      have hs1 := stdset.sorted_emplace less_strictTotal e.dest acc hacc
      refine ⟨(ih _ hs1).1, fun x => ?_⟩
      rw [(ih _ hs1).2 x, stdset.mem_emplace less_strictTotal]
      simp only [List.mem_cons, exists_eq_or_imp, he, true_and]
      constructor
      · rintro ((h | h) | h)
        · exact Or.inr (Or.inl h.symm)
        · exact Or.inl h
        · exact Or.inr (Or.inr h)
      · rintro (h | h | h)
        · exact Or.inl (Or.inr h)
        · exact Or.inl (Or.inl h.symm)
        · exact Or.inr h
    · simp only [he, if_false]
      refine ⟨(ih _ hacc).1, fun x => ?_⟩
      rw [(ih _ hacc).2 x]
      simp only [List.mem_cons, exists_eq_or_imp, he, false_and, false_or]

theorem connections_ok (g : graph N E) (s : N) (hs : stdset.Sorted node_cmp g.nodes_)
    (h1 : s ∈ g.nodes_) :
    connections g s
      = .ok (g.edges_.foldl
          (fun conns e => if e.src = s then (stdset.emplace less e.dest conns).1 else conns)
          []) := by
  unfold connections
  rw [find_node_eq s _ hs]
  simp [h1]

theorem connections_error (g : graph N E) (s : N) (hs : stdset.Sorted node_cmp g.nodes_)
    (h1 : s ∉ g.nodes_) :
    connections g s
      = .error (.runtime_error
          "Cannot call gdwg::graph<N, E>::connections if src doesn't exist in the graph") := by
  unfold connections
  rw [find_node_eq s _ hs]
  simp [h1]

end
end gdwg

/-! ## The contract: failures of merge and erasure of an edge by value -/

namespace gdwg

/-- C11. On a reachable graph, `merge_replace_node(old, new)` throws exactly
when `old` or `new` is not a node, and then the graph is as it was before the
call. -/
theorem merge_replace_node_throws_iff {N E : Type} [LinearOrder N] [LinearOrder E]
    (g : graph N E) (h : Reachable g) (old_data new_data : N) :
    ((∃ ex, (merge_replace_node g old_data new_data).1 = .error ex)
      ↔ (is_node g old_data = false ∨ is_node g new_data = false)) ∧
    ((is_node g old_data = false ∨ is_node g new_data = false) →
      merge_replace_node g old_data new_data
        = (.error (.runtime_error
            "Cannot call gdwg::graph<N, E>::merge_replace_node on old or new data if they don't exist in the graph"),
           g)) := by
  have hg := h.wf
  have herr : (is_node g old_data = false ∨ is_node g new_data = false) →
      merge_replace_node g old_data new_data
        = (.error (.runtime_error
            "Cannot call gdwg::graph<N, E>::merge_replace_node on old or new data if they don't exist in the graph"),
           g) := by
    intro hor
    refine merge_replace_node_error g _ _ hg.nodes_sorted ?_
    rcases hor with ho | hn
    · exact Or.inl ((is_node_eq_false_iff g hg.nodes_sorted _).1 ho)
    · exact Or.inr ((is_node_eq_false_iff g hg.nodes_sorted _).1 hn)
  refine ⟨⟨?_, fun hor => ⟨_, by rw [herr hor]⟩⟩, herr⟩
  rintro ⟨ex, hex⟩
  by_contra hcon
  rw [not_or, Bool.not_eq_false, Bool.not_eq_false] at hcon
  have ho := (is_node_iff g hg.nodes_sorted _).1 hcon.1
  have hn := (is_node_iff g hg.nodes_sorted _).1 hcon.2
  by_cases hne : old_data = new_data
  · subst hne
    rw [merge_replace_node_same g _ hg.nodes_sorted ho] at hex
    cases hex
  · rw [merge_replace_node_ok g _ _ hg ho hn hne] at hex
    cases hex

theorem merge_replace_node_throws_iff_witness :
    Reachable sample ∧
    ((∃ ex, (merge_replace_node sample 9 9).1 = .error ex)
      ↔ (is_node sample 9 = false ∨ is_node sample 9 = false)) ∧
    ((is_node sample 9 = false ∨ is_node sample 9 = false) →
      merge_replace_node sample 9 9
        = (.error (.runtime_error
            "Cannot call gdwg::graph<N, E>::merge_replace_node on old or new data if they don't exist in the graph"),
           sample)) :=
  ⟨sample_reachable, merge_replace_node_throws_iff sample sample_reachable 9 9⟩

/-- C12. `merge_replace_node(v, v)` on a node `v` returns normally and leaves
the graph as it was: the same nodes, the same edges and the same text dump. -/
theorem merge_replace_node_self {N E : Type} [LinearOrder N] [LinearOrder E]
    (g : graph N E) (v : N) (hv : is_node g v = true) :
    ∃ g', merge_replace_node g v v = (.ok (), g') ∧ g' = g ∧
      nodes g' = nodes g ∧ g'.edges_ = g.edges_ ∧
      ∀ (put_N : N → String) (put_E : E → String),
        g'.output put_N put_E = g.output put_N put_E := by
  refine ⟨g, ?_, rfl, rfl, rfl, fun _ _ => rfl⟩
  unfold merge_replace_node
  unfold is_node at hv
  cases hf : stdset.find node_cmp node_cmp v g.nodes_ with
  | none => rw [hf] at hv; cases hv
  | some x => simp

theorem merge_replace_node_self_witness :
    is_node sample 1 = true ∧
    ∃ g', merge_replace_node sample 1 1 = (.ok (), g') ∧ g' = sample ∧
      nodes g' = nodes sample ∧ g'.edges_ = sample.edges_ ∧
      ∀ (put_N : Nat → String) (put_E : Nat → String),
        g'.output put_N put_E = sample.output put_N put_E :=
  ⟨by decide, merge_replace_node_self sample 1 (by decide)⟩

/-- C13. On a reachable graph, `erase_edge(src, dest, w)` throws exactly when
`src` or `dest` is not a node, leaving the graph as it was; otherwise it returns
whether the edge was stored, the nodes are unchanged and the edges are the
former edges without that one (so nothing changes when it returns false). -/
theorem erase_edge_removes_one {N E : Type} [LinearOrder N] [LinearOrder E]
    (g : graph N E) (h : Reachable g) (s d : N) (w : E) :
    ((∃ ex, (erase_edge g s d w).1 = .error ex)
      ↔ (is_node g s = false ∨ is_node g d = false)) ∧
    ((is_node g s = false ∨ is_node g d = false) →
      erase_edge g s d w
        = (.error (.runtime_error
            "Cannot call gdwg::graph<N, E>::erase_edge on src or dst if they don't exist in the graph"),
           g)) ∧
    ((is_node g s = true ∧ is_node g d = true) →
      ∃ b g', erase_edge g s d w = (.ok b, g') ∧
        (b = true ↔ (⟨s, d, w⟩ : edge N E) ∈ g.edges_) ∧
        g'.nodes_ = g.nodes_ ∧
        (∀ x, x ∈ g'.edges_ ↔ x ∈ g.edges_ ∧ x ≠ ⟨s, d, w⟩) ∧
        (b = false → g' = g)) := by
  have hg := h.wf
  have herr : (is_node g s = false ∨ is_node g d = false) →
      erase_edge g s d w
        = (.error (.runtime_error
            "Cannot call gdwg::graph<N, E>::erase_edge on src or dst if they don't exist in the graph"),
           g) := by
    intro hor
    refine erase_edge_error g _ _ _ hg.nodes_sorted ?_
    rcases hor with ho | hn
    · exact Or.inl ((is_node_eq_false_iff g hg.nodes_sorted _).1 ho)
    · exact Or.inr ((is_node_eq_false_iff g hg.nodes_sorted _).1 hn)
  have hok : (is_node g s = true ∧ is_node g d = true) →
      erase_edge g s d w
        = (.ok (decide ((⟨s, d, w⟩ : edge N E) ∈ g.edges_)),
           { g with edges_ := stdset.erase ⟨s, d, w⟩ g.edges_ }) :=
    fun hnd => erase_edge_ok g s d w hg.nodes_sorted hg.edges_sorted
      ((is_node_iff g hg.nodes_sorted _).1 hnd.1) ((is_node_iff g hg.nodes_sorted _).1 hnd.2)
  refine ⟨⟨?_, fun hor => ⟨_, by rw [herr hor]⟩⟩, herr, fun hnd => ?_⟩
  · rintro ⟨ex, hex⟩
    by_contra hcon
    rw [not_or, Bool.not_eq_false, Bool.not_eq_false] at hcon
    rw [hok hcon] at hex
    cases hex
  · refine ⟨_, _, hok hnd, ?_, rfl, fun x => ?_, fun hb => ?_⟩
    · rw [decide_eq_true_eq]
    · rw [stdset.mem_erase edge_cmp_strictTotal _ _ _ hg.edges_sorted]
      exact And.comm
    · rw [decide_eq_false_iff_not] at hb
      obtain ⟨ns, es⟩ := g
      simp only [stdset.erase, List.erase_of_not_mem hb]

theorem erase_edge_removes_one_witness :
    Reachable sample ∧ (is_node sample 2 = true ∧ is_node sample 1 = true) ∧
    ((∃ ex, (erase_edge sample 2 1 7).1 = .error ex)
      ↔ (is_node sample 2 = false ∨ is_node sample 1 = false)) ∧
    ((is_node sample 2 = false ∨ is_node sample 1 = false) →
      erase_edge sample 2 1 7
        = (.error (.runtime_error
            "Cannot call gdwg::graph<N, E>::erase_edge on src or dst if they don't exist in the graph"),
           sample)) ∧
    ∃ b g', erase_edge sample 2 1 7 = (.ok b, g') ∧
        (b = true ↔ (⟨2, 1, 7⟩ : edge Nat Nat) ∈ sample.edges_) ∧
        g'.nodes_ = sample.nodes_ ∧
        (∀ x, x ∈ g'.edges_ ↔ x ∈ sample.edges_ ∧ x ≠ ⟨2, 1, 7⟩) ∧
        (b = false → g' = sample) :=
  ⟨sample_reachable, ⟨by decide, by decide⟩,
    (erase_edge_removes_one sample sample_reachable 2 1 7).1,
    (erase_edge_removes_one sample sample_reachable 2 1 7).2.1,
    (erase_edge_removes_one sample sample_reachable 2 1 7).2.2 ⟨by decide, by decide⟩⟩

end gdwg

/-! ## The contract: nodes, weights and connections -/

namespace gdwg

theorem test_weights_graph_reachable : Reachable test_weights_graph :=
  Reachable.insert_edge _ 2 3 5 (Reachable.insert_edge _ 2 3 4 (Reachable.insert_edge _ 2 3 6
    (Reachable.insert_edge _ 1 3 3 (Reachable.insert_edge _ 2 3 2 (Reachable.insert_edge _ 2 1 1
      (Reachable.insert_node _ 3 (Reachable.insert_node _ 1
        (Reachable.insert_node _ 2 Reachable.default))))))))

theorem test_connections_graph_reachable : Reachable test_connections_graph :=
  Reachable.insert_edge _ 2 2 5 (Reachable.insert_edge _ 2 3 4 (Reachable.insert_edge _ 2 3 6
    (Reachable.insert_edge _ 1 3 3 (Reachable.insert_edge _ 2 3 2 (Reachable.insert_edge _ 2 1 1
      (Reachable.insert_node _ 3 (Reachable.insert_node _ 1
        (Reachable.insert_node _ 2 Reachable.default))))))))

theorem test_weights : weights test_weights_graph 2 3 = .ok [2, 4, 5, 6] := by
  rfl

theorem test_connections : connections test_connections_graph 2 = .ok [1, 2, 3] := by
  rfl

/-- C18. In every reachable graph `nodes()` is strictly ascending, without
duplicates, and holds exactly the values for which `is_node` is true; for the
default-constructed graph it is empty. -/
theorem nodes_ascending {N E : Type} [LinearOrder N] [LinearOrder E]
    (g : graph N E) (h : Reachable g) :
    (nodes g).Pairwise (fun a b => a < b) ∧ (nodes g).Nodup ∧
    (∀ v, v ∈ nodes g ↔ is_node g v = true) ∧
    nodes (graph.empty : graph N E) = [] := by
  have hg := h.wf
  have hn : nodes g = g.nodes_ := List.map_id' _
  rw [hn]
  exact ⟨(sorted_node_cmp_iff _).1 hg.nodes_sorted,
    stdset.Sorted.nodup node_cmp_strictTotal hg.nodes_sorted,
    fun v => (is_node_iff g hg.nodes_sorted v).symm, rfl⟩

theorem nodes_ascending_witness :
    Reachable test_weights_graph ∧
    (nodes test_weights_graph).Pairwise (fun a b => a < b) ∧ (nodes test_weights_graph).Nodup ∧
    (∀ v, v ∈ nodes test_weights_graph ↔ is_node test_weights_graph v = true) ∧
    nodes (graph.empty : graph Nat Int) = [] :=
  ⟨test_weights_graph_reachable, nodes_ascending test_weights_graph test_weights_graph_reachable⟩

/-- C19. On a reachable graph, `weights(src, dest)` throws exactly when `src` or
`dest` is not a node; otherwise it returns, strictly ascending, exactly the
weights `w` for which the edge `(src, dest, w)` is stored (none when there is no
such edge). -/
theorem weights_ascending {N E : Type} [LinearOrder N] [LinearOrder E]
    (g : graph N E) (h : Reachable g) (s d : N) :
    ((∃ ex, weights g s d = .error ex) ↔ (is_node g s = false ∨ is_node g d = false)) ∧
    ((is_node g s = false ∨ is_node g d = false) →
      weights g s d
        = .error (.runtime_error
            "Cannot call gdwg::graph<N, E>::weights if src or dst node don't exist in the graph")) ∧
    ((is_node g s = true ∧ is_node g d = true) →
      ∃ ws, weights g s d = .ok ws ∧ ws.Pairwise (fun a b => a < b) ∧
        (∀ w, w ∈ ws ↔ (⟨s, d, w⟩ : edge N E) ∈ g.edges_) ∧
        ((∀ w, (⟨s, d, w⟩ : edge N E) ∉ g.edges_) → ws = [])) := by
  have hg := h.wf
  have herr : (is_node g s = false ∨ is_node g d = false) →
      weights g s d
        = .error (.runtime_error
            "Cannot call gdwg::graph<N, E>::weights if src or dst node don't exist in the graph") := by
    intro hor
    refine weights_error g _ _ hg.nodes_sorted ?_
    rcases hor with ho | hn
    · exact Or.inl ((is_node_eq_false_iff g hg.nodes_sorted _).1 ho)
    · exact Or.inr ((is_node_eq_false_iff g hg.nodes_sorted _).1 hn)
  have hok : (is_node g s = true ∧ is_node g d = true) → weights g s d
      = .ok ((g.edges_.filter (fun e => decide (e.src = s) && decide (e.dest = d))).map
          (fun e => e.weight)) :=
    fun hnd => weights_ok g s d hg.nodes_sorted
      ((is_node_iff g hg.nodes_sorted _).1 hnd.1) ((is_node_iff g hg.nodes_sorted _).1 hnd.2)
  have hmem : ∀ w, w ∈ (g.edges_.filter (fun e => decide (e.src = s) && decide (e.dest = d))).map
      (fun e => e.weight) ↔ (⟨s, d, w⟩ : edge N E) ∈ g.edges_ := by
    intro w
    simp only [List.mem_map, List.mem_filter, Bool.and_eq_true, decide_eq_true_eq]
    constructor
    · rintro ⟨⟨a, b, c⟩, ⟨he, h1, h2⟩, h3⟩
      simp only at h1 h2 h3
      subst h1 h2 h3
      exact he
    · intro he
      exact ⟨_, ⟨he, rfl, rfl⟩, rfl⟩
  refine ⟨⟨?_, fun hor => ⟨_, herr hor⟩⟩, herr, fun hnd => ?_⟩
  · rintro ⟨ex, hex⟩
    by_contra hcon
    rw [not_or, Bool.not_eq_false, Bool.not_eq_false] at hcon
    rw [hok hcon] at hex
    cases hex
  · refine ⟨_, hok hnd, ?_, hmem, fun hnone => ?_⟩
    · rw [List.pairwise_map]
      refine List.Pairwise.imp_of_mem ?_
        (List.Pairwise.sublist (List.filter_sublist _) hg.edges_sorted)
      intro a b ha hb hab
      simp only [List.mem_filter, Bool.and_eq_true, decide_eq_true_eq] at ha hb
      exact (edge_cmp_same_ends a b (ha.2.1.trans hb.2.1.symm) (ha.2.2.trans hb.2.2.symm)).1 hab
    · apply List.eq_nil_iff_forall_not_mem.2
      intro w hw
      exact hnone w ((hmem w).1 hw)

theorem weights_ascending_witness :
    Reachable test_weights_graph ∧
    (is_node test_weights_graph 2 = true ∧ is_node test_weights_graph 3 = true) ∧
    ((∃ ex, weights test_weights_graph 2 3 = .error ex)
      ↔ (is_node test_weights_graph 2 = false ∨ is_node test_weights_graph 3 = false)) ∧
    ∃ ws, weights test_weights_graph 2 3 = .ok ws ∧ ws.Pairwise (fun a b => a < b) ∧
        (∀ w, w ∈ ws ↔ (⟨2, 3, w⟩ : edge Nat Int) ∈ test_weights_graph.edges_) ∧
        ((∀ w, (⟨2, 3, w⟩ : edge Nat Int) ∉ test_weights_graph.edges_) → ws = []) :=
  ⟨test_weights_graph_reachable, ⟨by decide, by decide⟩,
    (weights_ascending test_weights_graph test_weights_graph_reachable 2 3).1,
    (weights_ascending test_weights_graph test_weights_graph_reachable 2 3).2.2
      ⟨by decide, by decide⟩⟩

/-- C20. On a reachable graph, `connections(src)` throws exactly when `src` is
not a node; otherwise it returns, strictly ascending and so without
repetition, exactly the values `d` for which some edge `(src, d, w)` is
stored. -/
theorem connections_ascending {N E : Type} [LinearOrder N] [LinearOrder E]
    (g : graph N E) (h : Reachable g) (s : N) :
    ((∃ ex, connections g s = .error ex) ↔ is_node g s = false) ∧
    (is_node g s = false →
      connections g s
        = .error (.runtime_error
            "Cannot call gdwg::graph<N, E>::connections if src doesn't exist in the graph")) ∧
    (is_node g s = true →
      ∃ cs, connections g s = .ok cs ∧ cs.Pairwise (fun a b => a < b) ∧ cs.Nodup ∧
        (∀ d, d ∈ cs ↔ ∃ w, (⟨s, d, w⟩ : edge N E) ∈ g.edges_) ∧
        ((∃ w, (⟨s, s, w⟩ : edge N E) ∈ g.edges_) → s ∈ cs)) := by
  have hg := h.wf
  have herr : is_node g s = false →
      connections g s
        = .error (.runtime_error
            "Cannot call gdwg::graph<N, E>::connections if src doesn't exist in the graph") :=
    fun hs => connections_error g s hg.nodes_sorted ((is_node_eq_false_iff g hg.nodes_sorted _).1 hs)
  have hok := fun hs : is_node g s = true =>
    connections_ok g s hg.nodes_sorted ((is_node_iff g hg.nodes_sorted _).1 hs)
  have hfold := connections_fold s g.edges_ [] List.Pairwise.nil
  have hmem : ∀ d, d ∈ g.edges_.foldl
      (fun conns e => if e.src = s then (stdset.emplace less e.dest conns).1 else conns) []
      ↔ ∃ w, (⟨s, d, w⟩ : edge N E) ∈ g.edges_ := by
    intro d
    rw [hfold.2 d]
    simp only [List.not_mem_nil, false_or]
    constructor
    · rintro ⟨⟨a, b, c⟩, he, h1, h2⟩
      simp only at h1 h2
      subst h1 h2
      exact ⟨c, he⟩
    · rintro ⟨w, he⟩
      exact ⟨_, he, rfl, rfl⟩
  refine ⟨⟨?_, fun hs => ⟨_, herr hs⟩⟩, herr, fun hs => ?_⟩
  · rintro ⟨ex, hex⟩
    by_contra hcon
    rw [Bool.not_eq_false] at hcon
    rw [hok hcon] at hex
    cases hex
  · exact ⟨_, hok hs, (sorted_less_iff _).1 hfold.1,
      stdset.Sorted.nodup less_strictTotal hfold.1, hmem, fun hw => (hmem s).2 hw⟩

theorem connections_ascending_witness :
    Reachable test_connections_graph ∧ is_node test_connections_graph 2 = true ∧
    ((∃ ex, connections test_connections_graph 2 = .error ex)
      ↔ is_node test_connections_graph 2 = false) ∧
    ∃ cs, connections test_connections_graph 2 = .ok cs ∧ cs.Pairwise (fun a b => a < b) ∧
        cs.Nodup ∧
        (∀ d, d ∈ cs ↔ ∃ w, (⟨2, d, w⟩ : edge Nat Int) ∈ test_connections_graph.edges_) ∧
        ((∃ w, (⟨2, 2, w⟩ : edge Nat Int) ∈ test_connections_graph.edges_) → 2 ∈ cs) :=
  ⟨test_connections_graph_reachable, by decide,
    (connections_ascending test_connections_graph test_connections_graph_reachable 2).1,
    (connections_ascending test_connections_graph test_connections_graph_reachable 2).2.2
      (by decide)⟩

end gdwg

/-! ## Facts about the iterator forms of erase_edge -/

namespace gdwg
namespace stdset
variable {T : Type}

theorem takeWhile_dropWhile_get? [DecidableEq T] (l : List T) (hnd : l.Nodup) (i : Nat) :
    l.takeWhile (fun x => decide (some x ≠ l.get? i)) = l.take i ∧
    l.dropWhile (fun x => decide (some x ≠ l.get? i)) = l.drop i := by
  induction l generalizing i with
  | nil => simp
  | cons x xs ih =>
    have hx := (List.nodup_cons.1 hnd).1
    cases i with
    | zero => simp
    | succ k =>
      have hne : some x ≠ xs.get? k := by
        intro heq
        exact hx (List.get?_mem heq.symm)
      have ih' := ih (List.nodup_cons.1 hnd).2 k
      simp only [List.get?_cons_succ, List.take_succ_cons, List.drop_succ_cons]
      rw [List.takeWhile_cons, List.dropWhile_cons]
      simp only [hne, ne_eq, not_false_eq_true, decide_True, if_true]
      exact ⟨by rw [ih'.1], ih'.2⟩

theorem erase_range_get? [DecidableEq T] (l : List T) (hnd : l.Nodup) (i j : Nat) (hij : i ≤ j) :
    erase_range (l.get? i) (l.get? j) l = l.take i ++ l.drop j := by
  unfold erase_range
  rw [(takeWhile_dropWhile_get? l hnd i).1, (takeWhile_dropWhile_get? l hnd i).2]
  have hnd' : (l.drop i).Nodup := List.Nodup.sublist (List.drop_sublist _ _) hnd
  have hget : (l.drop i).get? (j - i) = l.get? j := by
    rw [List.get?_eq_getElem?, List.get?_eq_getElem?, List.getElem?_drop]
    congr 1
    omega
  rw [← hget, (takeWhile_dropWhile_get? (l.drop i) hnd' (j - i)).2, List.drop_drop]
  congr 2
  omega

theorem erase_range_head_none [DecidableEq T] (l : List T) :
    erase_range l.head? none l = [] := by
  unfold erase_range
  cases l with
  | nil => simp
  | cons x xs => simp

theorem erase_of_append [DecidableEq T] (x : T) (pre rest : List T) (hx : x ∉ pre) :
    erase x (pre ++ x :: rest) = pre ++ rest := by
  unfold erase
  rw [List.erase_append_right _ hx, List.erase_cons_head]

end stdset

section
variable {N E : Type} [LinearOrder N] [LinearOrder E]

theorem graph.find_as_ite (g : graph N E) (he : stdset.Sorted edge_cmp g.edges_) (s d : N) (w : E) :
    g.find s d w = ⟨if (⟨s, d, w⟩ : edge N E) ∈ g.edges_ then some ⟨s, d, w⟩ else none⟩ := by
  unfold graph.find
  rw [find_edge_eq _ _ he]

theorem graph.find_of_mem (g : graph N E) (he : stdset.Sorted edge_cmp g.edges_) (e : edge N E)
    (hmem : e ∈ g.edges_) : g.find e.src e.dest e.weight = ⟨some e⟩ := by
  rw [graph.find_as_ite g he]
  cases e
  simp only at hmem ⊢
  simp [hmem]

theorem edge_cmp_eq_false_iff (a b : edge N E) : edge_cmp a b = false ↔ b.key ≤ a.key := by
  rw [Bool.eq_false_iff, Ne, edge_cmp_iff, not_lt]

end
end gdwg

/-! ## The contract: erasure through iterators -/

namespace gdwg

/-- C14. On a reachable graph, `erase_edge(it)` for an iterator denoting the
edge `e` keeps the nodes, removes `e` and no other edge, and returns the
iterator that `find` gives for the least edge greater than `e`, or `end()` when
no edge is greater than `e`. -/
theorem erase_edge_iterator_next {N E : Type} [LinearOrder N] [LinearOrder E]
    (g : graph N E) (h : Reachable g) (e : edge N E) (he : e ∈ g.edges_) :
    ∃ r g', erase_edge_iterator g ⟨some e⟩ = (r, g') ∧
      g'.nodes_ = g.nodes_ ∧
      (∀ x, x ∈ g'.edges_ ↔ x ∈ g.edges_ ∧ x ≠ e) ∧
      (∀ n ∈ g.edges_, e.key < n.key → (∀ m ∈ g.edges_, e.key < m.key → n.key ≤ m.key) →
        iterator.eq r (g'.find n.src n.dest n.weight) = true ∧
        iterator.eq r (g.find n.src n.dest n.weight) = true ∧
        r.deref = some n.value) ∧
      ((∀ m ∈ g.edges_, m.key ≤ e.key) → iterator.eq r g'.end_ = true) := by
  have hg := h.wf
  have hes := hg.edges_sorted
  have hnd := stdset.Sorted.nodup edge_cmp_strictTotal hes
  obtain ⟨ns, es⟩ := g
  simp only at he hes hnd
  obtain ⟨pre, rest, rfl⟩ := List.append_of_mem he
  have hpre : e ∉ pre := fun hmem =>
    (List.disjoint_of_nodup_append hnd) hmem (List.mem_cons_self _ _)
  have hres : erase_edge_iterator (⟨ns, pre ++ e :: rest⟩ : graph N E) ⟨some e⟩
      = (⟨rest.head?⟩, ⟨ns, pre ++ rest⟩) := by
    simp only [erase_edge_iterator, stdset.after_append e pre rest hpre,
      stdset.erase_of_append e pre rest hpre]
  have hsub : (pre ++ rest).Sublist (pre ++ e :: rest) :=
    List.Sublist.append (List.Sublist.refl _) (List.sublist_cons_self _ _)
  have hes' : stdset.Sorted edge_cmp (pre ++ rest) := List.Pairwise.sublist hsub hes
  have hlt_pre : ∀ m ∈ pre, m.key < e.key := fun m hm =>
    (edge_cmp_iff m e).1 ((List.pairwise_append.1 hes).2.2 m hm e (List.mem_cons_self _ _))
  have hlt_rest : ∀ m ∈ rest, e.key < m.key := fun m hm =>
    (edge_cmp_iff e m).1 ((List.pairwise_cons.1 (List.pairwise_append.1 hes).2.1).1 m hm)
  refine ⟨_, _, hres, rfl, fun x => ?_, fun n hn hen hmin => ?_, fun hmax => ?_⟩
  · simp only [List.mem_append, List.mem_cons]
    constructor
    · rintro (hx | hx)
      · exact ⟨Or.inl hx, fun hxe => hpre (hxe ▸ hx)⟩
      · exact ⟨Or.inr (Or.inr hx), fun hxe => lt_irrefl _ (hxe ▸ hlt_rest x hx)⟩
    · rintro ⟨hx | hx | hx, hne⟩
      · exact Or.inl hx
      · exact absurd hx hne
      · exact Or.inr hx
  · have hnrest : n ∈ rest := by
      rcases List.mem_append.1 hn with hp | hp
      · exact absurd hen (lt_asymm (hlt_pre n hp))
      · rcases List.mem_cons.1 hp with hp | hp
        · exact absurd hen (hp ▸ lt_irrefl _)
        · exact hp
    cases rest with
    | nil => cases hnrest
    | cons x xs =>
      have hxn : x = n := by
        rcases List.mem_cons.1 hnrest with hp | hp
        · exact hp.symm
        · have h1 : x.key < n.key := (edge_cmp_iff x n).1
            ((List.pairwise_cons.1
              (List.pairwise_cons.1 (List.pairwise_append.1 hes).2.1).2).1 n hp)
          have h2 := hmin x (List.mem_append.2 (Or.inr (List.mem_cons_of_mem _
            (List.mem_cons_self _ _)))) (hlt_rest x (List.mem_cons_self _ _))
          exact absurd h1 (not_lt.2 h2)
      subst hxn
      rw [graph.find_of_mem (⟨ns, pre ++ x :: xs⟩ : graph N E) hes' x
          (List.mem_append.2 (Or.inr (List.mem_cons_self _ _))),
        graph.find_of_mem (⟨ns, pre ++ e :: x :: xs⟩ : graph N E) hes x hn]
      simp [iterator.eq, iterator.deref]
  · cases rest with
    | nil => simp [iterator.eq, graph.end_]
    | cons x xs =>
      exact absurd (hlt_rest x (List.mem_cons_self _ _))
        (not_lt.2 (hmax x (List.mem_append.2 (Or.inr (List.mem_cons_of_mem _
          (List.mem_cons_self _ _))))))

theorem erase_edge_iterator_next_witness :
    Reachable sample ∧ (⟨1, 2, 5⟩ : edge Nat Nat) ∈ sample.edges_ ∧
    ∃ r g', erase_edge_iterator sample ⟨some ⟨1, 2, 5⟩⟩ = (r, g') ∧
      g'.nodes_ = sample.nodes_ ∧
      (∀ x, x ∈ g'.edges_ ↔ x ∈ sample.edges_ ∧ x ≠ ⟨1, 2, 5⟩) ∧
      (∀ n ∈ sample.edges_, (⟨1, 2, 5⟩ : edge Nat Nat).key < n.key →
        (∀ m ∈ sample.edges_, (⟨1, 2, 5⟩ : edge Nat Nat).key < m.key → n.key ≤ m.key) →
        iterator.eq r (g'.find n.src n.dest n.weight) = true ∧
        iterator.eq r (sample.find n.src n.dest n.weight) = true ∧
        r.deref = some n.value) ∧
      ((∀ m ∈ sample.edges_, m.key ≤ (⟨1, 2, 5⟩ : edge Nat Nat).key) →
        iterator.eq r g'.end_ = true) :=
  ⟨sample_reachable, by decide,
    erase_edge_iterator_next sample sample_reachable ⟨1, 2, 5⟩ (by decide)⟩

/-- C15. On a reachable graph, `erase_edge(first, last)` for positions
`first`, `last` of the edge sequence with `first` not after `last` keeps the
nodes, removes exactly the edges at the positions from `first` up to, not
including, `last`, and returns `last`: the iterator of the edge that `last`
denoted, which is still stored, or `end()`.  With `begin()` and `end()` no edge
is left and `end()` is returned. -/
theorem erase_edge_range_removes {N E : Type} [LinearOrder N] [LinearOrder E]
    (g : graph N E) (h : Reachable g) (i j : Nat) (hij : i ≤ j) (hj : j ≤ g.edges_.length) :
    ∃ r g', erase_edge_range g (g.at_ i) (g.at_ j) = (r, g') ∧
      g'.nodes_ = g.nodes_ ∧
      g'.edges_ = g.edges_.take i ++ g.edges_.drop j ∧
      iterator.eq r (g.at_ j) = true ∧
      (∀ e, (g.at_ j).itor_ = some e →
        e ∈ g'.edges_ ∧ iterator.eq r (g'.find e.src e.dest e.weight) = true ∧
        r.deref = some e.value) ∧
      (j = g.edges_.length → iterator.eq r g'.end_ = true) ∧
      erase_edge_range g g.begin g.end_ = (g.end_, ⟨g.nodes_, []⟩) := by
  have hg := h.wf
  have hes := hg.edges_sorted
  have hnd := stdset.Sorted.nodup edge_cmp_strictTotal hes
  obtain ⟨ns, es⟩ := g
  simp only at hes hnd hj
  have hedges := stdset.erase_range_get? es hnd i j hij
  have hsub : (es.take i ++ es.drop j).Sublist es := by
    rw [← hedges]
    exact stdset.erase_range_sublist _ _ _
  refine ⟨_, _, rfl, rfl, hedges, by simp [iterator.eq], fun e hje => ?_, fun hjl => ?_, ?_⟩
  · simp only [graph.at_, List.get?_eq_getElem?] at hje
    have hmem : e ∈ es.take i ++ es.drop j := by
      refine List.mem_append.2 (Or.inr ?_)
      have h0 : (es.drop j)[0]? = some e := by
        rw [List.getElem?_drop]
        exact hje
      exact List.mem_iff_getElem?.2 ⟨0, h0⟩
    simp only [erase_edge_range, graph.at_, hedges]
    refine ⟨hmem, ?_, ?_⟩
    · rw [graph.find_of_mem (⟨ns, es.take i ++ es.drop j⟩ : graph N E)
        (List.Pairwise.sublist hsub hes) e hmem]
      simp [iterator.eq, hje]
    · simp [iterator.deref, hje]
  · subst hjl
    simp [erase_edge_range, graph.at_, iterator.eq, graph.end_]
  · simp only [erase_edge_range, graph.begin, graph.end_, stdset.erase_range_head_none]

theorem erase_edge_range_removes_witness :
    Reachable sample ∧ 1 ≤ 3 ∧ 3 ≤ sample.edges_.length ∧
    ∃ r g', erase_edge_range sample (sample.at_ 1) (sample.at_ 3) = (r, g') ∧
      g'.nodes_ = sample.nodes_ ∧
      g'.edges_ = sample.edges_.take 1 ++ sample.edges_.drop 3 ∧
      iterator.eq r (sample.at_ 3) = true ∧
      (∀ e, (sample.at_ 3).itor_ = some e →
        e ∈ g'.edges_ ∧ iterator.eq r (g'.find e.src e.dest e.weight) = true ∧
        r.deref = some e.value) ∧
      (3 = sample.edges_.length → iterator.eq r g'.end_ = true) ∧
      erase_edge_range sample sample.begin sample.end_ = (sample.end_, ⟨sample.nodes_, []⟩) :=
  ⟨sample_reachable, by decide, by decide,
    erase_edge_range_removes sample sample_reachable 1 3 (by decide) (by decide)⟩

end gdwg

/-! ## The model on further unit tests of the repository -/

namespace gdwg

theorem test_output_easy :
    test_output_graph.output test_output_names (fun w => toString w)
      = "are (\n  are | 3\n  you | 2\n)\nhow (\n  are | 1\n)\nyou (\n)\n" := by
  rfl

theorem test_output_empty :
    (graph.empty : graph Nat Int).output test_output_names (fun w => toString w) = "" := by
  rfl

set_option maxRecDepth 100000 in
theorem test_output_hard :
    test_output_hard_graph.output (fun n => toString n) (fun w => toString w)
      = "1 (\n  5 | -1\n)\n2 (\n  1 | 1\n  4 | 2\n)\n3 (\n  2 | 2\n  6 | -8\n)\n4 (\n  1 | -4\n  5 | 3\n)\n5 (\n  2 | 7\n)\n6 (\n  2 | 5\n  3 | 10\n)\n64 (\n)\n" := by
  rfl

theorem test_eq_insertion_order : graph.eq test_eq_graph1 test_eq_graph2 = true := by
  decide

theorem test_eq_extra_node :
    graph.eq test_eq_graph1 (insert_node test_eq_graph2 0).2 = false := by
  decide

theorem test_eq_other_weight :
    graph.eq (insert_edge test_eq_graph1 2 1 5).2 (insert_edge test_eq_graph2 2 1 6).2 = false := by
  decide

theorem test_erase_edge_iterator :
    (erase_edge_iterator test_erase_graph (test_erase_graph.find 2 1 1)).1
      = (erase_edge_iterator test_erase_graph (test_erase_graph.find 2 1 1)).2.find 2 2 4 := by
  decide

end gdwg

/-! ## Facts about equality and the text dump -/

namespace gdwg
namespace stdset
variable {T : Type} {cmp : T → T → Bool}

theorem eq_iff_of_lawful (elem_eq : T → T → Bool) (h : ∀ a b, elem_eq a b = true ↔ a = b)
    (l1 l2 : List T) : eq elem_eq l1 l2 = true ↔ l1 = l2 := by
  induction l1 generalizing l2 with
  | nil => cases l2 <;> simp [eq]
  | cons x xs ih =>
    cases l2 with
    | nil => simp [eq]
    | cons y ys => simp [eq, h, ih]

theorem Sorted.ext (h : StrictTotal cmp) {l1 l2 : List T} (hs1 : Sorted cmp l1)
    (hs2 : Sorted cmp l2) (hmem : ∀ x, x ∈ l1 ↔ x ∈ l2) : l1 = l2 := by
  haveI : IsAntisymm T (fun a b => cmp a b = true) :=
    ⟨fun a b hab hba => absurd (h.trans a b a hab hba) (by rw [h.irrefl]; exact Bool.false_ne_true)⟩
  exact List.eq_of_perm_of_sorted
    ((List.perm_ext_iff_of_nodup (Sorted.nodup h hs1) (Sorted.nodup h hs2)).2 hmem) hs1 hs2

end stdset

section
variable {N E : Type} [LinearOrder N] [LinearOrder E]

theorem edge.eq_true_iff (a b : edge N E) : edge.eq a b = true ↔ a = b := by
  cases a; cases b
  simp [edge.eq]

theorem node_eq_iff (a b : N) : node_eq a b = true ↔ a = b := by
  simp [node_eq]

theorem graph.eq_true_iff_same (g1 g2 : graph N E) : graph.eq g1 g2 = true ↔ g1 = g2 := by
  cases g1; cases g2
  simp [graph.eq, stdset.eq_iff_of_lawful node_eq node_eq_iff, stdset.eq_iff_of_lawful edge.eq edge.eq_true_iff]

theorem output_inner_fold (put_N : N → String) (put_E : E → String) (n : N)
    (es : List (edge N E)) (init : String) :
    es.foldl
        (fun oss e =>
          if e.src = n then oss ++ "  " ++ put_N e.dest ++ " | " ++ put_E e.weight ++ "\n"
          else oss) init
      = init ++ concat ((es.filter (fun e => decide (e.src = n))).map
          (fun e => "  " ++ put_N e.dest ++ " | " ++ put_E e.weight ++ "\n")) := by
  induction es generalizing init with
  | nil => simp [concat]
  | cons e rest ih =>
    rw [List.foldl_cons, ih]
    by_cases he : e.src = n
    · simp [he, concat, String.append_assoc]
    · simp [he]

theorem output_outer_fold (block : N → String) (f : String → N → String)
    (hf : ∀ oss n, f oss n = oss ++ block n) (ns : List N) (init : String) :
    ns.foldl f init = init ++ concat (ns.map block) := by
  induction ns generalizing init with
  | nil => simp [concat]
  | cons n rest ih =>
    rw [List.foldl_cons, ih, hf]
    simp [concat, String.append_assoc]

theorem graph.output_eq (put_N : N → String) (put_E : E → String) (g : graph N E) :
    g.output put_N put_E
      = concat (g.nodes_.map (fun n =>
          put_N n ++ " (\n"
            ++ concat ((g.edges_.filter (fun e => decide (e.src = n))).map
                (fun e => "  " ++ put_N e.dest ++ " | " ++ put_E e.weight ++ "\n"))
            ++ ")\n")) := by
  unfold graph.output
  rw [output_outer_fold (fun n =>
          put_N n ++ " (\n"
            ++ concat ((g.edges_.filter (fun e => decide (e.src = n))).map
                (fun e => "  " ++ put_N e.dest ++ " | " ++ put_E e.weight ++ "\n"))
            ++ ")\n")]
  · simp
  · intro oss n
    rw [output_inner_fold]
    simp [String.append_assoc]

theorem out_edges_sorted (es : List (edge N E)) (hes : stdset.Sorted edge_cmp es) (n : N) :
    (es.filter (fun e => decide (e.src = n))).Sorted
      (fun a b => toLex (a.dest, a.weight) ≤ toLex (b.dest, b.weight)) := by
  refine List.Pairwise.imp_of_mem ?_ (List.Pairwise.sublist (List.filter_sublist _) hes)
  intro a b ha hb hab
  simp only [List.mem_filter, decide_eq_true_eq] at ha hb
  have := (edge_cmp_same_src a b (ha.2.trans hb.2.symm)).1 hab
  exact le_of_lt ((Prod.Lex.lt_iff _ _).2 this)

theorem dump_spec_eq (put_N : N → String) (put_E : E → String) (g : graph N E) (hg : g.WF) :
    dump_spec put_N put_E g
      = concat (g.nodes_.map (fun n =>
          put_N n ++ " (\n"
            ++ concat ((g.edges_.filter (fun e => decide (e.src = n))).map
                (fun e => "  " ++ put_N e.dest ++ " | " ++ put_E e.weight ++ "\n"))
            ++ ")\n")) := by
  unfold dump_spec nodes
  have hn : (g.nodes_.map (fun n => n)).insertionSort (fun a b => a ≤ b) = g.nodes_ := by
    rw [List.map_id']
    exact List.Sorted.insertionSort_eq
      (List.Pairwise.imp (fun {a b} hab => le_of_lt hab)
        ((sorted_node_cmp_iff _).1 hg.nodes_sorted))
  rw [hn]
  congr 1
  refine List.map_congr_left fun n _ => ?_
  rw [List.Sorted.insertionSort_eq (out_edges_sorted g.edges_ hg.edges_sorted n)]

end
end gdwg

/-! ## The contract: text dump and equality -/

namespace gdwg

theorem test_output_graph_reachable : Reachable test_output_graph :=
  Reachable.insert_edge _ 1 1 3 (Reachable.insert_edge _ 1 3 2 (Reachable.insert_edge _ 2 1 1
    (Reachable.insert_node _ 3 (Reachable.insert_node _ 1
      (Reachable.insert_node _ 2 Reachable.default)))))

theorem test_eq_graph1_reachable : Reachable test_eq_graph1 :=
  Reachable.insert_edge _ 1 3 3 (Reachable.insert_edge _ 2 2 2 (Reachable.insert_edge _ 2 3 1
    (Reachable.insert_node _ 3 (Reachable.insert_node _ 1
      (Reachable.insert_node _ 2 Reachable.default)))))

theorem test_eq_graph2_reachable : Reachable test_eq_graph2 :=
  Reachable.insert_edge _ 1 3 3 (Reachable.insert_edge _ 2 2 2 (Reachable.insert_edge _ 2 3 1
    (Reachable.insert_node _ 2 (Reachable.insert_node _ 3
      (Reachable.insert_node _ 1 Reachable.default)))))

/-- C16. The text dump of a reachable graph is the concatenation, over the
nodes in ascending order, of the node value and " (", a line with two spaces,
the destination, " | " and the weight for each edge leaving the node, in
ascending (destination, weight) order, and ")"; nodes without outgoing edges
still give their two markers, and the empty graph gives the empty string. -/
theorem output_is_dump {N E : Type} [LinearOrder N] [LinearOrder E]
    (g : graph N E) (h : Reachable g) (put_N : N → String) (put_E : E → String) :
    g.output put_N put_E = dump_spec put_N put_E g ∧
    (g.edges_ = [] →
      g.output put_N put_E = concat ((nodes g).map (fun n => put_N n ++ " (\n" ++ ")\n"))) ∧
    (graph.empty : graph N E).output put_N put_E = "" := by
  refine ⟨?_, fun he => ?_, rfl⟩
  · rw [graph.output_eq, dump_spec_eq put_N put_E g h.wf]
  · rw [graph.output_eq, he]
    simp [nodes, concat]

theorem output_is_dump_witness :
    Reachable test_output_graph ∧
    (test_output_graph.output test_output_names (fun w => toString w)
      = dump_spec test_output_names (fun w => toString w) test_output_graph ∧
    (test_output_graph.edges_ = [] →
      test_output_graph.output test_output_names (fun w => toString w)
        = concat ((nodes test_output_graph).map
            (fun n => test_output_names n ++ " (\n" ++ ")\n"))) ∧
    (graph.empty : graph Nat Int).output test_output_names (fun w => toString w) = "") ∧
    dump_spec test_output_names (fun w => toString w) test_output_graph
      = "are (\n  are | 3\n  you | 2\n)\nhow (\n  are | 1\n)\nyou (\n)\n" :=
  ⟨test_output_graph_reachable,
    output_is_dump test_output_graph test_output_graph_reachable test_output_names
      (fun w => toString w), by rfl⟩

/-- C17. Two reachable graphs compare equal with `==` exactly when they have
the same nodes and the same edges; graphs that differ in a node or in an edge
(be it only in its weight) compare unequal. -/
theorem graph_eq_iff_same_sets {N E : Type} [LinearOrder N] [LinearOrder E]
    (g1 g2 : graph N E) (h1 : Reachable g1) (h2 : Reachable g2) :
    (graph.eq g1 g2 = true ↔
      (∀ v, is_node g1 v = is_node g2 v) ∧
      (∀ s d w, (⟨s, d, w⟩ : edge N E) ∈ g1.edges_ ↔ (⟨s, d, w⟩ : edge N E) ∈ g2.edges_)) ∧
    ((∃ v, is_node g1 v ≠ is_node g2 v) → graph.eq g1 g2 = false) ∧
    ((∃ s d w, (⟨s, d, w⟩ : edge N E) ∈ g1.edges_ ∧ (⟨s, d, w⟩ : edge N E) ∉ g2.edges_) →
      graph.eq g1 g2 = false) := by
  have hg1 := h1.wf
  have hg2 := h2.wf
  have hiff : graph.eq g1 g2 = true ↔
      (∀ v, is_node g1 v = is_node g2 v) ∧
      (∀ s d w, (⟨s, d, w⟩ : edge N E) ∈ g1.edges_ ↔ (⟨s, d, w⟩ : edge N E) ∈ g2.edges_) := by
    rw [graph.eq_true_iff_same]
    constructor
    · rintro rfl
      exact ⟨fun _ => rfl, fun _ _ _ => Iff.rfl⟩
    · rintro ⟨hn, he⟩
      have hnodes : g1.nodes_ = g2.nodes_ :=
        stdset.Sorted.ext node_cmp_strictTotal hg1.nodes_sorted hg2.nodes_sorted (fun v => by
          rw [← is_node_iff g1 hg1.nodes_sorted, ← is_node_iff g2 hg2.nodes_sorted, hn v])
      have hedges : g1.edges_ = g2.edges_ :=
        stdset.Sorted.ext edge_cmp_strictTotal hg1.edges_sorted hg2.edges_sorted
          (fun ⟨s, d, w⟩ => he s d w)
      cases g1; cases g2
      simp only at hnodes hedges
      rw [hnodes, hedges]
  refine ⟨hiff, ?_, ?_⟩
  · rintro ⟨v, hv⟩
    rw [Bool.eq_false_iff, Ne, hiff]
    exact fun hcon => hv (hcon.1 v)
  · rintro ⟨s, d, w, hin, hout⟩
    rw [Bool.eq_false_iff, Ne, hiff]
    exact fun hcon => hout ((hcon.2 s d w).1 hin)

theorem graph_eq_iff_same_sets_witness :
    Reachable test_eq_graph1 ∧ Reachable test_eq_graph2 ∧
    (graph.eq test_eq_graph1 test_eq_graph2 = true ↔
      (∀ v, is_node test_eq_graph1 v = is_node test_eq_graph2 v) ∧
      (∀ s d w, (⟨s, d, w⟩ : edge Nat Int) ∈ test_eq_graph1.edges_
        ↔ (⟨s, d, w⟩ : edge Nat Int) ∈ test_eq_graph2.edges_)) ∧
    ((∃ v, is_node test_eq_graph1 v ≠ is_node test_eq_graph2 v) →
      graph.eq test_eq_graph1 test_eq_graph2 = false) ∧
    ((∃ s d w, (⟨s, d, w⟩ : edge Nat Int) ∈ test_eq_graph1.edges_
        ∧ (⟨s, d, w⟩ : edge Nat Int) ∉ test_eq_graph2.edges_) →
      graph.eq test_eq_graph1 test_eq_graph2 = false) :=
  ⟨test_eq_graph1_reachable, test_eq_graph2_reachable,
    graph_eq_iff_same_sets test_eq_graph1 test_eq_graph2 test_eq_graph1_reachable
      test_eq_graph2_reachable⟩

end gdwg

/-! ## The contract: is_connected, find, insert_node and clear -/

namespace gdwg
section
variable {N E : Type} [LinearOrder N] [LinearOrder E]

theorem is_connected_ok (g : graph N E) (s d : N) (hs : stdset.Sorted node_cmp g.nodes_)
    (h1 : s ∈ g.nodes_) (h2 : d ∈ g.nodes_) :
    is_connected g s d
      = .ok (g.edges_.find? (fun e => decide (e.src = s) && decide (e.dest = d))).isSome := by
  unfold is_connected
  rw [find_node_eq s _ hs, find_node_eq d _ hs]
  simp [h1, h2]

theorem find_if_ends_iff (es : List (edge N E)) (s d : N) :
    (es.find? (fun e => decide (e.src = s) && decide (e.dest = d))).isSome = true
      ↔ ∃ w, (⟨s, d, w⟩ : edge N E) ∈ es := by
  rw [List.find?_isSome]
  simp only [Bool.and_eq_true, decide_eq_true_eq]
  constructor
  · rintro ⟨⟨a, b, c⟩, he, h1, h2⟩
    simp only at h1 h2
    subst h1 h2
    exact ⟨c, he⟩
  · rintro ⟨w, he⟩
    exact ⟨_, he, rfl, rfl⟩

theorem mem_weights_filter (es : List (edge N E)) (s d : N) (w : E) :
    w ∈ (es.filter (fun e => decide (e.src = s) && decide (e.dest = d))).map (fun e => e.weight)
      ↔ (⟨s, d, w⟩ : edge N E) ∈ es := by
  simp only [List.mem_map, List.mem_filter, Bool.and_eq_true, decide_eq_true_eq]
  constructor
  · rintro ⟨⟨a, b, c⟩, ⟨he, h1, h2⟩, h3⟩
    simp only at h1 h2 h3
    subst h1 h2 h3
    exact he
  · intro he
    exact ⟨_, ⟨he, rfl, rfl⟩, rfl⟩

theorem mem_connections_fold (es : List (edge N E)) (s d : N) :
    d ∈ es.foldl
        (fun conns e => if e.src = s then (stdset.emplace less e.dest conns).1 else conns) []
      ↔ ∃ w, (⟨s, d, w⟩ : edge N E) ∈ es := by
  rw [(connections_fold s es [] List.Pairwise.nil).2 d]
  simp only [List.not_mem_nil, false_or]
  constructor
  · rintro ⟨⟨a, b, c⟩, he, h1, h2⟩
    simp only at h1 h2
    subst h1 h2
    exact ⟨c, he⟩
  · rintro ⟨w, he⟩
    exact ⟨_, he, rfl, rfl⟩

theorem empty_iff (g : graph N E) : empty g = true ↔ g.nodes_ = [] := by
  unfold empty
  exact List.isEmpty_iff

end

/-- C21. On a reachable graph, `is_connected(src, dest)` throws exactly when
`src` or `dest` is not a node; otherwise it is true exactly when some edge
`(src, dest, w)` is stored, which is when `weights(src, dest)` is not empty and
when `dest` occurs in `connections(src)`; without such an edge it is false,
whatever edges lead from `dest` to `src`. -/
theorem is_connected_iff_edge {N E : Type} [LinearOrder N] [LinearOrder E]
    (g : graph N E) (h : Reachable g) (s d : N) :
    ((∃ ex, is_connected g s d = .error ex) ↔ (is_node g s = false ∨ is_node g d = false)) ∧
    ((is_node g s = false ∨ is_node g d = false) →
      is_connected g s d
        = .error (.runtime_error
            "Cannot call gdwg::graph<N, E>::is_connected if src or dst node don't exist in the graph")) ∧
    ((is_node g s = true ∧ is_node g d = true) →
      ∃ b ws cs, is_connected g s d = .ok b ∧ weights g s d = .ok ws ∧
        connections g s = .ok cs ∧
        (b = true ↔ ∃ w, (⟨s, d, w⟩ : edge N E) ∈ g.edges_) ∧
        (b = true ↔ ws ≠ []) ∧ (b = true ↔ d ∈ cs) ∧
        ((∀ w, (⟨s, d, w⟩ : edge N E) ∉ g.edges_) → b = false)) := by
  have hg := h.wf
  have herr : (is_node g s = false ∨ is_node g d = false) →
      is_connected g s d
        = .error (.runtime_error
            "Cannot call gdwg::graph<N, E>::is_connected if src or dst node don't exist in the graph") := by
    intro hor
    refine is_connected_error g _ _ hg.nodes_sorted ?_
    rcases hor with ho | hn
    · exact Or.inl ((is_node_eq_false_iff g hg.nodes_sorted _).1 ho)
    · exact Or.inr ((is_node_eq_false_iff g hg.nodes_sorted _).1 hn)
  have hok := fun hnd : is_node g s = true ∧ is_node g d = true =>
    is_connected_ok g s d hg.nodes_sorted
      ((is_node_iff g hg.nodes_sorted _).1 hnd.1) ((is_node_iff g hg.nodes_sorted _).1 hnd.2)
  refine ⟨⟨?_, fun hor => ⟨_, herr hor⟩⟩, herr, fun hnd => ?_⟩
  · rintro ⟨ex, hex⟩
    by_contra hcon
    rw [not_or, Bool.not_eq_false, Bool.not_eq_false] at hcon
    rw [hok hcon] at hex
    cases hex
  · have hs' := (is_node_iff g hg.nodes_sorted _).1 hnd.1
    have hd' := (is_node_iff g hg.nodes_sorted _).1 hnd.2
    have hb := find_if_ends_iff g.edges_ s d
    refine ⟨_, _, _, hok hnd, weights_ok g s d hg.nodes_sorted hs' hd',
      connections_ok g s hg.nodes_sorted hs', hb, ?_, ?_, fun hnone => ?_⟩
    · rw [hb, ne_eq, List.eq_nil_iff_forall_not_mem]
      simp only [mem_weights_filter, not_forall, not_not]
    · rw [hb, mem_connections_fold]
    · rw [Bool.eq_false_iff, Ne, hb]
      rintro ⟨w, hw⟩
      exact hnone w hw

theorem is_connected_iff_edge_witness :
    Reachable sample ∧ (is_node sample 1 = true ∧ is_node sample 2 = true) ∧
    ((∃ ex, is_connected sample 1 2 = .error ex)
      ↔ (is_node sample 1 = false ∨ is_node sample 2 = false)) ∧
    ∃ b ws cs, is_connected sample 1 2 = .ok b ∧ weights sample 1 2 = .ok ws ∧
        connections sample 1 = .ok cs ∧
        (b = true ↔ ∃ w, (⟨1, 2, w⟩ : edge Nat Nat) ∈ sample.edges_) ∧
        (b = true ↔ ws ≠ []) ∧ (b = true ↔ 2 ∈ cs) ∧
        ((∀ w, (⟨1, 2, w⟩ : edge Nat Nat) ∉ sample.edges_) → b = false) :=
  ⟨sample_reachable, ⟨by decide, by decide⟩,
    (is_connected_iff_edge sample sample_reachable 1 2).1,
    (is_connected_iff_edge sample sample_reachable 1 2).2.2 ⟨by decide, by decide⟩⟩

/-- C22. On a reachable graph, `find(src, dest, w)` (which cannot throw) is
`end()` exactly when the edge `(src, dest, w)` is not stored, in particular
when `src` or `dest` is not a node; otherwise dereferencing it gives the value
with `from = src`, `to = dest`, `weight = w`. -/
theorem find_exact_triple {N E : Type} [LinearOrder N] [LinearOrder E]
    (g : graph N E) (h : Reachable g) (s d : N) (w : E) :
    (iterator.eq (g.find s d w) g.end_ = true ↔ (⟨s, d, w⟩ : edge N E) ∉ g.edges_) ∧
    ((⟨s, d, w⟩ : edge N E) ∈ g.edges_ →
      (g.find s d w).deref = some (⟨s, d, w⟩ : value_type N E)) ∧
    ((is_node g s = false ∨ is_node g d = false) → iterator.eq (g.find s d w) g.end_ = true) := by
  have hg := h.wf
  have hfind := graph.find_as_ite g hg.edges_sorted s d w
  have hend : iterator.eq (g.find s d w) g.end_ = true ↔ (⟨s, d, w⟩ : edge N E) ∉ g.edges_ := by
    rw [hfind]
    by_cases hmem : (⟨s, d, w⟩ : edge N E) ∈ g.edges_ <;> simp [hmem, iterator.eq, graph.end_]
  refine ⟨hend, fun hmem => ?_, fun hor => hend.2 fun hmem => ?_⟩
  · rw [hfind]
    simp [hmem, iterator.deref, edge.value]
  · rcases hor with hs | hd
    · exact (is_node_eq_false_iff g hg.nodes_sorted _).1 hs (hg.src_mem _ hmem)
    · exact (is_node_eq_false_iff g hg.nodes_sorted _).1 hd (hg.dest_mem _ hmem)

theorem find_exact_triple_witness :
    Reachable sample ∧ (⟨2, 1, 7⟩ : edge Nat Nat) ∈ sample.edges_ ∧
    (iterator.eq (sample.find 2 1 7) sample.end_ = true
      ↔ (⟨2, 1, 7⟩ : edge Nat Nat) ∉ sample.edges_) ∧
    (sample.find 2 1 7).deref = some (⟨2, 1, 7⟩ : value_type Nat Nat) ∧
    ((is_node sample 2 = false ∨ is_node sample 1 = false) →
      iterator.eq (sample.find 2 1 7) sample.end_ = true) :=
  ⟨sample_reachable, by decide, (find_exact_triple sample sample_reachable 2 1 7).1,
    (find_exact_triple sample sample_reachable 2 1 7).2.1 (by decide),
    (find_exact_triple sample sample_reachable 2 1 7).2.2⟩

/-- C23. On a reachable graph, `insert_node(v)` returns true exactly when `v`
was not a node; afterwards the nodes are the former nodes and `v`, the edges
are unchanged, and when it returns false the graph is unchanged. -/
theorem insert_node_adds_once {N E : Type} [LinearOrder N] [LinearOrder E]
    (g : graph N E) (h : Reachable g) (v : N) :
    ((insert_node g v).1 = true ↔ is_node g v = false) ∧
    is_node (insert_node g v).2 v = true ∧
    (∀ u, is_node g u = true → is_node (insert_node g v).2 u = true) ∧
    (∀ u, is_node (insert_node g v).2 u = true ↔ u = v ∨ is_node g u = true) ∧
    (insert_node g v).2.edges_ = g.edges_ ∧
    ((insert_node g v).1 = false → (insert_node g v).2 = g) := by
  have hg := h.wf
  have hg' := hg.insert_node v
  have hmem : ∀ u, is_node (insert_node g v).2 u = true ↔ u = v ∨ is_node g u = true := by
    intro u
    rw [is_node_iff _ hg'.nodes_sorted, is_node_iff g hg.nodes_sorted]
    exact stdset.mem_emplace node_cmp_strictTotal v u g.nodes_
  have hsnd := stdset.emplace_snd node_cmp_strictTotal v g.nodes_ hg.nodes_sorted
  refine ⟨?_, (hmem v).2 (Or.inl rfl), fun u hu => (hmem u).2 (Or.inr hu), hmem, rfl,
    fun hb => ?_⟩
  · rw [is_node_eq_false_iff g hg.nodes_sorted]
    simp only [insert_node, hsnd, decide_eq_true_eq]
  · simp only [insert_node, hsnd, decide_eq_false_iff_not, not_not] at hb
    obtain ⟨ns, es⟩ := g
    simp only [insert_node,
      stdset.emplace_fst_of_mem node_cmp_strictTotal v ns hg.nodes_sorted hb]

theorem insert_node_adds_once_witness :
    Reachable sample ∧
    ((insert_node sample 7).1 = true ↔ is_node sample 7 = false) ∧
    is_node (insert_node sample 7).2 7 = true ∧
    (∀ u, is_node sample u = true → is_node (insert_node sample 7).2 u = true) ∧
    (∀ u, is_node (insert_node sample 7).2 u = true ↔ u = 7 ∨ is_node sample u = true) ∧
    (insert_node sample 7).2.edges_ = sample.edges_ ∧
    ((insert_node sample 7).1 = false → (insert_node sample 7).2 = sample) :=
  ⟨sample_reachable, insert_node_adds_once sample sample_reachable 7⟩

/-- C28. `clear()` (which cannot throw) on a reachable graph leaves no nodes and
no edges: `empty()` is true, `nodes()` is empty, `begin() == end()` and the
graph compares equal to a default-constructed one.  In any reachable graph
`empty()` is true exactly when no value is a node. -/
theorem clear_empties {N E : Type} [LinearOrder N] [LinearOrder E]
    (g : graph N E) (h : Reachable g) :
    empty (clear g) = true ∧ nodes (clear g) = [] ∧ (clear g).edges_ = [] ∧
    iterator.eq (clear g).begin (clear g).end_ = true ∧
    graph.eq (clear g) graph.empty = true ∧
    (empty g = true ↔ ∀ v, is_node g v = false) ∧ (empty g = true ↔ nodes g = []) := by
  have hg := h.wf
  refine ⟨rfl, rfl, rfl, rfl, rfl, ?_, ?_⟩
  · rw [empty_iff, List.eq_nil_iff_forall_not_mem]
    exact forall_congr' fun v => (is_node_eq_false_iff g hg.nodes_sorted v).symm
  · rw [empty_iff, nodes, List.map_id']

theorem clear_empties_witness :
    Reachable sample ∧
    empty (clear sample) = true ∧ nodes (clear sample) = [] ∧ (clear sample).edges_ = [] ∧
    iterator.eq (clear sample).begin (clear sample).end_ = true ∧
    graph.eq (clear sample) graph.empty = true ∧
    (empty sample = true ↔ ∀ v, is_node sample v = false) ∧
    (empty sample = true ↔ nodes sample = []) :=
  ⟨sample_reachable, clear_empties sample sample_reachable⟩

end gdwg

/-! ## Facts about construction from values, copying and building -/

namespace gdwg
section
variable {N E : Type} [LinearOrder N] [LinearOrder E]

theorem graph.WF.eq_of_same_members {g1 g2 : graph N E} (h1 : g1.WF) (h2 : g2.WF)
    (hn : ∀ v, v ∈ g1.nodes_ ↔ v ∈ g2.nodes_) (he : ∀ e, e ∈ g1.edges_ ↔ e ∈ g2.edges_) :
    g1 = g2 := by
  have hnodes := stdset.Sorted.ext node_cmp_strictTotal h1.nodes_sorted h2.nodes_sorted hn
  have hedges := stdset.Sorted.ext edge_cmp_strictTotal h1.edges_sorted h2.edges_sorted he
  cases g1; cases g2
  simp only at hnodes hedges
  rw [hnodes, hedges]

theorem insert_nodes_fold (xs : List N) (g : graph N E)
    (hs : stdset.Sorted node_cmp g.nodes_) :
    (xs.foldl (fun g n => (insert_node g n).2) g).edges_ = g.edges_ ∧
    stdset.Sorted node_cmp (xs.foldl (fun g n => (insert_node g n).2) g).nodes_ ∧
    ∀ v, v ∈ (xs.foldl (fun g n => (insert_node g n).2) g).nodes_ ↔ v ∈ g.nodes_ ∨ v ∈ xs := by
  induction xs generalizing g with
  | nil => simp [hs]
  | cons x rest ih =>
    rw [List.foldl_cons]
    have hs1 : stdset.Sorted node_cmp (insert_node g x).2.nodes_ :=
      stdset.sorted_emplace node_cmp_strictTotal x g.nodes_ hs
    obtain ⟨h1, h2, h3⟩ := ih (insert_node g x).2 hs1
    refine ⟨h1, h2, fun v => ?_⟩
    rw [h3]
    simp only [insert_node, stdset.mem_emplace node_cmp_strictTotal, List.mem_cons]
    tauto

theorem reachable_insert_nodes (xs : List N) (g : graph N E) (h : Reachable g) :
    Reachable (xs.foldl (fun g n => (insert_node g n).2) g) := by
  induction xs generalizing g with
  | nil => exact h
  | cons x rest ih => exact ih _ (Reachable.insert_node g x h)

theorem reachable_from_range (xs : List N) : Reachable (graph.from_range xs : graph N E) :=
  reachable_insert_nodes xs _ Reachable.default

theorem copy_edge_ok (e : edge N E) (g : graph N E) (hs : stdset.Sorted node_cmp g.nodes_)
    (h1 : e.src ∈ g.nodes_) (h2 : e.dest ∈ g.nodes_) :
    copy_edge e g = (.ok (), { g with edges_ := (stdset.emplace edge_cmp e g.edges_).1 }) := by
  unfold copy_edge
  rw [insert_edge_ok g e.src e.dest e.weight hs h1 h2]

theorem for_each_copy_edge (es : List (edge N E)) (ns : List N) (acc : List (edge N E))
    (hs : stdset.Sorted node_cmp ns) (hacc : stdset.Sorted edge_cmp acc)
    (hends : ∀ e ∈ es, e.src ∈ ns ∧ e.dest ∈ ns) :
    ∃ es', for_each es copy_edge (⟨ns, acc⟩ : graph N E) = (.ok (), ⟨ns, es'⟩) ∧
      stdset.Sorted edge_cmp es' ∧ ∀ x, x ∈ es' ↔ x ∈ acc ∨ x ∈ es := by
  induction es generalizing acc with
  | nil => exact ⟨acc, rfl, hacc, fun x => by simp⟩
  | cons e rest ih =>
    have he := hends e (List.mem_cons_self _ _)
    obtain ⟨es', h1, h2, h3⟩ := ih (stdset.emplace edge_cmp e acc).1
      (stdset.sorted_emplace edge_cmp_strictTotal e acc hacc)
      (fun x hx => hends x (List.mem_cons_of_mem _ hx))
    refine ⟨es', ?_, h2, fun x => ?_⟩
    · unfold for_each
      rw [copy_edge_ok e (⟨ns, acc⟩ : graph N E) hs he.1 he.2]
      exact h1
    · rw [h3, stdset.mem_emplace edge_cmp_strictTotal, List.mem_cons]
      tauto

theorem copy_onto_empty (g : graph N E) (hg : g.WF) :
    for_each g.edges_ copy_edge
        (g.nodes_.foldl (fun g n => (insert_node g n).2) (graph.empty : graph N E))
      = (.ok (), g) := by
  obtain ⟨h1, h2, h3⟩ := insert_nodes_fold g.nodes_ (graph.empty : graph N E) List.Pairwise.nil
  have hnodes : (g.nodes_.foldl (fun g n => (insert_node g n).2)
      (graph.empty : graph N E)).nodes_ = g.nodes_ :=
    stdset.Sorted.ext node_cmp_strictTotal h2 hg.nodes_sorted (fun v => by
      rw [h3]
      simp [graph.empty])
  have hstart : g.nodes_.foldl (fun g n => (insert_node g n).2) (graph.empty : graph N E)
      = ⟨g.nodes_, []⟩ := by
    cases hfold : g.nodes_.foldl (fun g n => (insert_node g n).2) (graph.empty : graph N E)
    rw [hfold] at hnodes h1
    simp only [graph.empty] at hnodes h1
    rw [hnodes, h1]
  rw [hstart]
  obtain ⟨es', h4, h5, h6⟩ := for_each_copy_edge g.edges_ g.nodes_ [] hg.nodes_sorted
    List.Pairwise.nil (fun e he => ⟨hg.src_mem e he, hg.dest_mem e he⟩)
  rw [h4]
  have hedges : es' = g.edges_ :=
    stdset.Sorted.ext edge_cmp_strictTotal h5 hg.edges_sorted (fun x => by
      rw [h6]
      simp)
  rw [hedges]

theorem reachable_build_from (cs : List (build_call N E)) (g : graph N E) (h : Reachable g) :
    Reachable (cs.foldl
      (fun g c =>
        match c with
        | .node v => (insert_node g v).2
        | .edge s d w => (insert_edge g s d w).2) g) := by
  induction cs generalizing g with
  | nil => exact h
  | cons c rest ih =>
    rw [List.foldl_cons]
    cases c with
    | node v => exact ih _ (Reachable.insert_node g v h)
    | edge s d w => exact ih _ (Reachable.insert_edge g s d w h)

theorem reachable_build (cs : List (build_call N E)) : Reachable (build cs) :=
  reachable_build_from cs _ Reachable.default

end
end gdwg

/-! ## The contract: construction from values, copying, insertion order -/

namespace gdwg

theorem test_copy_graph_reachable : Reachable test_copy_graph :=
  Reachable.insert_edge _ 1 1 4 (Reachable.insert_edge _ 1 4 2 (Reachable.insert_edge _ 3 1 8
    (Reachable.insert_edge _ 3 4 5 (reachable_from_range [3, 4, 1]))))

theorem test_from_range : nodes (graph.from_range [1, 3, 2] : graph Int Nat) = [1, 2, 3] := by
  decide

theorem test_from_range_repeated :
    nodes (graph.from_initializer_list [3, 1, 3, 2, 1] : graph Int Nat) = [1, 2, 3] := by
  decide

theorem test_copy_independent :
    is_node (insert_edge (insert_node test_copy_graph 2).2 4 1 9).2 2 = true ∧
    is_connected (insert_edge (insert_node test_copy_graph 2).2 4 1 9).2 4 1 = .ok true ∧
    is_node (graph.copy test_copy_graph).2 2 = false ∧
    is_connected (graph.copy test_copy_graph).2 4 1 = .ok false ∧
    is_connected (graph.copy test_copy_graph).2 1 4 = .ok true :=
  ⟨by decide, by rfl, by decide, by rfl, by rfl⟩

/-- C24. The graph constructed from a sequence of values (by the range
constructor, to which the initializer-list constructor delegates) has no
edges, has exactly the values of the sequence as nodes, lists them in
`nodes()` sorted ascending with duplicates collapsed, and is `empty()` exactly
when the sequence is empty. -/
theorem from_range_nodes {N : Type} (E : Type) [LinearOrder N] [LinearOrder E] (xs : List N) :
    (graph.from_range xs : graph N E).edges_ = [] ∧
    (∀ v, is_node (graph.from_range xs : graph N E) v = true ↔ v ∈ xs) ∧
    nodes (graph.from_range xs : graph N E) = (xs.dedup).insertionSort (fun a b => a ≤ b) ∧
    (empty (graph.from_range xs : graph N E) = true ↔ xs = []) ∧
    (graph.from_initializer_list xs : graph N E) = graph.from_range xs := by
  have hg := (reachable_from_range xs : Reachable (graph.from_range xs : graph N E)).wf
  obtain ⟨h1, h2, h3⟩ := insert_nodes_fold xs (graph.empty : graph N E) List.Pairwise.nil
  have hmem : ∀ v, v ∈ (graph.from_range xs : graph N E).nodes_ ↔ v ∈ xs := by
    intro v
    unfold graph.from_range
    rw [h3]
    simp [graph.empty]
  refine ⟨h1, fun v => ?_, ?_, ?_, rfl⟩
  · rw [is_node_iff _ hg.nodes_sorted, hmem]
  · rw [nodes, List.map_id']
    have hperm := List.perm_insertionSort (fun a b : N => a ≤ b) xs.dedup
    have hsorted : ((xs.dedup).insertionSort (fun a b => a ≤ b)).Sorted (fun a b => a < b) :=
      List.Sorted.lt_of_le (List.sorted_insertionSort (fun a b : N => a ≤ b) xs.dedup)
        (hperm.nodup_iff.2 (List.nodup_dedup xs))
    exact stdset.Sorted.ext node_cmp_strictTotal hg.nodes_sorted
      ((sorted_node_cmp_iff _).2 hsorted) (fun v => by
        rw [hmem, hperm.mem_iff, List.mem_dedup])
  · rw [empty_iff, List.eq_nil_iff_forall_not_mem, List.eq_nil_iff_forall_not_mem]
    exact forall_congr' fun v => not_congr (hmem v)

/-- C26. Two sequences of `insert_node` / `insert_edge` calls that build the
same nodes and the same edges give graphs that compare equal and have the same
`nodes()`, the same walk from `begin()` to `end()` and the same text dump. -/
theorem build_order_irrelevant {N E : Type} [LinearOrder N] [LinearOrder E]
    (calls1 calls2 : List (build_call N E))
    (hn : ∀ v, is_node (build calls1) v = is_node (build calls2) v)
    (he : ∀ s d w, (⟨s, d, w⟩ : edge N E) ∈ (build calls1).edges_
      ↔ (⟨s, d, w⟩ : edge N E) ∈ (build calls2).edges_) :
    graph.eq (build calls1) (build calls2) = true ∧
    nodes (build calls1) = nodes (build calls2) ∧
    (∀ fuel, walk (build calls1) fuel (build calls1).begin
      = walk (build calls2) fuel (build calls2).begin) ∧
    (∀ (put_N : N → String) (put_E : E → String),
      (build calls1).output put_N put_E = (build calls2).output put_N put_E) := by
  have h1 := (reachable_build calls1).wf
  have h2 := (reachable_build calls2).wf
  have heq : build calls1 = build calls2 :=
    graph.WF.eq_of_same_members h1 h2
      (fun v => by
        rw [← is_node_iff _ h1.nodes_sorted, ← is_node_iff _ h2.nodes_sorted, hn v])
      (fun ⟨s, d, w⟩ => he s d w)
  rw [heq]
  exact ⟨(graph.eq_true_iff_same _ _).2 rfl, rfl, fun _ => rfl, fun _ _ => rfl⟩

theorem build_order_irrelevant_witness :
    (∀ v, is_node (build test_build_calls1) v = is_node (build test_build_calls2) v) ∧
    (∀ s d w, (⟨s, d, w⟩ : edge Nat Int) ∈ (build test_build_calls1).edges_
      ↔ (⟨s, d, w⟩ : edge Nat Int) ∈ (build test_build_calls2).edges_) ∧
    graph.eq (build test_build_calls1) (build test_build_calls2) = true ∧
    nodes (build test_build_calls1) = nodes (build test_build_calls2) ∧
    (∀ fuel, walk (build test_build_calls1) fuel (build test_build_calls1).begin
      = walk (build test_build_calls2) fuel (build test_build_calls2).begin) ∧
    (∀ (put_N : Nat → String) (put_E : Int → String),
      (build test_build_calls1).output put_N put_E
        = (build test_build_calls2).output put_N put_E) :=
  ⟨fun v => by rw [show build test_build_calls1 = build test_build_calls2 from by decide],
    fun s d w => by rw [show build test_build_calls1 = build test_build_calls2 from by decide],
    build_order_irrelevant test_build_calls1 test_build_calls2
      (fun v => by rw [show build test_build_calls1 = build test_build_calls2 from by decide])
      (fun s d w => by
        rw [show build test_build_calls1 = build test_build_calls2 from by decide])⟩

end gdwg

/-! ## Facts about iterator positions -/

namespace gdwg
namespace stdset
variable {T : Type}

theorem next_getElem? [DecidableEq T] (l : List T) (hnd : l.Nodup) (k : Nat) :
    next l l[k]? = l[k + 1]? := by
  induction l generalizing k with
  | nil => simp [next]
  | cons y ys ih =>
    have hy := (List.nodup_cons.1 hnd).1
    have ih' := ih (List.nodup_cons.1 hnd).2
    cases k with
    | zero =>
      simp only [List.getElem?_cons_zero, List.getElem?_cons_succ, next, after, if_true]
      cases ys <;> simp
    | succ m =>
      simp only [List.getElem?_cons_succ]
      cases hx : ys[m]? with
      | none =>
        have hlen : ys.length ≤ m := List.getElem?_eq_none_iff.1 hx
        rw [List.getElem?_eq_none (by omega)]
        rfl
      | some x =>
        have hmem : x ∈ ys := List.mem_iff_getElem?.2 ⟨m, hx⟩
        have hne : y ≠ x := fun hyx => hy (hyx ▸ hmem)
        have := ih' m
        rw [hx] at this
        simp only [next, after, hne, if_false]
        exact this

theorem before_getElem? [DecidableEq T] (l : List T) (hnd : l.Nodup) (k : Nat) (x : T)
    (hx : l[k + 1]? = some x) : before x l = l[k]? := by
  induction l generalizing k with
  | nil => simp at hx
  | cons y ys ih =>
    cases ys with
    | nil => simp at hx
    | cons z rest =>
      have hnd' := (List.nodup_cons.1 hnd).2
      have hz := (List.nodup_cons.1 hnd').1
      cases k with
      | zero =>
        simp only [List.getElem?_cons_succ, List.getElem?_cons_zero, Option.some.injEq] at hx
        simp [before, hx]
      | succ m =>
        simp only [List.getElem?_cons_succ] at hx
        have hmem : x ∈ rest := List.mem_iff_getElem?.2 ⟨m, hx⟩
        have hne : z ≠ x := fun hzx => hz (hzx ▸ hmem)
        have := ih hnd' m (by simpa using hx)
        simp only [before, hne, if_false, List.getElem?_cons_succ]
        simpa using this

theorem prev_getElem? [DecidableEq T] (l : List T) (hnd : l.Nodup) (k : Nat)
    (hk : k < l.length) : prev l l[k + 1]? = l[k]? := by
  cases hx : l[k + 1]? with
  | none =>
    have hlen : l.length ≤ k + 1 := List.getElem?_eq_none_iff.1 hx
    have hkl : l.length - 1 = k := by omega
    simp only [prev, List.getLast?_eq_getElem?, hkl]
  | some x => exact before_getElem? l hnd k x hx

theorem getElem?_inj_of_nodup (l : List T) (hnd : l.Nodup) (i j : Nat) (hi : i ≤ l.length)
    (hj : j ≤ l.length) (h : l[i]? = l[j]?) : i = j := by
  cases hx : l[i]? with
  | none =>
    rw [hx] at h
    have h1 := List.getElem?_eq_none_iff.1 hx
    have h2 := List.getElem?_eq_none_iff.1 h.symm
    omega
  | some x =>
    rw [hx] at h
    obtain ⟨hi', h1⟩ := List.getElem?_eq_some_iff.1 hx
    obtain ⟨hj', h2⟩ := List.getElem?_eq_some_iff.1 h.symm
    exact (hnd.getElem_inj_iff).1 (h1.trans h2.symm)

end stdset

section
variable {N E : Type} [LinearOrder N] [LinearOrder E]

theorem advance_from_at (g : graph N E) (hnd : g.edges_.Nodup) (k i : Nat) :
    advance g k ⟨g.edges_[i]?⟩ = ⟨g.edges_[i + k]?⟩ := by
  induction k generalizing i with
  | zero => rfl
  | succ m ih =>
    simp only [advance, iterator.incr, stdset.next_getElem? g.edges_ hnd i]
    rw [ih (i + 1)]
    congr 2
    omega

theorem advance_from_begin (g : graph N E) (hnd : g.edges_.Nodup) (k : Nat) :
    advance g k g.begin = ⟨g.edges_[k]?⟩ := by
  have h0 : g.begin = ⟨g.edges_[0]?⟩ := by
    unfold graph.begin
    cases g.edges_ <;> simp
  rw [h0, advance_from_at g hnd k 0]
  simp

end
end gdwg

/-! ## The contract: iterator positions -/

namespace gdwg

theorem test_iterator_graph_reachable : Reachable test_iterator_graph :=
  Reachable.insert_edge _ 1 3 3 (Reachable.insert_edge _ 2 3 2 (Reachable.insert_edge _ 2 1 1
    (reachable_from_range [2, 1, 3])))

theorem test_iterator_decrement :
    (iterator.decr test_iterator_graph test_iterator_graph.end_).deref
      = some (⟨2, 3, 2⟩ : value_type Nat Int) ∧
    (iterator.decr test_iterator_graph
        (iterator.decr test_iterator_graph test_iterator_graph.end_)).deref
      = some (⟨2, 1, 1⟩ : value_type Nat Int) := by
  decide

theorem test_iterator_comparison :
    iterator.eq test_iterator_graph.begin (test_iterator_graph.find 1 3 3) = true ∧
    iterator.eq (advance test_iterator_graph 1 test_iterator_graph.begin)
      (test_iterator_graph.find 2 1 1) = true ∧
    iterator.eq (advance test_iterator_graph 2 test_iterator_graph.begin)
      (test_iterator_graph.find 2 3 2) = true ∧
    iterator.eq (advance test_iterator_graph 3 test_iterator_graph.begin)
      test_iterator_graph.end_ = true ∧
    iterator.eq (test_iterator_graph.find 2 1 1) (test_iterator_graph.find 2 3 2) = false := by
  decide

/-- C27. In a reachable graph with `n` edges the iterators obtained from
`begin()` by `i` and by `j` increments (both at most `n`) are equal exactly
when `i = j`; `n` increments give `end()`, so that `begin() == end()` exactly
when there is no edge; `--` undoes `++` at every position but `end()`, `++`
undoes `--` at every position but `begin()`; and an iterator that can be
dereferenced equals `find` of the triple it gives. -/
theorem iterator_positions {N E : Type} [LinearOrder N] [LinearOrder E]
    (g : graph N E) (h : Reachable g) :
    (∀ i j, i ≤ g.edges_.length → j ≤ g.edges_.length →
      (iterator.eq (advance g i g.begin) (advance g j g.begin) = true ↔ i = j)) ∧
    iterator.eq (advance g g.edges_.length g.begin) g.end_ = true ∧
    (iterator.eq g.begin g.end_ = true ↔ g.edges_ = []) ∧
    (∀ k, k < g.edges_.length →
      iterator.eq (iterator.decr g (iterator.incr g (advance g k g.begin)))
        (advance g k g.begin) = true) ∧
    (∀ k, 0 < k → k ≤ g.edges_.length →
      iterator.eq (iterator.incr g (iterator.decr g (advance g k g.begin)))
        (advance g k g.begin) = true) ∧
    (∀ k v, (advance g k g.begin).deref = some v →
      iterator.eq (advance g k g.begin) (g.find v.from_ v.to_ v.weight) = true) := by
  have hg := h.wf
  have hnd := stdset.Sorted.nodup edge_cmp_strictTotal hg.edges_sorted
  have hadv := advance_from_begin g hnd
  have heq : ∀ a b : iterator N E, iterator.eq a b = true ↔ a.itor_ = b.itor_ := by
    intro a b
    simp [iterator.eq]
  refine ⟨fun i j hi hj => ?_, ?_, ?_, fun k hk => ?_, fun k hk0 hk => ?_, fun k v hv => ?_⟩
  · rw [heq, hadv, hadv]
    exact ⟨fun hij => stdset.getElem?_inj_of_nodup g.edges_ hnd i j hi hj hij,
      fun hij => by rw [hij]⟩
  · rw [heq, hadv]
    simp [graph.end_]
  · rw [heq]
    simp [graph.begin, graph.end_]
  · rw [heq, hadv]
    simp only [iterator.incr, iterator.decr, stdset.next_getElem? g.edges_ hnd k,
      stdset.prev_getElem? g.edges_ hnd k hk]
  · obtain ⟨m, rfl⟩ : ∃ m, k = m + 1 := ⟨k - 1, by omega⟩
    rw [heq, hadv]
    simp only [iterator.incr, iterator.decr, stdset.prev_getElem? g.edges_ hnd m (by omega),
      stdset.next_getElem? g.edges_ hnd m]
  · rw [hadv] at hv ⊢
    simp only [iterator.deref, Option.map_eq_some'] at hv
    obtain ⟨e, he, rfl⟩ := hv
    have hmem : e ∈ g.edges_ := List.mem_iff_getElem?.2 ⟨k, he⟩
    have := graph.find_of_mem g hg.edges_sorted e hmem
    simp only [edge.value]
    rw [this, heq, he]

theorem iterator_positions_witness :
    Reachable test_iterator_graph ∧
    (∀ i j, i ≤ test_iterator_graph.edges_.length → j ≤ test_iterator_graph.edges_.length →
      (iterator.eq (advance test_iterator_graph i test_iterator_graph.begin)
        (advance test_iterator_graph j test_iterator_graph.begin) = true ↔ i = j)) ∧
    iterator.eq (advance test_iterator_graph test_iterator_graph.edges_.length
      test_iterator_graph.begin) test_iterator_graph.end_ = true ∧
    (iterator.eq test_iterator_graph.begin test_iterator_graph.end_ = true
      ↔ test_iterator_graph.edges_ = []) ∧
    (∀ k, k < test_iterator_graph.edges_.length →
      iterator.eq (iterator.decr test_iterator_graph (iterator.incr test_iterator_graph
          (advance test_iterator_graph k test_iterator_graph.begin)))
        (advance test_iterator_graph k test_iterator_graph.begin) = true) ∧
    (∀ k, 0 < k → k ≤ test_iterator_graph.edges_.length →
      iterator.eq (iterator.incr test_iterator_graph (iterator.decr test_iterator_graph
          (advance test_iterator_graph k test_iterator_graph.begin)))
        (advance test_iterator_graph k test_iterator_graph.begin) = true) ∧
    (∀ k v, (advance test_iterator_graph k test_iterator_graph.begin).deref = some v →
      iterator.eq (advance test_iterator_graph k test_iterator_graph.begin)
        (test_iterator_graph.find v.from_ v.to_ v.weight) = true) :=
  ⟨test_iterator_graph_reachable, iterator_positions test_iterator_graph
    test_iterator_graph_reachable⟩

end gdwg

/-! ## Facts about the rounds of the loops of the compound modifiers -/

namespace gdwg
section
variable {N E : Type} [LinearOrder N] [LinearOrder E]

theorem subst_inj (old_data new_data a b : N) (ha : a ≠ new_data) (hb : b ≠ new_data)
    (h : subst old_data new_data a = subst old_data new_data b) : a = b := by
  unfold subst at h
  split_ifs at h with h1 h2 h2
  · rw [h1, h2]
  · exact absurd h.symm hb
  · exact absurd h ha
  · exact h

theorem edge.subst_injective_on (old_data new_data : N) (e1 e2 : edge N E)
    (h1 : e1.src ≠ new_data ∧ e1.dest ≠ new_data) (h2 : e2.src ≠ new_data ∧ e2.dest ≠ new_data)
    (h : e1.subst old_data new_data = e2.subst old_data new_data) : e1 = e2 := by
  cases e1; cases e2
  simp only [edge.subst, edge.mk.injEq] at h ⊢
  simp only at h1 h2
  exact ⟨gdwg.subst_inj _ _ _ _ h1.1 h2.1 h.1, gdwg.subst_inj _ _ _ _ h1.2 h2.2 h.2.1, h.2.2⟩

theorem edge.subst_has_new (old_data new_data : N) (e : edge N E)
    (h : e.src = old_data ∨ e.dest = old_data) :
    (e.subst old_data new_data).src = new_data ∨ (e.subst old_data new_data).dest = new_data := by
  rcases h with h | h
  · exact Or.inl (by simp [edge.subst, gdwg.subst, h])
  · exact Or.inr (by simp [edge.subst, gdwg.subst, h])

theorem incident_edges_nodup (g : graph N E) (hnd : g.edges_.Nodup) (node : N) :
    (incident_edges g node).Nodup := by
  unfold incident_edges
  refine List.Nodup.map ?_ (List.Nodup.filter _ hnd)
  intro a b hab
  cases a; cases b
  simpa [edge.value] using hab

theorem split_incident (g : graph N E) (hnd : g.edges_.Nodup) (node : N)
    (pre post : List (value_type N E)) (v : value_type N E)
    (hsplit : incident_edges g node = pre ++ v :: post) :
    v ∉ pre ∧ v.edge ∈ g.edges_ ∧ (v.from_ = node ∨ v.to_ = node) ∧
    ∀ u ∈ pre, u.edge ∈ g.edges_ ∧ (u.from_ = node ∨ u.to_ = node) := by
  have hn := incident_edges_nodup g hnd node
  rw [hsplit] at hn
  have hv : v ∈ incident_edges g node := by
    rw [hsplit]
    exact List.mem_append.2 (Or.inr (List.mem_cons_self _ _))
  refine ⟨fun hmem => (List.disjoint_of_nodup_append hn) hmem (List.mem_cons_self _ _),
    ((mem_incident_edges g node v).1 hv).1, ((mem_incident_edges g node v).1 hv).2,
    fun u hu => (mem_incident_edges g node u).1 ?_⟩
  rw [hsplit]
  exact List.mem_append.2 (Or.inl hu)

theorem rename_prefix_state
    (body : value_type N E → graph N E → Except exception Unit × graph N E)
    (old_data new_data : N) (ns : List N) (es : List (edge N E))
    (hbody : ∀ (v : value_type N E) (g : graph N E),
      stdset.Sorted node_cmp g.nodes_ → stdset.Sorted edge_cmp g.edges_ →
      v.from_ ∈ g.nodes_ → v.to_ ∈ g.nodes_ → new_data ∈ g.nodes_ →
      body v g = (.ok (), { g with edges_ := rename_edge old_data new_data g.edges_ v }))
    (hs : stdset.Sorted node_cmp ns) (he : stdset.Sorted edge_cmp es) (hnew : new_data ∈ ns)
    (pre : List (value_type N E)) (hpre : ∀ u ∈ pre, u.from_ ∈ ns ∧ u.to_ ∈ ns) :
    for_each pre body (⟨ns, es⟩ : graph N E)
      = (.ok (), ⟨ns, pre.foldl (rename_edge old_data new_data) es⟩) :=
  for_each_edges body (rename_edge old_data new_data) (sorted_rename_edge old_data new_data)
    ns pre
    (fun g' u h1 h2 h3 =>
      hbody u g' (h1 ▸ hs) h2 (h1 ▸ (hpre u h3).1) (h1 ▸ (hpre u h3).2) (h1 ▸ hnew))
    ⟨ns, es⟩ rfl he

theorem drop_prefix_state (ns : List N) (es : List (edge N E))
    (hs : stdset.Sorted node_cmp ns) (he : stdset.Sorted edge_cmp es)
    (pre : List (value_type N E)) (hpre : ∀ u ∈ pre, u.from_ ∈ ns ∧ u.to_ ∈ ns) :
    for_each pre erase_node_body (⟨ns, es⟩ : graph N E)
      = (.ok (), ⟨ns, pre.foldl drop_edge es⟩) :=
  for_each_edges erase_node_body drop_edge sorted_drop_edge ns pre
    (fun g' u h1 h2 h3 =>
      erase_node_body_eq u g' (h1 ▸ hs) h2 (h1 ▸ (hpre u h3).1) (h1 ▸ (hpre u h3).2))
    ⟨ns, es⟩ rfl he

theorem mem_rename_prefix (old_data new_data : N) (hne : old_data ≠ new_data)
    (es : List (edge N E)) (he : stdset.Sorted edge_cmp es)
    (pre : List (value_type N E)) (v : value_type N E) (hv : v ∉ pre) (hmem : v.edge ∈ es)
    (hpre : ∀ u ∈ pre, u.from_ = old_data ∨ u.to_ = old_data) :
    v.edge ∈ pre.foldl (rename_edge old_data new_data) es :=
  (mem_foldl_rename_edge old_data new_data hne pre es he hpre v.edge).2 (Or.inl ⟨hmem, hv⟩)

theorem not_mem_rename_prefix (old_data new_data : N) (hne : old_data ≠ new_data)
    (es : List (edge N E)) (he : stdset.Sorted edge_cmp es)
    (hfresh : ∀ e ∈ es, e.src ≠ new_data ∧ e.dest ≠ new_data)
    (pre : List (value_type N E)) (v : value_type N E) (hv : v ∉ pre) (hmem : v.edge ∈ es)
    (hinc : v.from_ = old_data ∨ v.to_ = old_data)
    (hpre : ∀ u ∈ pre, u.edge ∈ es ∧ (u.from_ = old_data ∨ u.to_ = old_data)) :
    v.edge.subst old_data new_data ∉ pre.foldl (rename_edge old_data new_data) es := by
  rw [mem_foldl_rename_edge old_data new_data hne pre es he (fun u hu => (hpre u hu).2)]
  rintro (⟨h1, _⟩ | ⟨u, hu, h2⟩)
  · rcases edge.subst_has_new old_data new_data v.edge hinc with h3 | h3
    · exact (hfresh _ h1).1 h3
    · exact (hfresh _ h1).2 h3
  · have := edge.subst_injective_on old_data new_data v.edge u.edge (hfresh _ hmem)
      (hfresh _ (hpre u hu).1) h2
    have hvu : v = u := by
      cases v; cases u
      simpa [value_type.edge] using this
    exact hv (hvu ▸ hu)

theorem mem_drop_prefix (es : List (edge N E)) (he : stdset.Sorted edge_cmp es)
    (pre : List (value_type N E)) (v : value_type N E) (hv : v ∉ pre) (hmem : v.edge ∈ es) :
    v.edge ∈ pre.foldl drop_edge es :=
  (mem_foldl_drop_edge pre es he v.edge).2 ⟨hmem, hv⟩

end
end gdwg

namespace gdwg
section
variable {N E : Type} [LinearOrder N] [LinearOrder E]

theorem replace_round (g : graph N E) (hg : g.WF) (old_data new_data : N)
    (ho : old_data ∈ g.nodes_) (hn : new_data ∉ g.nodes_)
    (pre post : List (value_type N E)) (v : value_type N E)
    (hsplit : incident_edges g old_data = pre ++ v :: post) :
    ∃ gk g' g'',
      for_each pre (replace_node_body old_data new_data)
        (⟨(stdset.emplace node_cmp new_data g.nodes_).1, g.edges_⟩ : graph N E) = (.ok (), gk) ∧
      is_node gk old_data = true ∧ is_node gk new_data = true ∧
      is_node gk (subst old_data new_data v.from_) = true ∧
      is_node gk (subst old_data new_data v.to_) = true ∧
      insert_edge gk (subst old_data new_data v.from_) (subst old_data new_data v.to_) v.weight
        = (.ok true, g') ∧
      is_node g' v.from_ = true ∧ is_node g' v.to_ = true ∧
      erase_edge g' v.from_ v.to_ v.weight = (.ok true, g'') := by
  have hne : old_data ≠ new_data := fun heq => hn (heq ▸ ho)
  have hnd := stdset.Sorted.nodup edge_cmp_strictTotal hg.edges_sorted
  obtain ⟨hv, hmem, hinc, hpre⟩ := split_incident g hnd old_data pre post v hsplit
  have hs1 := stdset.sorted_emplace node_cmp_strictTotal new_data g.nodes_ hg.nodes_sorted
  have hmem1 : ∀ u, u ∈ g.nodes_ → u ∈ (stdset.emplace node_cmp new_data g.nodes_).1 :=
    fun u hu => (stdset.mem_emplace node_cmp_strictTotal _ _ _).2 (Or.inr hu)
  have hnew1 : new_data ∈ (stdset.emplace node_cmp new_data g.nodes_).1 :=
    (stdset.mem_emplace node_cmp_strictTotal _ _ _).2 (Or.inl rfl)
  have hfresh : ∀ e ∈ g.edges_, e.src ≠ new_data ∧ e.dest ≠ new_data := fun e he =>
    ⟨fun h => hn (h ▸ hg.src_mem e he), fun h => hn (h ▸ hg.dest_mem e he)⟩
  have hf : v.from_ ∈ (stdset.emplace node_cmp new_data g.nodes_).1 :=
    hmem1 _ (hg.src_mem _ hmem)
  have ht : v.to_ ∈ (stdset.emplace node_cmp new_data g.nodes_).1 :=
    hmem1 _ (hg.dest_mem _ hmem)
  have hsf := subst_mem old_data new_data v.from_ _ hnew1 hf
  have hst := subst_mem old_data new_data v.to_ _ hnew1 ht
  have hek := sorted_foldl (rename_edge old_data new_data)
    (sorted_rename_edge old_data new_data) pre g.edges_ hg.edges_sorted
  have hstate := rename_prefix_state (replace_node_body old_data new_data) old_data new_data
    (stdset.emplace node_cmp new_data g.nodes_).1 g.edges_
    (fun u g' h1 h2 h3 h4 h5 => replace_node_body_eq old_data new_data u g' h1 h2 h3 h4 h5)
    hs1 hg.edges_sorted hnew1 pre
    (fun u hu => ⟨hmem1 _ (hg.src_mem _ (hpre u hu).1), hmem1 _ (hg.dest_mem _ (hpre u hu).1)⟩)
  have hnot := not_mem_rename_prefix old_data new_data hne g.edges_ hg.edges_sorted hfresh
    pre v hv hmem hinc hpre
  have hin := mem_rename_prefix old_data new_data hne g.edges_ hg.edges_sorted pre v hv hmem
    (fun u hu => (hpre u hu).2)
  have hinsert := insert_edge_ok
    (⟨(stdset.emplace node_cmp new_data g.nodes_).1,
      pre.foldl (rename_edge old_data new_data) g.edges_⟩ : graph N E)
    (subst old_data new_data v.from_) (subst old_data new_data v.to_) v.weight hs1 hsf hst
  have hsnd : (stdset.emplace edge_cmp (v.edge.subst old_data new_data)
      (pre.foldl (rename_edge old_data new_data) g.edges_)).2 = true := by
    rw [stdset.emplace_snd edge_cmp_strictTotal _ _ hek]
    exact decide_eq_true hnot
  have hin' : v.edge ∈ (stdset.emplace edge_cmp (v.edge.subst old_data new_data)
      (pre.foldl (rename_edge old_data new_data) g.edges_)).1 :=
    (stdset.mem_emplace edge_cmp_strictTotal _ _ _).2 (Or.inr hin)
  have herase := erase_edge_ok
    (⟨(stdset.emplace node_cmp new_data g.nodes_).1,
      (stdset.emplace edge_cmp (v.edge.subst old_data new_data)
        (pre.foldl (rename_edge old_data new_data) g.edges_)).1⟩ : graph N E)
    v.from_ v.to_ v.weight hs1 (stdset.sorted_emplace edge_cmp_strictTotal _ _ hek) hf ht
  simp only [edge.subst, value_type.edge] at hsnd hin' hinsert herase
  simp only [hsnd] at hinsert
  simp only [decide_eq_true hin'] at herase
  exact ⟨_, _, _, hstate, (is_node_iff _ hs1 _).2 (hmem1 _ ho), (is_node_iff _ hs1 _).2 hnew1,
    (is_node_iff _ hs1 _).2 hsf, (is_node_iff _ hs1 _).2 hst, hinsert,
    (is_node_iff (⟨_, _⟩ : graph N E) hs1 _).2 hf, (is_node_iff (⟨_, _⟩ : graph N E) hs1 _).2 ht,
    herase⟩

theorem merge_round (g : graph N E) (hg : g.WF) (old_data new_data : N)
    (ho : old_data ∈ g.nodes_) (hn : new_data ∈ g.nodes_) (hne : old_data ≠ new_data)
    (pre post : List (value_type N E)) (v : value_type N E)
    (hsplit : incident_edges g old_data = pre ++ v :: post) :
    ∃ gk b g' g1 g2,
      for_each pre (merge_replace_node_body old_data new_data) g = (.ok (), gk) ∧
      is_node gk old_data = true ∧ is_node gk new_data = true ∧
      is_node gk (subst old_data new_data v.from_) = true ∧
      is_node gk (subst old_data new_data v.to_) = true ∧
      insert_edge gk (subst old_data new_data v.from_) (subst old_data new_data v.to_) v.weight
        = (.ok b, g') ∧
      is_node g' v.from_ = true ∧ is_node g' v.to_ = true ∧
      erase_edge gk v.from_ v.to_ v.weight = (.ok true, g1) ∧
      erase_edge g' v.from_ v.to_ v.weight = (.ok true, g2) := by
  have hnd := stdset.Sorted.nodup edge_cmp_strictTotal hg.edges_sorted
  obtain ⟨hv, hmem, hinc, hpre⟩ := split_incident g hnd old_data pre post v hsplit
  obtain ⟨ns, es⟩ := g
  have hs := hg.nodes_sorted
  have hes := hg.edges_sorted
  simp only at ho hn hmem hpre hs hes
  have hf : v.from_ ∈ ns := hg.src_mem _ hmem
  have ht : v.to_ ∈ ns := hg.dest_mem _ hmem
  have hsf := subst_mem old_data new_data v.from_ _ hn hf
  have hst := subst_mem old_data new_data v.to_ _ hn ht
  have hek := sorted_foldl (rename_edge old_data new_data)
    (sorted_rename_edge old_data new_data) pre es hes
  have hstate := rename_prefix_state (merge_replace_node_body old_data new_data) old_data
    new_data ns es
    (fun u g' h1 h2 h3 h4 h5 => merge_replace_node_body_eq old_data new_data u g' h1 h2 h3 h4 h5)
    hs hes hn pre
    (fun u hu => ⟨hg.src_mem _ (hpre u hu).1, hg.dest_mem _ (hpre u hu).1⟩)
  have hin := mem_rename_prefix old_data new_data hne es hes pre v hv hmem
    (fun u hu => (hpre u hu).2)
  have hinsert := insert_edge_ok
    (⟨ns, pre.foldl (rename_edge old_data new_data) es⟩ : graph N E)
    (subst old_data new_data v.from_) (subst old_data new_data v.to_) v.weight hs hsf hst
  have hin' : v.edge ∈ (stdset.emplace edge_cmp (v.edge.subst old_data new_data)
      (pre.foldl (rename_edge old_data new_data) es)).1 :=
    (stdset.mem_emplace edge_cmp_strictTotal _ _ _).2 (Or.inr hin)
  have herase1 := erase_edge_ok
    (⟨ns, pre.foldl (rename_edge old_data new_data) es⟩ : graph N E)
    v.from_ v.to_ v.weight hs hek hf ht
  have herase2 := erase_edge_ok
    (⟨ns, (stdset.emplace edge_cmp (v.edge.subst old_data new_data)
        (pre.foldl (rename_edge old_data new_data) es)).1⟩ : graph N E)
    v.from_ v.to_ v.weight hs (stdset.sorted_emplace edge_cmp_strictTotal _ _ hek) hf ht
  simp only [edge.subst, value_type.edge] at hin hin' hinsert herase1 herase2
  simp only [decide_eq_true hin] at herase1
  simp only [decide_eq_true hin'] at herase2
  exact ⟨_, _, _, _, _, hstate, (is_node_iff (⟨_, _⟩ : graph N E) hs _).2 ho,
    (is_node_iff (⟨_, _⟩ : graph N E) hs _).2 hn, (is_node_iff (⟨_, _⟩ : graph N E) hs _).2 hsf,
    (is_node_iff (⟨_, _⟩ : graph N E) hs _).2 hst, hinsert,
    (is_node_iff (⟨_, _⟩ : graph N E) hs _).2 hf, (is_node_iff (⟨_, _⟩ : graph N E) hs _).2 ht,
    herase1, herase2⟩

theorem erase_round (g : graph N E) (hg : g.WF) (node : N) (ho : node ∈ g.nodes_)
    (pre post : List (value_type N E)) (v : value_type N E)
    (hsplit : incident_edges g node = pre ++ v :: post) :
    ∃ gk g',
      for_each pre erase_node_body g = (.ok (), gk) ∧
      is_node gk node = true ∧ is_node gk v.from_ = true ∧ is_node gk v.to_ = true ∧
      erase_edge gk v.from_ v.to_ v.weight = (.ok true, g') := by
  have hnd := stdset.Sorted.nodup edge_cmp_strictTotal hg.edges_sorted
  obtain ⟨hv, hmem, hinc, hpre⟩ := split_incident g hnd node pre post v hsplit
  obtain ⟨ns, es⟩ := g
  have hs := hg.nodes_sorted
  have hes := hg.edges_sorted
  simp only at ho hmem hpre hs hes
  have hf : v.from_ ∈ ns := hg.src_mem _ hmem
  have ht : v.to_ ∈ ns := hg.dest_mem _ hmem
  have hek := sorted_foldl drop_edge sorted_drop_edge pre es hes
  have hstate := drop_prefix_state ns es hs hes pre
    (fun u hu => ⟨hg.src_mem _ (hpre u hu).1, hg.dest_mem _ (hpre u hu).1⟩)
  have hin := mem_drop_prefix es hes pre v hv hmem
  have herase := erase_edge_ok (⟨ns, pre.foldl drop_edge es⟩ : graph N E)
    v.from_ v.to_ v.weight hs hek hf ht
  simp only [value_type.edge] at hin herase
  simp only [decide_eq_true hin] at herase
  exact ⟨_, _, hstate, (is_node_iff (⟨_, _⟩ : graph N E) hs _).2 ho,
    (is_node_iff (⟨_, _⟩ : graph N E) hs _).2 hf, (is_node_iff (⟨_, _⟩ : graph N E) hs _).2 ht,
    herase⟩

end
end gdwg

/-! ## The contract: the rounds of the compound modifiers -/

namespace gdwg

/-- C29. In `replace_node(old, new)` on a reachable graph with `old` a node and
`new` not a node, distinct edges have distinct substituted triples and the
substituted triple of an edge at `old` is never an edge away from `old`; so
each `insert_edge` call of the loop, in the state in which it is made, returns
true, and the number of edges after the call is the number before. -/
theorem replace_node_no_collision {N E : Type} [LinearOrder N] [LinearOrder E]
    (g : graph N E) (h : Reachable g) (old_data new_data : N)
    (ho : is_node g old_data = true) (hn : is_node g new_data = false) :
    (∀ e1 ∈ g.edges_, ∀ e2 ∈ g.edges_, e1 ≠ e2 →
      e1.subst old_data new_data ≠ e2.subst old_data new_data) ∧
    (∀ e1 ∈ g.edges_, ∀ e2 ∈ g.edges_, (e1.src = old_data ∨ e1.dest = old_data) →
      (e2.src ≠ old_data ∧ e2.dest ≠ old_data) → e1.subst old_data new_data ≠ e2) ∧
    (∀ pre v post, incident_edges g old_data = pre ++ v :: post →
      ∃ gk g',
        for_each pre (replace_node_body old_data new_data)
          (⟨(stdset.emplace node_cmp new_data g.nodes_).1, g.edges_⟩ : graph N E)
          = (.ok (), gk) ∧
        insert_edge gk (subst old_data new_data v.from_) (subst old_data new_data v.to_)
          v.weight = (.ok true, g')) ∧
    (replace_node g old_data new_data).2.edges_.length = g.edges_.length := by
  have hg := h.wf
  have ho' := (is_node_iff g hg.nodes_sorted _).1 ho
  have hn' := (is_node_eq_false_iff g hg.nodes_sorted _).1 hn
  have hne : old_data ≠ new_data := fun heq => hn' (heq ▸ ho')
  have hfresh : ∀ e ∈ g.edges_, e.src ≠ new_data ∧ e.dest ≠ new_data := fun e he =>
    ⟨fun h => hn' (h ▸ hg.src_mem e he), fun h => hn' (h ▸ hg.dest_mem e he)⟩
  have hinj : ∀ e1 ∈ g.edges_, ∀ e2 ∈ g.edges_,
      e1.subst old_data new_data = e2.subst old_data new_data → e1 = e2 :=
    fun e1 h1 e2 h2 => edge.subst_injective_on old_data new_data e1 e2 (hfresh e1 h1)
      (hfresh e2 h2)
  refine ⟨fun e1 h1 e2 h2 hne12 heq => hne12 (hinj e1 h1 e2 h2 heq), ?_, ?_, ?_⟩
  · intro e1 _ e2 h2 hinc _ heq
    rcases edge.subst_has_new old_data new_data e1 hinc with h3 | h3
    · exact (hfresh e2 h2).1 (heq ▸ h3)
    · exact (hfresh e2 h2).2 (heq ▸ h3)
  · intro pre v post hsplit
    obtain ⟨gk, g', _, h1, _, _, _, _, h2, _⟩ :=
      replace_round g hg old_data new_data ho' hn' pre post v hsplit
    exact ⟨gk, g', h1, h2⟩
  · have hg' := hg.replace_node old_data new_data
    rw [replace_node_true g _ _ hg ho' hn'] at hg' ⊢
    have hperm : ((incident_edges g old_data).foldl (rename_edge old_data new_data)
        g.edges_).Perm (g.edges_.map (edge.subst old_data new_data)) := by
      refine (List.perm_ext_iff_of_nodup
        (stdset.Sorted.nodup edge_cmp_strictTotal hg'.edges_sorted)
        (List.Nodup.map_on hinj
          (stdset.Sorted.nodup edge_cmp_strictTotal hg.edges_sorted))).2 (fun x => ?_)
      rw [mem_renamed_edges old_data new_data hne g.nodes_ g.edges_ hg.edges_sorted,
        List.mem_map]
      exact ⟨fun ⟨e, he, hx⟩ => ⟨e, he, hx.symm⟩, fun ⟨e, he, hx⟩ => ⟨e, he, hx.symm⟩⟩
    simpa using hperm.length_eq

theorem replace_node_no_collision_witness :
    Reachable sample ∧ is_node sample 1 = true ∧ is_node sample 4 = false ∧
    ((∀ e1 ∈ sample.edges_, ∀ e2 ∈ sample.edges_, e1 ≠ e2 → e1.subst 1 4 ≠ e2.subst 1 4) ∧
    (∀ e1 ∈ sample.edges_, ∀ e2 ∈ sample.edges_, (e1.src = 1 ∨ e1.dest = 1) →
      (e2.src ≠ 1 ∧ e2.dest ≠ 1) → e1.subst 1 4 ≠ e2) ∧
    (∀ pre v post, incident_edges sample 1 = pre ++ v :: post →
      ∃ gk g',
        for_each pre (replace_node_body 1 4)
          (⟨(stdset.emplace node_cmp 4 sample.nodes_).1, sample.edges_⟩ : graph Nat Nat)
          = (.ok (), gk) ∧
        insert_edge gk (subst 1 4 v.from_) (subst 1 4 v.to_) v.weight = (.ok true, g')) ∧
    (replace_node sample 1 4).2.edges_.length = sample.edges_.length) :=
  ⟨sample_reachable, by decide, by decide,
    replace_node_no_collision sample sample_reachable 1 4 (by decide) (by decide)⟩

/-- C30. The nested calls of the compound modifiers never fail.  On a reachable
graph, once the initial check has passed, take any round of the second loop of
`replace_node`, `merge_replace_node` or `erase_node`: the rounds before it
ended normally, and in the state then reached the old and the new node and both
ends of the edges handled are nodes, the `insert_edge` call returns normally
and the `erase_edge` call returns true (in `merge_replace_node` whether or not
the insertion was made before it). -/
theorem nested_calls_never_fail {N E : Type} [LinearOrder N] [LinearOrder E]
    (g : graph N E) (h : Reachable g) :
    (∀ old_data new_data, is_node g old_data = true → is_node g new_data = false →
      ∀ pre v post, incident_edges g old_data = pre ++ v :: post →
      ∃ gk g' g'',
        for_each pre (replace_node_body old_data new_data)
          (⟨(stdset.emplace node_cmp new_data g.nodes_).1, g.edges_⟩ : graph N E)
          = (.ok (), gk) ∧
        is_node gk old_data = true ∧ is_node gk new_data = true ∧
        is_node gk (subst old_data new_data v.from_) = true ∧
        is_node gk (subst old_data new_data v.to_) = true ∧
        insert_edge gk (subst old_data new_data v.from_) (subst old_data new_data v.to_)
          v.weight = (.ok true, g') ∧
        is_node g' v.from_ = true ∧ is_node g' v.to_ = true ∧
        erase_edge g' v.from_ v.to_ v.weight = (.ok true, g'')) ∧
    (∀ old_data new_data, is_node g old_data = true → is_node g new_data = true →
      old_data ≠ new_data →
      ∀ pre v post, incident_edges g old_data = pre ++ v :: post →
      ∃ gk b g' g1 g2,
        for_each pre (merge_replace_node_body old_data new_data) g = (.ok (), gk) ∧
        is_node gk old_data = true ∧ is_node gk new_data = true ∧
        is_node gk (subst old_data new_data v.from_) = true ∧
        is_node gk (subst old_data new_data v.to_) = true ∧
        insert_edge gk (subst old_data new_data v.from_) (subst old_data new_data v.to_)
          v.weight = (.ok b, g') ∧
        is_node g' v.from_ = true ∧ is_node g' v.to_ = true ∧
        erase_edge gk v.from_ v.to_ v.weight = (.ok true, g1) ∧
        erase_edge g' v.from_ v.to_ v.weight = (.ok true, g2)) ∧
    (∀ node, is_node g node = true →
      ∀ pre v post, incident_edges g node = pre ++ v :: post →
      ∃ gk g',
        for_each pre erase_node_body g = (.ok (), gk) ∧
        is_node gk node = true ∧ is_node gk v.from_ = true ∧ is_node gk v.to_ = true ∧
        erase_edge gk v.from_ v.to_ v.weight = (.ok true, g')) := by
  have hg := h.wf
  refine ⟨fun old_data new_data ho hn pre v post hsplit => ?_,
    fun old_data new_data ho hn hne pre v post hsplit => ?_,
    fun node ho pre v post hsplit => ?_⟩
  · exact replace_round g hg old_data new_data ((is_node_iff g hg.nodes_sorted _).1 ho)
      ((is_node_eq_false_iff g hg.nodes_sorted _).1 hn) pre post v hsplit
  · exact merge_round g hg old_data new_data ((is_node_iff g hg.nodes_sorted _).1 ho)
      ((is_node_iff g hg.nodes_sorted _).1 hn) hne pre post v hsplit
  · exact erase_round g hg node ((is_node_iff g hg.nodes_sorted _).1 ho) pre post v hsplit

theorem nested_calls_never_fail_witness :
    Reachable sample ∧ is_node sample 2 = true ∧ is_node sample 1 = true ∧ (2 : Nat) ≠ 1 ∧
    incident_edges sample 2
      = [(⟨1, 2, 5⟩ : value_type Nat Nat)] ++ ⟨2, 1, 5⟩ :: [⟨2, 1, 7⟩] ∧
    (∃ gk b g' g1 g2,
        for_each [(⟨1, 2, 5⟩ : value_type Nat Nat)] (merge_replace_node_body 2 1) sample
          = (.ok (), gk) ∧
        is_node gk 2 = true ∧ is_node gk 1 = true ∧
        is_node gk (subst 2 1 2) = true ∧ is_node gk (subst 2 1 1) = true ∧
        insert_edge gk (subst 2 1 2) (subst 2 1 1) 5 = (.ok b, g') ∧
        is_node g' 2 = true ∧ is_node g' 1 = true ∧
        erase_edge gk 2 1 5 = (.ok true, g1) ∧
        erase_edge g' 2 1 5 = (.ok true, g2)) ∧
    (∃ gk g',
        for_each [(⟨1, 2, 5⟩ : value_type Nat Nat)] erase_node_body sample = (.ok (), gk) ∧
        is_node gk 2 = true ∧ is_node gk 2 = true ∧ is_node gk 1 = true ∧
        erase_edge gk 2 1 5 = (.ok true, g')) :=
  ⟨sample_reachable, by decide, by decide, by decide, by decide,
    (nested_calls_never_fail sample sample_reachable).2.1 2 1 (by decide) (by decide)
      (by decide) [⟨1, 2, 5⟩] ⟨2, 1, 5⟩ [⟨2, 1, 7⟩] (by decide),
    (nested_calls_never_fail sample sample_reachable).2.2 2 (by decide)
      [⟨1, 2, 5⟩] ⟨2, 1, 5⟩ [⟨2, 1, 7⟩] (by decide)⟩

end gdwg

/-! ## Facts about renaming onto a fresh node and renaming back -/

namespace gdwg

section

variable {N E : Type} [LinearOrder N] [LinearOrder E]

theorem subst_back (a b v : N) (hv : v ≠ b) : subst b a (subst a b v) = v := by
  unfold subst
  by_cases h : v = a
  · simp [h]
  · simp [h, hv]

theorem edge.subst_subst_back (a b : N) (e : edge N E) (h1 : e.src ≠ b) (h2 : e.dest ≠ b) :
    (e.subst a b).subst b a = e := by
  cases e
  simp only [edge.subst, edge.mk.injEq] at *
  exact ⟨gdwg.subst_back a b _ h1, gdwg.subst_back a b _ h2, trivial⟩

theorem merge_onto_inserted (g : graph N E) (old_data new_data : N) (hg : g.WF)
    (ho : old_data ∈ g.nodes_) (hn : new_data ∉ g.nodes_) :
    insert_node g new_data
      = (true, ⟨(stdset.emplace node_cmp new_data g.nodes_).1, g.edges_⟩) ∧
    merge_replace_node (insert_node g new_data).2 old_data new_data
      = (.ok (), (replace_node g old_data new_data).2) := by
  have hne : old_data ≠ new_data := fun heq => hn (heq ▸ ho)
  have hg1 := hg.insert_node new_data
  have hmem := stdset.mem_emplace node_cmp_strictTotal new_data
  have hsnd := stdset.emplace_snd node_cmp_strictTotal new_data g.nodes_ hg.nodes_sorted
  refine ⟨?_, ?_⟩
  · simp only [insert_node, hsnd, hn, not_false_eq_true, decide_True]
  · rw [merge_replace_node_ok _ old_data new_data hg1 ((hmem _ _).2 (Or.inr ho))
      ((hmem _ _).2 (Or.inl rfl)) hne, replace_node_true g _ _ hg ho hn]
    rfl

theorem replace_node_back (g : graph N E) (a b : N) (hg : g.WF)
    (ha : a ∈ g.nodes_) (hb : b ∉ g.nodes_) :
    replace_node (replace_node g a b).2 b a = (.ok true, g) := by
  have hne : a ≠ b := fun heq => hb (heq ▸ ha)
  have hg1 := hg.replace_node a b
  have hg2 := hg1.replace_node b a
  have hs0 := stdset.sorted_emplace node_cmp_strictTotal b g.nodes_ hg.nodes_sorted
  have hnodes1 : ∀ v, v ∈ (replace_node g a b).2.nodes_ ↔ v ≠ a ∧ (v = b ∨ v ∈ g.nodes_) := by
    intro v
    rw [replace_node_true g _ _ hg ha hb]
    simp only
    rw [stdset.mem_erase node_cmp_strictTotal _ _ _ hs0, stdset.mem_emplace node_cmp_strictTotal]
  have hedges1 : ∀ x, x ∈ (replace_node g a b).2.edges_ ↔ ∃ e ∈ g.edges_, x = e.subst a b := by
    intro x
    rw [replace_node_true g _ _ hg ha hb]
    exact mem_renamed_edges a b hne g.nodes_ g.edges_ hg.edges_sorted x
  have hb1 : b ∈ (replace_node g a b).2.nodes_ := (hnodes1 b).2 ⟨fun h => hne h.symm, Or.inl rfl⟩
  have ha1 : a ∉ (replace_node g a b).2.nodes_ := fun h => ((hnodes1 a).1 h).1 rfl
  have hrun := replace_node_true (replace_node g a b).2 b a hg1 hb1 ha1
  rw [hrun] at hg2
  rw [hrun]
  refine congrArg (Prod.mk (Except.ok true)) (graph.WF.eq_of_same_members hg2 hg (fun v => ?_)
    (fun x => ?_))
  · simp only
    rw [stdset.mem_erase node_cmp_strictTotal _ _ _
        (stdset.sorted_emplace node_cmp_strictTotal a _ hg1.nodes_sorted),
      stdset.mem_emplace node_cmp_strictTotal, hnodes1]
    constructor
    · rintro ⟨h1, h2 | ⟨_, h3 | h3⟩⟩
      · exact h2 ▸ ha
      · exact absurd h3 h1
      · exact h3
    · intro hv
      refine ⟨fun h => hb (h ▸ hv), ?_⟩
      by_cases hva : v = a
      · exact Or.inl hva
      · exact Or.inr ⟨hva, Or.inr hv⟩
  · simp only
    rw [mem_renamed_edges b a (fun h => hne h.symm) _ _ hg1.edges_sorted]
    constructor
    · rintro ⟨e1, he1, rfl⟩
      obtain ⟨e, he, rfl⟩ := (hedges1 e1).1 he1
      rw [edge.subst_subst_back a b e (fun h => hb (h ▸ hg.src_mem e he))
        (fun h => hb (h ▸ hg.dest_mem e he))]
      exact he
    · intro hx
      exact ⟨x.subst a b, (hedges1 _).2 ⟨x, hx, rfl⟩,
        (edge.subst_subst_back a b x (fun h => hb (h ▸ hg.src_mem x hx))
          (fun h => hb (h ▸ hg.dest_mem x hx))).symm⟩

end

end gdwg

/-! ## The contract: renaming onto a fresh node and renaming back -/

namespace gdwg

theorem sample_rename_as_merge :
    replace_node sample 1 4
      = (.ok true, ⟨[2, 3, 4], [⟨2, 4, 5⟩, ⟨2, 4, 7⟩, ⟨4, 2, 5⟩, ⟨4, 4, 3⟩]⟩) ∧
    insert_then_merge sample 1 4
      = (true, .ok (), ⟨[2, 3, 4], [⟨2, 4, 5⟩, ⟨2, 4, 7⟩, ⟨4, 2, 5⟩, ⟨4, 4, 3⟩]⟩) :=
  ⟨by rfl, by rfl⟩

theorem sample_rename_round_trip :
    replace_node (replace_node sample 1 4).2 4 1 = (.ok true, sample) := by
  rfl

/-- C31. On a reachable graph with `old` a node and `new` not a node,
`replace_node(old, new)` returns true, and in the sequence `insert_node(new)`,
`merge_replace_node(old, new)` the first call returns true and the second
returns normally; both ways end in the same graph: the two results compare
equal and have the same nodes and the same edges. -/
theorem replace_node_is_merge_onto_fresh {N E : Type} [LinearOrder N] [LinearOrder E]
    (g : graph N E) (h : Reachable g) (old_data new_data : N)
    (ho : is_node g old_data = true) (hn : is_node g new_data = false) :
    ∃ g1 g2, replace_node g old_data new_data = (.ok true, g1) ∧
      insert_then_merge g old_data new_data = (true, .ok (), g2) ∧
      graph.eq g1 g2 = true ∧ nodes g1 = nodes g2 ∧ g1.edges_ = g2.edges_ ∧
      (∀ v, is_node g1 v = is_node g2 v) ∧ (∀ e, e ∈ g1.edges_ ↔ e ∈ g2.edges_) ∧
      g1 = g2 := by
  have hg := h.wf
  have ho' := (is_node_iff g hg.nodes_sorted _).1 ho
  have hn' := (is_node_eq_false_iff g hg.nodes_sorted _).1 hn
  obtain ⟨hins, hmerge⟩ := merge_onto_inserted g old_data new_data hg ho' hn'
  refine ⟨(replace_node g old_data new_data).2, _, ?_, ?_,
    (graph.eq_true_iff_same _ _).2 rfl, rfl, rfl, fun _ => rfl, fun _ => Iff.rfl, rfl⟩
  · rw [replace_node_true g _ _ hg ho' hn']
  · rw [hins] at hmerge
    simp only [insert_then_merge, hins, hmerge]

theorem replace_node_is_merge_onto_fresh_witness :
    Reachable sample ∧ is_node sample 1 = true ∧ is_node sample 4 = false ∧
    ∃ g1 g2, replace_node sample 1 4 = (.ok true, g1) ∧
      insert_then_merge sample 1 4 = (true, .ok (), g2) ∧
      graph.eq g1 g2 = true ∧ nodes g1 = nodes g2 ∧ g1.edges_ = g2.edges_ ∧
      (∀ v, is_node g1 v = is_node g2 v) ∧ (∀ e, e ∈ g1.edges_ ↔ e ∈ g2.edges_) ∧
      g1 = g2 :=
  ⟨sample_reachable, by decide, by decide,
    replace_node_is_merge_onto_fresh sample sample_reachable 1 4 (by decide) (by decide)⟩

/-- C32. On a reachable graph with `a` a node and `b` not a node,
`replace_node(a, b)` returns true and `replace_node(b, a)` on the result
returns true and gives back the graph there was: it compares equal to it and
has its `nodes()`, its edges and its text dump. -/
theorem replace_node_round_trip {N E : Type} [LinearOrder N] [LinearOrder E]
    (g : graph N E) (h : Reachable g) (a b : N)
    (ha : is_node g a = true) (hb : is_node g b = false) :
    ∃ g1 g2, replace_node g a b = (.ok true, g1) ∧ replace_node g1 b a = (.ok true, g2) ∧
      graph.eq g2 g = true ∧ nodes g2 = nodes g ∧ g2.edges_ = g.edges_ ∧
      (∀ e, e ∈ g2.edges_ ↔ e ∈ g.edges_) ∧
      (∀ (put_N : N → String) (put_E : E → String),
        g2.output put_N put_E = g.output put_N put_E) ∧
      g2 = g := by
  have hg := h.wf
  have ha' := (is_node_iff g hg.nodes_sorted _).1 ha
  have hb' := (is_node_eq_false_iff g hg.nodes_sorted _).1 hb
  refine ⟨(replace_node g a b).2, g, ?_, replace_node_back g a b hg ha' hb',
    (graph.eq_true_iff_same _ _).2 rfl, rfl, rfl, fun _ => Iff.rfl, fun _ _ => rfl, rfl⟩
  rw [replace_node_true g _ _ hg ha' hb']

theorem replace_node_round_trip_witness :
    Reachable sample ∧ is_node sample 2 = true ∧ is_node sample 0 = false ∧
    ∃ g1 g2, replace_node sample 2 0 = (.ok true, g1) ∧ replace_node g1 0 2 = (.ok true, g2) ∧
      graph.eq g2 sample = true ∧ nodes g2 = nodes sample ∧ g2.edges_ = sample.edges_ ∧
      (∀ e, e ∈ g2.edges_ ↔ e ∈ sample.edges_) ∧
      (∀ (put_N : Nat → String) (put_E : Nat → String),
        g2.output put_N put_E = sample.output put_N put_E) ∧
      g2 = sample :=
  ⟨sample_reachable, by decide, by decide,
    replace_node_round_trip sample sample_reachable 2 0 (by decide) (by decide)⟩

end gdwg

namespace gdwg

/-! ## Facts about the store -/

section
variable {N : Type}

theorem store.deref_make_unique (s : store N) (p q : Nat) (v : N) :
    (s.make_unique p v).deref q = if q = p then some v else s.deref q := by
  unfold store.deref store.make_unique
  rw [List.lookup_cons]
  by_cases h : q = p
  · simp [h]
  · have : (q == p) = false := by simpa using h
    simp [h, this]

theorem store.deref_free (s : store N) (p q : Nat) :
    (s.free p).deref q = if q = p then none else s.deref q := by
  obtain ⟨l⟩ := s
  unfold store.deref store.free
  simp only
  induction l with
  | nil => simp
  | cons c cs ih =>
    obtain ⟨a, v⟩ := c
    by_cases hap : a = p
    · subst hap
      by_cases hq : q = a
      · subst hq
        simpa using ih
      · simp only [List.filter_cons, beq_self_eq_true, Bool.not_true, Bool.false_eq_true,
          if_false, ih, hq, List.lookup_cons]
        have : (q == a) = false := by simpa using hq
        simp [this]
    · by_cases hq : q = p
      · subst hq
        have h1 : (a == q) = false := by simpa using hap
        have h2 : (q == a) = false := by simpa using fun h => hap h.symm
        simp only [List.filter_cons, h1, Bool.not_false, if_true, List.lookup_cons, h2, ih]
      · have h1 : (a == p) = false := by simpa using hap
        simp only [List.filter_cons, h1, Bool.not_false, if_true, List.lookup_cons, ih, hq,
          if_false]

theorem store.deref_foldl_free (l : List Nat) (s : store N) (q : Nat) :
    (l.foldl store.free s).deref q = if q ∈ l then none else s.deref q := by
  induction l generalizing s with
  | nil => simp
  | cons p ps ih =>
    rw [List.foldl_cons, ih, store.deref_free]
    by_cases h1 : q ∈ ps
    · simp [h1]
    · by_cases h2 : q = p
      · simp [h2]
      · simp [h1, h2]

theorem store.lt_bump_of_deref (s : store N) (q : Nat) (h : s.deref q ≠ none) : q < s.bump := by
  obtain ⟨l⟩ := s
  unfold store.deref at h
  unfold store.bump
  simp only at h ⊢
  induction l with
  | nil => simp at h
  | cons c cs ih =>
    obtain ⟨a, v⟩ := c
    rw [List.lookup_cons] at h
    rw [List.foldr_cons]
    by_cases hq : q = a
    · subst hq
      exact lt_of_lt_of_le (Nat.lt_succ_self _) (le_max_left _ _)
    · have : (q == a) = false := by simpa using hq
      simp only [this] at h
      exact lt_of_lt_of_le (ih h) (le_max_right _ _)

theorem store.bump_fresh (s : store N) : s.deref s.bump = none := by
  by_contra h
  exact lt_irrefl _ (store.lt_bump_of_deref s _ h)

end

end gdwg

namespace gdwg

/-! ## Facts about what a call does to the boxes of other objects -/

namespace stdset
variable {T K : Type}

theorem mem_of_mem_emplace (cmp : T → T → Bool) (x y : T) (l : List T)
    (h : y ∈ (emplace cmp x l).1) : y = x ∨ y ∈ l := by
  induction l with
  | nil => simpa [emplace] using h
  | cons z zs ih =>
    unfold emplace at h
    split_ifs at h
    · simpa using h
    · rcases List.mem_cons.1 h with h | h
      · exact Or.inr (h ▸ List.mem_cons_self _ _)
      · rcases ih h with h | h
        · exact Or.inl h
        · exact Or.inr (List.mem_cons_of_mem _ h)
    · exact Or.inr h

theorem mem_emplace_of_mem (cmp : T → T → Bool) (x y : T) (l : List T) (h : y ∈ l) :
    y ∈ (emplace cmp x l).1 := by
  induction l with
  | nil => simp at h
  | cons z zs ih =>
    unfold emplace
    split_ifs
    · exact List.mem_cons_of_mem _ h
    · rcases List.mem_cons.1 h with h | h
      · exact h ▸ List.mem_cons_self _ _
      · exact List.mem_cons_of_mem _ (ih h)
    · exact h

theorem mem_of_find (cek : T → K → Bool) (cke : K → T → Bool) (k : K) (l : List T) (x : T)
    (h : find cek cke k l = some x) : x ∈ l := by
  induction l with
  | nil => simp [find] at h
  | cons z zs ih =>
    unfold find at h
    split_ifs at h
    · exact List.mem_cons_of_mem _ (ih h)
    · simp only [Option.some.injEq] at h
      exact h ▸ List.mem_cons_self _ _

end stdset

namespace boxed

section
variable {N E : Type} [LinearOrder N] [LinearOrder E]

theorem Frame.refl (st : store N × graph E) : Frame st st :=
  ⟨fun _ _ _ => rfl, fun _ hp => Or.inl hp⟩

theorem Frame.trans {st1 st2 st3 : store N × graph E} (h12 : Frame st1 st2)
    (h23 : Frame st2 st3) : Frame st1 st3 := by
  refine ⟨fun p hp hd => ?_, fun p hp => ?_⟩
  · have h1 := h12.1 p hp hd
    have hp2 : p ∉ st2.2.nodes_ := fun hmem => by
      rcases h12.2 p hmem with h | h
      · exact hp h
      · exact hd h
    rw [h23.1 p hp2 (h1 ▸ hd), h1]
  · rcases h23.2 p hp with h | h
    · exact h12.2 p h
    · by_cases hp1 : p ∈ st1.2.nodes_
      · exact Or.inl hp1
      · by_cases hd : st1.1.deref p = none
        · exact Or.inr hd
        · exact absurd ((h12.1 p hp1 hd).symm.trans h) hd

theorem Frame.of_same {st st' : store N × graph E} (h1 : st'.1 = st.1)
    (h2 : st'.2.nodes_ = st.2.nodes_) : Frame st st' := by
  refine ⟨fun p _ _ => by rw [h1], fun p hp => Or.inl (h2 ▸ hp)⟩

theorem emplace_node_frame (alloc : store N → Nat) (halloc : ∀ s : store N, s.deref (alloc s) = none)
    (st : store N × graph E) (value : N) : Frame st (emplace_node alloc st value).2 := by
  refine ⟨fun p _ hd => ?_, fun p hp => ?_⟩
  · have hne : p ≠ alloc st.1 := fun h => hd (h ▸ halloc st.1)
    simp only [emplace_node]
    split_ifs
    · rw [store.deref_make_unique, if_neg hne]
    · rw [store.deref_free, if_neg hne, store.deref_make_unique, if_neg hne]
  · simp only [emplace_node] at hp
    rcases stdset.mem_of_mem_emplace _ _ _ _ hp with h | h
    · exact Or.inr (h ▸ halloc st.1)
    · exact Or.inl h

theorem erase_node_at_frame (st : store N × graph E) (p : Nat) (hp : p ∈ st.2.nodes_) :
    Frame st (erase_node_at st p) := by
  refine ⟨fun q hq _ => ?_, fun q hq => ?_⟩
  · have hne : q ≠ p := fun h => hq (h ▸ hp)
    simp only [erase_node_at, store.deref_free, if_neg hne]
  · exact Or.inl (List.mem_of_mem_erase hq)

theorem insert_edge_same (st : store N × graph E) (src dest : N) (weight : E) :
    (insert_edge st src dest weight).2.1 = st.1 ∧
    (insert_edge st src dest weight).2.2.nodes_ = st.2.nodes_ := by
  unfold insert_edge
  split <;> exact ⟨rfl, rfl⟩

theorem erase_edge_same (st : store N × graph E) (src dest : N) (weight : E) :
    (erase_edge st src dest weight).2.1 = st.1 ∧
    (erase_edge st src dest weight).2.2.nodes_ = st.2.nodes_ := by
  unfold erase_edge
  split
  · split <;> exact ⟨rfl, rfl⟩
  · exact ⟨rfl, rfl⟩

theorem replace_node_body_same (old_data new_data : N) (e : value_type N E)
    (st : store N × graph E) :
    (replace_node_body old_data new_data e st).2.1 = st.1 ∧
    (replace_node_body old_data new_data e st).2.2.nodes_ = st.2.nodes_ := by
  unfold replace_node_body
  simp only
  have h1 := insert_edge_same st (if e.from_ = old_data then new_data else e.from_)
    (if e.to_ = old_data then new_data else e.to_) e.weight
  split
  · rename_i ex st1 heq
    rw [heq] at h1
    exact h1
  · rename_i b st1 heq
    rw [heq] at h1
    have h2 := erase_edge_same st1 e.from_ e.to_ e.weight
    split
    · rename_i ex st2 heq2
      rw [heq2] at h2
      exact ⟨h2.1.trans h1.1, h2.2.trans h1.2⟩
    · rename_i b2 st2 heq2
      rw [heq2] at h2
      exact ⟨h2.1.trans h1.1, h2.2.trans h1.2⟩

end

end boxed

end gdwg

namespace gdwg

namespace boxed

section
variable {N E : Type} [LinearOrder N] [LinearOrder E]

theorem merge_replace_node_body_same (old_data new_data : N) (e : value_type N E)
    (st : store N × graph E) :
    (merge_replace_node_body old_data new_data e st).2.1 = st.1 ∧
    (merge_replace_node_body old_data new_data e st).2.2.nodes_ = st.2.nodes_ := by
  unfold merge_replace_node_body
  simp only
  have h1 := insert_edge_same st (if e.from_ = old_data then new_data else e.from_)
    (if e.to_ = old_data then new_data else e.to_) e.weight
  have key : ∀ r : Except exception Unit × store N × graph E,
      (r.2.1 = st.1 ∧ r.2.2.nodes_ = st.2.nodes_) →
      ((match r with
        | (.error ex, st1) => (Except.error ex, st1)
        | (.ok _, st1) =>
          match erase_edge st1 e.from_ e.to_ e.weight with
          | (.error ex, st2) => (Except.error ex, st2)
          | (.ok _, st2) => (Except.ok (), st2)) :
        Except exception Unit × store N × graph E).2.1 = st.1 ∧
      ((match r with
        | (.error ex, st1) => (Except.error ex, st1)
        | (.ok _, st1) =>
          match erase_edge st1 e.from_ e.to_ e.weight with
          | (.error ex, st2) => (Except.error ex, st2)
          | (.ok _, st2) => (Except.ok (), st2)) :
        Except exception Unit × store N × graph E).2.2.nodes_ = st.2.nodes_ := by
    rintro ⟨r, st1⟩ hr
    cases r with
    | error ex => exact hr
    | ok u =>
      simp only
      have h2 := erase_edge_same st1 e.from_ e.to_ e.weight
      split
      · rename_i ex st2 heq2
        rw [heq2] at h2
        exact ⟨h2.1.trans hr.1, h2.2.trans hr.2⟩
      · rename_i b2 st2 heq2
        rw [heq2] at h2
        exact ⟨h2.1.trans hr.1, h2.2.trans hr.2⟩
  apply key
  split
  · split
    · rename_i ex st1 heq
      rw [heq] at h1
      exact h1
    · rename_i b st1 heq
      rw [heq] at h1
      exact h1
  · exact ⟨rfl, rfl⟩

theorem erase_node_body_same (e : value_type N E) (st : store N × graph E) :
    (erase_node_body e st).2.1 = st.1 ∧ (erase_node_body e st).2.2.nodes_ = st.2.nodes_ := by
  unfold erase_node_body
  have h2 := erase_edge_same st e.from_ e.to_ e.weight
  split
  · rename_i ex st2 heq2
    rw [heq2] at h2
    exact h2
  · rename_i b2 st2 heq2
    rw [heq2] at h2
    exact h2

theorem for_each_same {α : Type} (f : α → store N × graph E → Except exception Unit × store N × graph E)
    (hf : ∀ x st, (f x st).2.1 = st.1 ∧ (f x st).2.2.nodes_ = st.2.nodes_)
    (xs : List α) (st : store N × graph E) :
    (for_each xs f st).2.1 = st.1 ∧ (for_each xs f st).2.2.nodes_ = st.2.nodes_ := by
  induction xs generalizing st with
  | nil => exact ⟨rfl, rfl⟩
  | cons x rest ih =>
    unfold for_each
    have hx := hf x st
    split
    · rename_i u st1 heq
      rw [heq] at hx
      have := ih st1
      exact ⟨this.1.trans hx.1, this.2.trans hx.2⟩
    · rename_i ex st1 heq
      rw [heq] at hx
      exact hx

variable (alloc : store N → Nat)

theorem replace_node_frame (halloc : ∀ s : store N, s.deref (alloc s) = none)
    (st : store N × graph E) (old_data new_data : N) :
    Frame st (replace_node alloc st old_data new_data).2 := by
  unfold replace_node
  split
  · exact Frame.refl _
  · rename_i old_node hfind
    have hold := stdset.mem_of_find _ _ _ _ _ hfind
    split_ifs
    · exact Frame.refl _
    · simp only
      have h1 := emplace_node_frame alloc halloc st new_data
      have hl := for_each_same (replace_node_body old_data new_data)
        (replace_node_body_same old_data new_data)
        (incident_edges (emplace_node alloc st new_data).2 old_node)
        (emplace_node alloc st new_data).2
      have hold1 : old_node ∈ (emplace_node alloc st new_data).2.2.nodes_ := by
        simp only [emplace_node]
        exact stdset.mem_emplace_of_mem _ _ _ _ hold
      split
      · rename_i ex st2 heq
        rw [heq] at hl
        exact h1.trans (Frame.of_same hl.1 hl.2)
      · rename_i u st2 heq
        rw [heq] at hl
        exact (h1.trans (Frame.of_same hl.1 hl.2)).trans
          (erase_node_at_frame st2 old_node (hl.2 ▸ hold1))

theorem merge_replace_node_frame (st : store N × graph E) (old_data new_data : N) :
    Frame st (merge_replace_node st old_data new_data).2 := by
  unfold merge_replace_node
  split
  · rename_i old_node new_node hfind _
    have hold := stdset.mem_of_find _ _ _ _ _ hfind
    split_ifs
    · exact Frame.refl _
    · have hl := for_each_same (merge_replace_node_body old_data new_data)
        (merge_replace_node_body_same old_data new_data) (incident_edges st old_node) st
      split
      · rename_i ex st2 heq
        rw [heq] at hl
        exact Frame.of_same hl.1 hl.2
      · rename_i u st2 heq
        rw [heq] at hl
        exact (Frame.of_same hl.1 hl.2).trans (erase_node_at_frame st2 old_node (hl.2 ▸ hold))
  · exact Frame.refl _

theorem erase_node_frame (st : store N × graph E) (value : N) :
    Frame st (erase_node st value).2 := by
  unfold erase_node
  split
  · exact Frame.refl _
  · rename_i node hfind
    have hold := stdset.mem_of_find _ _ _ _ _ hfind
    have hl := for_each_same erase_node_body erase_node_body_same (incident_edges st node) st
    split
    · rename_i ex st2 heq
      rw [heq] at hl
      exact Frame.of_same hl.1 hl.2
    · rename_i u st2 heq
      rw [heq] at hl
      exact (Frame.of_same hl.1 hl.2).trans (erase_node_at_frame st2 node (hl.2 ▸ hold))

theorem clear_frame (st : store N × graph E) : Frame st (clear st) := by
  refine ⟨fun p hp _ => ?_, fun p hp => ?_⟩
  · simp only [clear, store.deref_foldl_free, if_neg hp]
  · simp [clear] at hp

theorem apply_frame (halloc : ∀ s : store N, s.deref (alloc s) = none)
    (m : mutation N E) (st : store N × graph E) :
    Frame st (boxed.apply alloc m st) := by
  cases m with
  | insert_node v => exact emplace_node_frame alloc halloc st v
  | insert_edge s d w =>
    exact Frame.of_same (insert_edge_same st s d w).1 (insert_edge_same st s d w).2
  | replace_node a b => exact replace_node_frame alloc halloc st a b
  | merge_replace_node a b => exact merge_replace_node_frame st a b
  | erase_node v => exact erase_node_frame st v
  | erase_edge s d w =>
    exact Frame.of_same (erase_edge_same st s d w).1 (erase_edge_same st s d w).2
  | erase_edge_iterator i =>
    refine Frame.of_same ?_ ?_ <;>
    · simp only [boxed.apply, erase_edge_iterator]
      split <;> rfl
  | erase_edge_range i s => exact Frame.of_same rfl rfl
  | clear => exact clear_frame st

theorem run_frame (halloc : ∀ s : store N, s.deref (alloc s) = none)
    (ms : List (mutation N E)) (st : store N × graph E) :
    Frame st (ms.foldl (fun st m => boxed.apply alloc m st) st) := by
  induction ms generalizing st with
  | nil => exact Frame.refl _
  | cons m rest ih => exact (apply_frame alloc halloc m st).trans (ih _)

end

end boxed

end gdwg

namespace gdwg

/-! ## Facts about sets of pointers and the sets of their pointees -/

namespace stdset
variable {A B K : Type} {R : A → B → Prop}

theorem rel_mem_left {l : List A} {l' : List B} (h : List.Forall₂ R l l') {a : A} (ha : a ∈ l) :
    ∃ b, b ∈ l' ∧ R a b := by
  induction h with
  | nil => simp at ha
  | cons hxy _ ih =>
    rcases List.mem_cons.1 ha with rfl | ha
    · exact ⟨_, List.mem_cons_self _ _, hxy⟩
    · obtain ⟨b, hb, hab⟩ := ih ha
      exact ⟨b, List.mem_cons_of_mem _ hb, hab⟩

theorem rel_mem_right {l : List A} {l' : List B} (h : List.Forall₂ R l l') {b : B} (hb : b ∈ l') :
    ∃ a, a ∈ l ∧ R a b := by
  induction h with
  | nil => simp at hb
  | cons hxy _ ih =>
    rcases List.mem_cons.1 hb with rfl | hb
    · exact ⟨_, List.mem_cons_self _ _, hxy⟩
    · obtain ⟨a, ha, hab⟩ := ih hb
      exact ⟨a, List.mem_cons_of_mem _ ha, hab⟩

theorem rel_inj (hfun : ∀ a b b', R a b → R a b' → b = b') {l : List A} {l' : List B}
    (h : List.Forall₂ R l l') (hnd : l'.Nodup) {a a' : A} {b : B} (ha : a ∈ l) (ha' : a' ∈ l)
    (hab : R a b) (hab' : R a' b) : a = a' := by
  induction h with
  | nil => simp at ha
  | @cons x y xs ys hxy hrest ih =>
    have hy := List.nodup_cons.1 hnd
    rcases List.mem_cons.1 ha with h1 | h1
    · rcases List.mem_cons.1 ha' with h2 | h2
      · rw [h1, h2]
      · obtain ⟨b', hb', hr⟩ := rel_mem_left hrest h2
        have e1 : b = y := hfun _ _ _ (h1 ▸ hab) hxy
        have e2 : b = b' := hfun _ _ _ hab' hr
        exact absurd (e1 ▸ e2 ▸ hb') hy.1
    · rcases List.mem_cons.1 ha' with h2 | h2
      · obtain ⟨b', hb', hr⟩ := rel_mem_left hrest h1
        have e1 : b = y := hfun _ _ _ (h2 ▸ hab') hxy
        have e2 : b = b' := hfun _ _ _ hab hr
        exact absurd (e1 ▸ e2 ▸ hb') hy.1
      · exact ih hy.2 h1 h2

theorem rel_nodup (hfun : ∀ a b b', R a b → R a b' → b = b') {l : List A} {l' : List B}
    (h : List.Forall₂ R l l') (hnd : l'.Nodup) : l.Nodup := by
  induction h with
  | nil => exact List.nodup_nil
  | @cons x y xs ys hxy hrest ih =>
    have hy := List.nodup_cons.1 hnd
    refine List.nodup_cons.2 ⟨fun hx => ?_, ih hy.2⟩
    obtain ⟨b', hb', hr⟩ := rel_mem_left hrest hx
    exact hy.1 (hfun _ _ _ hr hxy ▸ hb')

theorem rel_emplace (R : A → B → Prop) (cA : A → A → Bool) (cB : B → B → Bool)
    (hc : ∀ a b a' b', R a b → R a' b' → cA a a' = cB b b')
    {l : List A} {l' : List B} (h : List.Forall₂ R l l') {x : A} {x' : B} (hx : R x x') :
    List.Forall₂ R (emplace cA x l).1 (emplace cB x' l').1 ∧
    (emplace cA x l).2 = (emplace cB x' l').2 := by
  induction h with
  | nil => exact ⟨List.Forall₂.cons hx List.Forall₂.nil, rfl⟩
  | @cons a b as bs hab hrest ih =>
    unfold emplace
    rw [hc _ _ _ _ hx hab, hc _ _ _ _ hab hx]
    cases cB x' b with
    | true => exact ⟨List.Forall₂.cons hx (List.Forall₂.cons hab hrest), rfl⟩
    | false =>
      cases cB b x' with
      | true => exact ⟨List.Forall₂.cons hab ih.1, ih.2⟩
      | false => exact ⟨List.Forall₂.cons hab hrest, rfl⟩

theorem rel_find (R : A → B → Prop) (cekA : A → K → Bool) (ckeA : K → A → Bool)
    (cekB : B → K → Bool) (ckeB : K → B → Bool) (k : K) (hek : ∀ a b, R a b → cekA a k = cekB b k)
    (hke : ∀ a b, R a b → ckeA k a = ckeB k b) {l : List A} {l' : List B}
    (h : List.Forall₂ R l l') :
    (∃ a b, find cekA ckeA k l = some a ∧ find cekB ckeB k l' = some b ∧ R a b) ∨
    (find cekA ckeA k l = none ∧ find cekB ckeB k l' = none) := by
  induction h with
  | nil => exact Or.inr ⟨rfl, rfl⟩
  | @cons a b as bs hab hrest ih =>
    unfold find
    rw [hek _ _ hab, hke _ _ hab]
    cases cekB b k with
    | true => exact ih
    | false =>
      cases ckeB k b with
      | true => exact Or.inr ⟨rfl, rfl⟩
      | false => exact Or.inl ⟨a, b, rfl, rfl, hab⟩

theorem rel_erase [DecidableEq A] [DecidableEq B] {l : List A} {l' : List B}
    (h : List.Forall₂ R l l') (x : A) (x' : B)
    (hinj : ∀ a b, a ∈ l → R a b → (a = x ↔ b = x')) :
    List.Forall₂ R (erase x l) (erase x' l') := by
  unfold erase
  induction h with
  | nil => exact List.Forall₂.nil
  | @cons a b as bs hab hrest ih =>
    have hiff := hinj a b (List.mem_cons_self _ _) hab
    rw [List.erase_cons, List.erase_cons]
    by_cases hax : a = x
    · have hbx := hiff.1 hax
      simp only [hax, hbx, beq_self_eq_true, if_true]
      exact hrest
    · have hbx : ¬ b = x' := fun hb => hax (hiff.2 hb)
      have h1 : (a == x) = false := by simpa using hax
      have h2 : (b == x') = false := by simpa using hbx
      simp only [h1, h2, Bool.false_eq_true, if_false]
      exact List.Forall₂.cons hab (ih fun a' b' ha' => hinj a' b' (List.mem_cons_of_mem _ ha'))

theorem rel_filter {pA : A → Bool} {pB : B → Bool} {l : List A} {l' : List B}
    (h : List.Forall₂ R l l') (hp : ∀ a b, a ∈ l → R a b → pA a = pB b) :
    List.Forall₂ R (l.filter pA) (l'.filter pB) := by
  induction h with
  | nil => exact List.Forall₂.nil
  | @cons a b as bs hab hrest ih =>
    have hpa := hp a b (List.mem_cons_self _ _) hab
    have ih' := ih fun a' b' ha' => hp a' b' (List.mem_cons_of_mem _ ha')
    rw [List.filter_cons, List.filter_cons, hpa]
    cases pB b with
    | true => exact List.Forall₂.cons hab ih'
    | false => exact ih'

theorem rel_takeWhile {pA : A → Bool} {pB : B → Bool} {l : List A} {l' : List B}
    (h : List.Forall₂ R l l') (hp : ∀ a b, a ∈ l → R a b → pA a = pB b) :
    List.Forall₂ R (l.takeWhile pA) (l'.takeWhile pB) := by
  induction h with
  | nil => exact List.Forall₂.nil
  | @cons a b as bs hab hrest ih =>
    have hpa := hp a b (List.mem_cons_self _ _) hab
    have ih' := ih fun a' b' ha' => hp a' b' (List.mem_cons_of_mem _ ha')
    rw [List.takeWhile_cons, List.takeWhile_cons, hpa]
    cases pB b with
    | true => exact List.Forall₂.cons hab ih'
    | false => exact List.Forall₂.nil

theorem rel_dropWhile {pA : A → Bool} {pB : B → Bool} {l : List A} {l' : List B}
    (h : List.Forall₂ R l l') (hp : ∀ a b, a ∈ l → R a b → pA a = pB b) :
    List.Forall₂ R (l.dropWhile pA) (l'.dropWhile pB) := by
  induction h with
  | nil => exact List.Forall₂.nil
  | @cons a b as bs hab hrest ih =>
    have hpa := hp a b (List.mem_cons_self _ _) hab
    have ih' := ih fun a' b' ha' => hp a' b' (List.mem_cons_of_mem _ ha')
    rw [List.dropWhile_cons, List.dropWhile_cons, hpa]
    cases pB b with
    | true => exact ih'
    | false => exact List.Forall₂.cons hab hrest

end stdset

theorem collect_eq_some_iff {α β : Type} (f : α → Option β) (l : List α) (l' : List β) :
    collect f l = some l' ↔ List.Forall₂ (fun a b => f a = some b) l l' := by
  induction l generalizing l' with
  | nil =>
    cases l' with
    | nil => simp [collect]
    | cons b bs => simp [collect]
  | cons a as ih =>
    unfold collect
    cases hfa : f a with
    | none =>
      refine ⟨fun h => Option.noConfusion h, fun h => ?_⟩
      cases h with
      | cons h1 _ => rw [hfa] at h1; cases h1
    | some y =>
      cases hc : collect f as with
      | none =>
        refine ⟨fun h => Option.noConfusion h, fun h => ?_⟩
        cases h with
        | cons h1 h2 =>
          rw [(ih _).2 h2] at hc
          cases hc
      | some ys =>
        simp only [Option.some.injEq]
        constructor
        · rintro rfl
          exact List.Forall₂.cons hfa ((ih ys).1 hc)
        · intro h
          cases h with
          | cons h1 h2 =>
            rw [hfa] at h1
            rw [(ih _).2 h2] at hc
            simp only [Option.some.injEq] at h1 hc
            rw [h1, hc]

end gdwg

namespace gdwg

/-! ## Facts about an object and the graph it stands for -/

namespace stdset
variable {A B : Type} {R R' : A → B → Prop}

theorem rel_imp_mem {l : List A} {l' : List B} (h : List.Forall₂ R l l')
    (himp : ∀ a b, a ∈ l → R a b → R' a b) : List.Forall₂ R' l l' := by
  induction h with
  | nil => exact List.Forall₂.nil
  | @cons a b as bs hab _ ih =>
    exact List.Forall₂.cons (himp a b (List.mem_cons_self _ _) hab)
      (ih fun a' b' ha' => himp a' b' (List.mem_cons_of_mem _ ha'))

theorem emplace_fst_of_snd_false {T : Type} (cmp : T → T → Bool) (x : T) (l : List T)
    (h : (emplace cmp x l).2 = false) : (emplace cmp x l).1 = l := by
  induction l with
  | nil => simp [emplace] at h
  | cons z zs ih =>
    unfold emplace at h ⊢
    split_ifs at h ⊢
    · simp only [ih h]
    · rfl

end stdset

namespace boxed

section
variable {N E : Type} [LinearOrder N] [LinearOrder E]

theorem edge.read_eq_some_iff (s : store N) (pe : edge E) (e : gdwg.edge N E) :
    edge.read s pe = some e
      ↔ s.deref pe.src = some e.src ∧ s.deref pe.dest = some e.dest ∧ pe.weight = e.weight := by
  unfold edge.read
  obtain ⟨es, ed, ew⟩ := e
  cases h1 : s.deref pe.src with
  | none => simp
  | some x =>
    cases h2 : s.deref pe.dest with
    | none => simp
    | some y => simp

theorem node_cmp_eq (s : store N) {p q : Nat} {v w : N} (hp : s.deref p = some v)
    (hq : s.deref q = some w) : node_cmp s p q = gdwg.node_cmp v w := by
  simp only [node_cmp, hp, hq, gdwg.node_cmp]

theorem node_cmp_node_value_eq (s : store N) {p : Nat} {v : N} (k : N) (hp : s.deref p = some v) :
    node_cmp_node_value s p k = gdwg.node_cmp v k := by
  simp only [node_cmp_node_value, hp, gdwg.node_cmp]

theorem node_cmp_value_node_eq (s : store N) {p : Nat} {v : N} (k : N) (hp : s.deref p = some v) :
    node_cmp_value_node s k p = gdwg.node_cmp k v := by
  simp only [node_cmp_value_node, hp, gdwg.node_cmp]

theorem edge_cmp_eq (s : store N) {pe pe' : edge E} {e e' : gdwg.edge N E}
    (h : edge.read s pe = some e) (h' : edge.read s pe' = some e') :
    edge_cmp s pe pe' = gdwg.edge_cmp e e' := by
  simp only [edge_cmp, h, h']

theorem edge_cmp_edge_value_eq (s : store N) {pe : edge E} {e : gdwg.edge N E}
    (k : value_type N E) (h : edge.read s pe = some e) :
    edge_cmp_edge_value s pe k = gdwg.edge_cmp_edge_value e k := by
  simp only [edge_cmp_edge_value, h]

theorem edge_cmp_value_edge_eq (s : store N) {pe : edge E} {e : gdwg.edge N E}
    (k : value_type N E) (h : edge.read s pe = some e) :
    edge_cmp_value_edge s k pe = gdwg.edge_cmp_value_edge k e := by
  simp only [edge_cmp_value_edge, h]

theorem Boxed.nodes_nodup {st : store N × graph E} {g : gdwg.graph N E} (hb : Boxed st g) :
    st.2.nodes_.Nodup :=
  stdset.rel_nodup (fun _ _ _ h1 h2 => Option.some.inj (h1.symm.trans h2)) hb.nodes
    (stdset.Sorted.nodup node_cmp_strictTotal hb.wf.nodes_sorted)

theorem Boxed.deref_inj {st : store N × graph E} {g : gdwg.graph N E} (hb : Boxed st g)
    {p q : Nat} {v : N} (hp : p ∈ st.2.nodes_) (hq : q ∈ st.2.nodes_)
    (h1 : st.1.deref p = some v) (h2 : st.1.deref q = some v) : p = q :=
  stdset.rel_inj (fun _ _ _ h1 h2 => Option.some.inj (h1.symm.trans h2)) hb.nodes
    (stdset.Sorted.nodup node_cmp_strictTotal hb.wf.nodes_sorted) hp hq h1 h2

theorem Boxed.read_inj {st : store N × graph E} {g : gdwg.graph N E} (hb : Boxed st g)
    {pe pe' : edge E} {e : gdwg.edge N E} (hp : pe ∈ st.2.edges_) (hq : pe' ∈ st.2.edges_)
    (h1 : edge.read st.1 pe = some e) (h2 : edge.read st.1 pe' = some e) : pe = pe' :=
  stdset.rel_inj (fun _ _ _ h1 h2 => Option.some.inj (h1.symm.trans h2)) hb.edges
    (stdset.Sorted.nodup edge_cmp_strictTotal hb.wf.edges_sorted) hp hq h1 h2

theorem Boxed.find_node {st : store N × graph E} {g : gdwg.graph N E} (hb : Boxed st g) (k : N) :
    (∃ p, stdset.find (node_cmp_node_value st.1) (node_cmp_value_node st.1) k st.2.nodes_ = some p ∧
      stdset.find gdwg.node_cmp gdwg.node_cmp k g.nodes_ = some k ∧
      p ∈ st.2.nodes_ ∧ st.1.deref p = some k ∧ k ∈ g.nodes_) ∨
    (stdset.find (node_cmp_node_value st.1) (node_cmp_value_node st.1) k st.2.nodes_ = none ∧
      stdset.find gdwg.node_cmp gdwg.node_cmp k g.nodes_ = none ∧ k ∉ g.nodes_) := by
  have hv := find_node_eq k g.nodes_ hb.wf.nodes_sorted
  rcases stdset.rel_find (fun p v => st.1.deref p = some v)
      (node_cmp_node_value st.1) (node_cmp_value_node st.1) gdwg.node_cmp gdwg.node_cmp k
      (fun a b hab => node_cmp_node_value_eq st.1 k hab)
      (fun a b hab => node_cmp_value_node_eq st.1 k hab) hb.nodes with
    ⟨p, v, h1, h2, h3⟩ | ⟨h1, h2⟩
  · left
    rw [hv] at h2
    by_cases hk : k ∈ g.nodes_
    · simp only [hk, if_true, Option.some.injEq] at h2
      subst h2
      exact ⟨p, h1, by rw [hv, if_pos hk], stdset.mem_of_find _ _ _ _ _ h1, h3, hk⟩
    · simp [hk] at h2
  · right
    rw [hv] at h2
    by_cases hk : k ∈ g.nodes_
    · simp [hk] at h2
    · exact ⟨h1, by rw [hv, if_neg hk], hk⟩

theorem Boxed.find_edge {st : store N × graph E} {g : gdwg.graph N E} (hb : Boxed st g)
    (k : value_type N E) :
    (∃ pe, stdset.find (edge_cmp_edge_value st.1) (edge_cmp_value_edge st.1) k st.2.edges_ = some pe ∧
      stdset.find gdwg.edge_cmp_edge_value gdwg.edge_cmp_value_edge k g.edges_
        = some ⟨k.from_, k.to_, k.weight⟩ ∧
      pe ∈ st.2.edges_ ∧ edge.read st.1 pe = some ⟨k.from_, k.to_, k.weight⟩ ∧
      (⟨k.from_, k.to_, k.weight⟩ : gdwg.edge N E) ∈ g.edges_) ∨
    (stdset.find (edge_cmp_edge_value st.1) (edge_cmp_value_edge st.1) k st.2.edges_ = none ∧
      stdset.find gdwg.edge_cmp_edge_value gdwg.edge_cmp_value_edge k g.edges_ = none ∧
      (⟨k.from_, k.to_, k.weight⟩ : gdwg.edge N E) ∉ g.edges_) := by
  have hv := find_edge_eq k g.edges_ hb.wf.edges_sorted
  rcases stdset.rel_find (fun pe e => edge.read st.1 pe = some e)
      (edge_cmp_edge_value st.1) (edge_cmp_value_edge st.1)
      gdwg.edge_cmp_edge_value gdwg.edge_cmp_value_edge k
      (fun a b hab => edge_cmp_edge_value_eq st.1 k hab)
      (fun a b hab => edge_cmp_value_edge_eq st.1 k hab) hb.edges with
    ⟨p, v, h1, h2, h3⟩ | ⟨h1, h2⟩
  · left
    rw [hv] at h2
    by_cases hk : (⟨k.from_, k.to_, k.weight⟩ : gdwg.edge N E) ∈ g.edges_
    · simp only [hk, if_true, Option.some.injEq] at h2
      subst h2
      exact ⟨p, h1, by rw [hv, if_pos hk], stdset.mem_of_find _ _ _ _ _ h1, h3, hk⟩
    · simp [hk] at h2
  · right
    rw [hv] at h2
    by_cases hk : (⟨k.from_, k.to_, k.weight⟩ : gdwg.edge N E) ∈ g.edges_
    · simp [hk] at h2
    · exact ⟨h1, by rw [hv, if_neg hk], hk⟩

theorem Boxed.of_agree {s s' : store N} {obj : graph E} {g : gdwg.graph N E}
    (hb : Boxed (s, obj) g) (hagree : ∀ p ∈ obj.nodes_, s'.deref p = s.deref p) :
    Boxed (s', obj) g := by
  refine ⟨stdset.rel_imp_mem hb.nodes fun p v hp h => ?_,
    stdset.rel_imp_mem hb.edges fun pe e hpe h => ?_, hb.owned, hb.wf⟩
  · exact (hagree p hp).trans h
  · have hown := hb.owned pe hpe
    simp only [edge.read_eq_some_iff] at h ⊢
    exact ⟨(hagree _ hown.1).trans h.1, (hagree _ hown.2).trans h.2.1, h.2.2⟩

end

end boxed

end gdwg

namespace gdwg

/-! ## Facts about the calls on an object and on the graph it stands for -/

namespace boxed

section
variable {N E : Type} [LinearOrder N] [LinearOrder E]

theorem insert_edge_sim {st : store N × graph E} {g : gdwg.graph N E} (hb : Boxed st g)
    (s d : N) (w : E) :
    (insert_edge st s d w).1 = (gdwg.insert_edge g s d w).1 ∧
    Boxed (insert_edge st s d w).2 (gdwg.insert_edge g s d w).2 := by
  have hwf := hb.wf.insert_edge s d w
  rcases hb.find_node s with ⟨ps, h1, h1', hps, hds, hs⟩ | ⟨h1, h1', hs⟩
  · rcases hb.find_node d with ⟨pd, h2, h2', hpd, hdd, hd⟩ | ⟨h2, h2', hd⟩
    · simp only [insert_edge, gdwg.insert_edge, h1, h1', h2, h2'] at hwf ⊢
      have hx : edge.read st.1 (⟨ps, pd, w⟩ : edge E) = some (⟨s, d, w⟩ : gdwg.edge N E) := by
        simp only [edge.read_eq_some_iff]
        exact ⟨hds, hdd, trivial⟩
      have hrel := stdset.rel_emplace (fun pe e => edge.read st.1 pe = some e)
        (edge_cmp st.1) gdwg.edge_cmp
        (fun a b a' b' hab hab' => edge_cmp_eq st.1 hab hab') hb.edges hx
      refine ⟨by rw [hrel.2], hb.nodes, hrel.1, fun e he => ?_, hwf⟩
      rcases stdset.mem_of_mem_emplace _ _ _ _ he with rfl | he
      · exact ⟨hps, hpd⟩
      · exact hb.owned e he
    · simp only [insert_edge, gdwg.insert_edge, h1, h1', h2, h2']
      exact ⟨trivial, hb⟩
  · simp only [insert_edge, gdwg.insert_edge, h1, h1']
    exact ⟨trivial, hb⟩

theorem erase_edge_sim {st : store N × graph E} {g : gdwg.graph N E} (hb : Boxed st g)
    (s d : N) (w : E) :
    (erase_edge st s d w).1 = (gdwg.erase_edge g s d w).1 ∧
    Boxed (erase_edge st s d w).2 (gdwg.erase_edge g s d w).2 := by
  have hwf := hb.wf.erase_edge s d w
  rcases hb.find_node s with ⟨ps, h1, h1', hps, hds, hs⟩ | ⟨h1, h1', hs⟩
  · rcases hb.find_node d with ⟨pd, h2, h2', hpd, hdd, hd⟩ | ⟨h2, h2', hd⟩
    · rcases hb.find_edge ⟨s, d, w⟩ with ⟨pe, h3, h3', hpe, hre, he⟩ | ⟨h3, h3', he⟩
      · simp only [erase_edge, gdwg.erase_edge, h1, h1', h2, h2', h3, h3'] at hwf ⊢
        refine ⟨trivial, hb.nodes, ?_, fun e he => hb.owned e (List.mem_of_mem_erase he), hwf⟩
        refine stdset.rel_erase hb.edges _ _ fun a b ha hab => ⟨fun h => ?_, fun h => ?_⟩
        · subst h
          exact Option.some.inj (hab.symm.trans hre)
        · subst h
          exact hb.read_inj ha hpe hab hre
      · simp only [erase_edge, gdwg.erase_edge, h1, h1', h2, h2', h3, h3']
        exact ⟨trivial, hb⟩
    · simp only [erase_edge, gdwg.erase_edge, h1, h1', h2, h2']
      exact ⟨trivial, hb⟩
  · simp only [erase_edge, gdwg.erase_edge, h1, h1']
    exact ⟨trivial, hb⟩

theorem emplace_node_sim (alloc : store N → Nat)
    (halloc : ∀ s : store N, s.deref (alloc s) = none)
    {st : store N × graph E} {g : gdwg.graph N E} (hb : Boxed st g) (value : N) :
    (emplace_node alloc st value).1 = (gdwg.insert_node g value).1 ∧
    Boxed (emplace_node alloc st value).2 (gdwg.insert_node g value).2 := by
  have hwf := hb.wf.insert_node value
  have hfresh := halloc st.1
  have hne : ∀ p ∈ st.2.nodes_, p ≠ alloc st.1 := fun p hp heq => by
    obtain ⟨v, _, hv⟩ := stdset.rel_mem_left hb.nodes hp
    rw [heq, hfresh] at hv
    exact Option.noConfusion hv
  have hagree : ∀ p ∈ st.2.nodes_,
      (st.1.make_unique (alloc st.1) value).deref p = st.1.deref p := fun p hp => by
    rw [store.deref_make_unique, if_neg (hne p hp)]
  have hb1 : Boxed (st.1.make_unique (alloc st.1) value, st.2) g := hb.of_agree hagree
  have hx : (st.1.make_unique (alloc st.1) value).deref (alloc st.1) = some value := by
    rw [store.deref_make_unique, if_pos rfl]
  have hrel := stdset.rel_emplace
    (fun p v => (st.1.make_unique (alloc st.1) value).deref p = some v)
    (node_cmp (st.1.make_unique (alloc st.1) value)) gdwg.node_cmp
    (fun a b a' b' hab hab' => node_cmp_eq _ hab hab') hb1.nodes hx
  simp only [emplace_node, gdwg.insert_node] at hwf ⊢
  refine ⟨hrel.2, ?_⟩
  have hbig : Boxed (st.1.make_unique (alloc st.1) value,
      ({ st.2 with nodes_ := (stdset.emplace (node_cmp (st.1.make_unique (alloc st.1) value))
          (alloc st.1) st.2.nodes_).1 } : graph E))
      { g with nodes_ := (stdset.emplace gdwg.node_cmp value g.nodes_).1 } :=
    ⟨hrel.1, hb1.edges,
      fun e he => ⟨stdset.mem_emplace_of_mem _ _ _ _ (hb.owned e he).1,
        stdset.mem_emplace_of_mem _ _ _ _ (hb.owned e he).2⟩, hwf⟩
  split_ifs with hr
  · exact hbig
  · refine hbig.of_agree fun p hp => ?_
    simp only [Bool.not_eq_true] at hr
    simp only [stdset.emplace_fst_of_snd_false _ _ _ hr] at hp
    rw [store.deref_free, if_neg (hne p hp)]

theorem insert_node_sim (alloc : store N → Nat)
    (halloc : ∀ s : store N, s.deref (alloc s) = none)
    {st : store N × graph E} {g : gdwg.graph N E} (hb : Boxed st g) (value : N) :
    (insert_node alloc st value).1 = (gdwg.insert_node g value).1 ∧
    Boxed (insert_node alloc st value).2 (gdwg.insert_node g value).2 :=
  emplace_node_sim alloc halloc hb value

end

end boxed

end gdwg

namespace gdwg

namespace stdset
variable {A B C : Type}

theorem rel_filterMap_eq (f : A → Option B) (h : B → C) {l : List A} {l' : List B}
    (hrel : List.Forall₂ (fun a b => f a = some b) l l') :
    l.filterMap (fun a => (f a).map h) = l'.map h := by
  induction hrel with
  | nil => rfl
  | @cons a b as bs hab _ ih =>
    rw [List.filterMap_cons, List.map_cons]
    simp only [hab, Option.map_some', ih]

end stdset

namespace boxed

section
variable {N E : Type} [LinearOrder N] [LinearOrder E]

theorem Boxed.src_eq_iff {st : store N × graph E} {g : gdwg.graph N E} (hb : Boxed st g)
    {p : Nat} {v : N} (hp : p ∈ st.2.nodes_) (hv : st.1.deref p = some v)
    {pe : edge E} {e : gdwg.edge N E} (hpe : pe ∈ st.2.edges_)
    (hre : edge.read st.1 pe = some e) :
    (pe.src = p ↔ e.src = v) ∧ (pe.dest = p ↔ e.dest = v) := by
  have hown := hb.owned pe hpe
  rw [edge.read_eq_some_iff] at hre
  refine ⟨⟨fun h => ?_, fun h => ?_⟩, ⟨fun h => ?_, fun h => ?_⟩⟩
  · rw [h, hv] at hre
    exact (Option.some.inj hre.1).symm
  · exact hb.deref_inj hown.1 hp (h ▸ hre.1) hv
  · rw [h, hv] at hre
    exact (Option.some.inj hre.2.1).symm
  · exact hb.deref_inj hown.2 hp (h ▸ hre.2.1) hv

theorem incident_edges_sim {st : store N × graph E} {g : gdwg.graph N E} (hb : Boxed st g)
    {p : Nat} {v : N} (hp : p ∈ st.2.nodes_) (hv : st.1.deref p = some v) :
    incident_edges st p = gdwg.incident_edges g v := by
  unfold incident_edges gdwg.incident_edges
  refine stdset.rel_filterMap_eq (edge.read st.1) gdwg.edge.value
    (stdset.rel_filter hb.edges fun pe e hpe hre => ?_)
  obtain ⟨h1, h2⟩ := hb.src_eq_iff hp hv hpe hre
  simp only [h1, h2]

theorem for_each_sim {α σA σB : Type} (Rel : σA → σB → Prop)
    (fA : α → σA → Except exception Unit × σA) (fB : α → σB → Except exception Unit × σB)
    (hf : ∀ x a b, Rel a b → (fA x a).1 = (fB x b).1 ∧ Rel (fA x a).2 (fB x b).2)
    (xs : List α) (a : σA) (b : σB) (h : Rel a b) :
    (for_each xs fA a).1 = (for_each xs fB b).1 ∧
    Rel (for_each xs fA a).2 (for_each xs fB b).2 := by
  induction xs generalizing a b with
  | nil => exact ⟨rfl, h⟩
  | cons x rest ih =>
    have hx := hf x a b h
    unfold for_each
    rcases hA : fA x a with ⟨rA, a1⟩
    rcases hB : fB x b with ⟨rB, b1⟩
    rw [hA, hB] at hx
    simp only at hx
    obtain ⟨h1, h2⟩ := hx
    subst h1
    cases rA with
    | error ex => exact ⟨rfl, h2⟩
    | ok u => exact ih a1 b1 h2

theorem replace_node_body_sim (old_data new_data : N) (e : value_type N E)
    (st : store N × graph E) (g : gdwg.graph N E) (hb : Boxed st g) :
    (replace_node_body old_data new_data e st).1
      = (gdwg.replace_node_body old_data new_data e g).1 ∧
    Boxed (replace_node_body old_data new_data e st).2
      (gdwg.replace_node_body old_data new_data e g).2 := by
  unfold replace_node_body gdwg.replace_node_body
  simp only
  have hi := insert_edge_sim hb (if e.from_ = old_data then new_data else e.from_)
    (if e.to_ = old_data then new_data else e.to_) e.weight
  rcases hA : insert_edge st (if e.from_ = old_data then new_data else e.from_)
    (if e.to_ = old_data then new_data else e.to_) e.weight with ⟨rA, st1⟩
  rcases hB : gdwg.insert_edge g (if e.from_ = old_data then new_data else e.from_)
    (if e.to_ = old_data then new_data else e.to_) e.weight with ⟨rB, g1⟩
  rw [hA, hB] at hi
  simp only at hi
  obtain ⟨h1, hb1⟩ := hi
  subst h1
  cases rA with
  | error ex => exact ⟨rfl, hb1⟩
  | ok u =>
    simp only
    have he := erase_edge_sim hb1 e.from_ e.to_ e.weight
    rcases hA2 : erase_edge st1 e.from_ e.to_ e.weight with ⟨rA2, st2⟩
    rcases hB2 : gdwg.erase_edge g1 e.from_ e.to_ e.weight with ⟨rB2, g2⟩
    rw [hA2, hB2] at he
    simp only at he
    obtain ⟨h2, hb2⟩ := he
    subst h2
    cases rA2 with
    | error ex => exact ⟨rfl, hb2⟩
    | ok u2 => exact ⟨rfl, hb2⟩

theorem erase_node_body_sim (e : value_type N E)
    (st : store N × graph E) (g : gdwg.graph N E) (hb : Boxed st g) :
    (erase_node_body e st).1 = (gdwg.erase_node_body e g).1 ∧
    Boxed (erase_node_body e st).2 (gdwg.erase_node_body e g).2 := by
  unfold erase_node_body gdwg.erase_node_body
  have he := erase_edge_sim hb e.from_ e.to_ e.weight
  rcases hA2 : erase_edge st e.from_ e.to_ e.weight with ⟨rA2, st2⟩
  rcases hB2 : gdwg.erase_edge g e.from_ e.to_ e.weight with ⟨rB2, g2⟩
  rw [hA2, hB2] at he
  simp only at he
  obtain ⟨h2, hb2⟩ := he
  subst h2
  cases rA2 with
  | error ex => exact ⟨rfl, hb2⟩
  | ok u2 => exact ⟨rfl, hb2⟩

theorem merge_replace_node_body_sim (old_data new_data : N) (e : value_type N E)
    (st : store N × graph E) (g : gdwg.graph N E) (hb : Boxed st g) :
    (merge_replace_node_body old_data new_data e st).1
      = (gdwg.merge_replace_node_body old_data new_data e g).1 ∧
    Boxed (merge_replace_node_body old_data new_data e st).2
      (gdwg.merge_replace_node_body old_data new_data e g).2 := by
  unfold merge_replace_node_body gdwg.merge_replace_node_body
  simp only
  have key : ∀ (rA : Except exception Unit × store N × graph E)
      (rB : Except exception Unit × gdwg.graph N E), rA.1 = rB.1 → Boxed rA.2 rB.2 →
      ((match rA with
        | (.error ex, st1) => (Except.error ex, st1)
        | (.ok _, st1) =>
          match erase_edge st1 e.from_ e.to_ e.weight with
          | (.error ex, st2) => (Except.error ex, st2)
          | (.ok _, st2) => (Except.ok (), st2)) :
        Except exception Unit × store N × graph E).1
      = ((match rB with
        | (.error ex, g1) => (Except.error ex, g1)
        | (.ok _, g1) =>
          match gdwg.erase_edge g1 e.from_ e.to_ e.weight with
          | (.error ex, g2) => (Except.error ex, g2)
          | (.ok _, g2) => (Except.ok (), g2)) :
        Except exception Unit × gdwg.graph N E).1 ∧
      Boxed ((match rA with
        | (.error ex, st1) => (Except.error ex, st1)
        | (.ok _, st1) =>
          match erase_edge st1 e.from_ e.to_ e.weight with
          | (.error ex, st2) => (Except.error ex, st2)
          | (.ok _, st2) => (Except.ok (), st2)) :
        Except exception Unit × store N × graph E).2
      ((match rB with
        | (.error ex, g1) => (Except.error ex, g1)
        | (.ok _, g1) =>
          match gdwg.erase_edge g1 e.from_ e.to_ e.weight with
          | (.error ex, g2) => (Except.error ex, g2)
          | (.ok _, g2) => (Except.ok (), g2)) :
        Except exception Unit × gdwg.graph N E).2 := by
    rintro ⟨rA, st1⟩ ⟨rB, g1⟩ h1 hb1
    simp only at h1 hb1
    subst h1
    cases rA with
    | error ex => exact ⟨rfl, hb1⟩
    | ok u =>
      simp only
      have he := erase_edge_sim hb1 e.from_ e.to_ e.weight
      rcases hA2 : erase_edge st1 e.from_ e.to_ e.weight with ⟨rA2, st2⟩
      rcases hB2 : gdwg.erase_edge g1 e.from_ e.to_ e.weight with ⟨rB2, g2⟩
      rw [hA2, hB2] at he
      simp only at he
      obtain ⟨h2, hb2⟩ := he
      subst h2
      cases rA2 with
      | error ex => exact ⟨rfl, hb2⟩
      | ok u2 => exact ⟨rfl, hb2⟩
  apply key
  · rcases hb.find_edge ⟨if e.from_ = old_data then new_data else e.from_,
        if e.to_ = old_data then new_data else e.to_, e.weight⟩ with
      ⟨pe, h3, h3', _⟩ | ⟨h3, h3', _⟩
    · simp only [h3, h3']
    · simp only [h3, h3']
      have hi := insert_edge_sim hb (if e.from_ = old_data then new_data else e.from_)
        (if e.to_ = old_data then new_data else e.to_) e.weight
      rcases hA : insert_edge st (if e.from_ = old_data then new_data else e.from_)
        (if e.to_ = old_data then new_data else e.to_) e.weight with ⟨rA, st1⟩
      rcases hB : gdwg.insert_edge g (if e.from_ = old_data then new_data else e.from_)
        (if e.to_ = old_data then new_data else e.to_) e.weight with ⟨rB, g1⟩
      rw [hA, hB] at hi
      simp only at hi
      obtain ⟨h1, hb1⟩ := hi
      subst h1
      cases rA with
      | error ex => rfl
      | ok u => rfl
  · rcases hb.find_edge ⟨if e.from_ = old_data then new_data else e.from_,
        if e.to_ = old_data then new_data else e.to_, e.weight⟩ with
      ⟨pe, h3, h3', _⟩ | ⟨h3, h3', _⟩
    · simp only [h3, h3']
      exact hb
    · simp only [h3, h3']
      have hi := insert_edge_sim hb (if e.from_ = old_data then new_data else e.from_)
        (if e.to_ = old_data then new_data else e.to_) e.weight
      rcases hA : insert_edge st (if e.from_ = old_data then new_data else e.from_)
        (if e.to_ = old_data then new_data else e.to_) e.weight with ⟨rA, st1⟩
      rcases hB : gdwg.insert_edge g (if e.from_ = old_data then new_data else e.from_)
        (if e.to_ = old_data then new_data else e.to_) e.weight with ⟨rB, g1⟩
      rw [hA, hB] at hi
      simp only at hi
      obtain ⟨h1, hb1⟩ := hi
      subst h1
      cases rA with
      | error ex => exact hb1
      | ok u => exact hb1

end

end boxed

end gdwg

namespace gdwg

namespace boxed

section
variable {N E : Type} [LinearOrder N] [LinearOrder E]

theorem is_node_sim {st : store N × graph E} {g : gdwg.graph N E} (hb : Boxed st g) (k : N) :
    is_node st k = gdwg.is_node g k := by
  unfold is_node gdwg.is_node
  rcases hb.find_node k with ⟨p, h1, h1', _⟩ | ⟨h1, h1', _⟩ <;> rw [h1, h1'] <;> rfl

theorem erase_node_at_sim {st : store N × graph E} {g : gdwg.graph N E} (hb : Boxed st g)
    {p : Nat} {v : N} (hp : p ∈ st.2.nodes_) (hv : st.1.deref p = some v)
    (hwf : ({ g with nodes_ := stdset.erase v g.nodes_ } : gdwg.graph N E).WF) :
    Boxed (erase_node_at st p) { g with nodes_ := stdset.erase v g.nodes_ } := by
  have hnd := stdset.Sorted.nodup node_cmp_strictTotal hb.wf.nodes_sorted
  have hne : ∀ q ∈ stdset.erase p st.2.nodes_, q ≠ p := fun q hq =>
    ((hb.nodes_nodup.mem_erase_iff).1 hq).1
  have hrel : List.Forall₂ (fun q w => st.1.deref q = some w) (stdset.erase p st.2.nodes_)
      (stdset.erase v g.nodes_) :=
    stdset.rel_erase hb.nodes p v fun a b ha hab =>
      ⟨fun h => Option.some.inj (hab.symm.trans (h ▸ hv)), fun h => hb.deref_inj ha hp hab (h ▸ hv)⟩
  have hends : ∀ pe ∈ st.2.edges_, pe.src ≠ p ∧ pe.dest ≠ p := fun pe hpe => by
    obtain ⟨e, he, hre⟩ := stdset.rel_mem_left hb.edges hpe
    obtain ⟨h1, h2⟩ := hb.src_eq_iff hp hv hpe hre
    have hs := hwf.src_mem e he
    have hd := hwf.dest_mem e he
    simp only at hs hd
    exact ⟨fun h => ((hnd.mem_erase_iff).1 hs).1 (h1.1 h),
      fun h => ((hnd.mem_erase_iff).1 hd).1 (h2.1 h)⟩
  refine ⟨stdset.rel_imp_mem hrel fun q w hq h => ?_,
    stdset.rel_imp_mem hb.edges fun pe e hpe h => ?_, fun pe hpe => ?_, hwf⟩
  · simp only [erase_node_at, store.deref_free, if_neg (hne q hq)]
    exact h
  · obtain ⟨h1, h2⟩ := hends pe hpe
    simp only [edge.read_eq_some_iff, erase_node_at, store.deref_free, if_neg h1, if_neg h2] at h ⊢
    exact h
  · obtain ⟨h1, h2⟩ := hends pe hpe
    have hown := hb.owned pe hpe
    exact ⟨(List.mem_erase_of_ne h1).2 hown.1, (List.mem_erase_of_ne h2).2 hown.2⟩

theorem emplace_node_deref (alloc : store N → Nat)
    (halloc : ∀ s : store N, s.deref (alloc s) = none)
    (st : store N × graph E) (value : N) (p : Nat) (hp : st.1.deref p ≠ none) :
    (emplace_node alloc st value).2.1.deref p = st.1.deref p := by
  have hne : p ≠ alloc st.1 := fun h => hp (h ▸ halloc st.1)
  simp only [emplace_node]
  split_ifs
  · rw [store.deref_make_unique, if_neg hne]
  · rw [store.deref_free, if_neg hne, store.deref_make_unique, if_neg hne]

theorem replace_node_sim (alloc : store N → Nat)
    (halloc : ∀ s : store N, s.deref (alloc s) = none)
    {st : store N × graph E} {g : gdwg.graph N E} (hb : Boxed st g) (old_data new_data : N) :
    (replace_node alloc st old_data new_data).1 = (gdwg.replace_node g old_data new_data).1 ∧
    Boxed (replace_node alloc st old_data new_data).2
      (gdwg.replace_node g old_data new_data).2 := by
  have hwf := hb.wf.replace_node old_data new_data
  rcases hb.find_node old_data with ⟨p, h1, h1', hp, hdp, ho⟩ | ⟨h1, h1', ho⟩
  · simp only [replace_node, gdwg.replace_node, h1, h1', is_node_sim hb] at hwf ⊢
    by_cases hn : gdwg.is_node g new_data = true
    · simp only [hn, if_true]
      exact ⟨trivial, hb⟩
    · simp only [hn, Bool.false_eq_true, if_false] at hwf ⊢
      have hb1 := (emplace_node_sim alloc halloc hb new_data).2
      simp only [gdwg.insert_node] at hb1
      have hp1 : p ∈ (emplace_node alloc st new_data).2.2.nodes_ := by
        simp only [emplace_node]
        exact stdset.mem_emplace_of_mem _ _ _ _ hp
      have hdp1 : (emplace_node alloc st new_data).2.1.deref p = some old_data := by
        rw [emplace_node_deref alloc halloc st new_data p (by rw [hdp]; exact Option.noConfusion),
          hdp]
      rw [incident_edges_sim hb1 hp1 hdp1]
      have hloop := for_each_sim Boxed (replace_node_body old_data new_data)
        (gdwg.replace_node_body old_data new_data) (replace_node_body_sim old_data new_data)
        (gdwg.incident_edges
          ({ g with nodes_ := (stdset.emplace gdwg.node_cmp new_data g.nodes_).1 } :
            gdwg.graph N E) old_data)
        _ _ hb1
      have hsame := for_each_same (replace_node_body old_data new_data)
        (replace_node_body_same old_data new_data)
        (gdwg.incident_edges
          ({ g with nodes_ := (stdset.emplace gdwg.node_cmp new_data g.nodes_).1 } :
            gdwg.graph N E) old_data)
        (emplace_node alloc st new_data).2
      rcases hA : for_each (gdwg.incident_edges
          ({ g with nodes_ := (stdset.emplace gdwg.node_cmp new_data g.nodes_).1 } :
            gdwg.graph N E) old_data)
        (replace_node_body old_data new_data) (emplace_node alloc st new_data).2 with ⟨rA, st2⟩
      rcases hB : for_each (gdwg.incident_edges
          ({ g with nodes_ := (stdset.emplace gdwg.node_cmp new_data g.nodes_).1 } :
            gdwg.graph N E) old_data)
        (gdwg.replace_node_body old_data new_data)
        ({ g with nodes_ := (stdset.emplace gdwg.node_cmp new_data g.nodes_).1 } :
            gdwg.graph N E) with ⟨rB, g2⟩
      rw [hA, hB] at hloop
      rw [hA] at hsame
      rw [hB] at hwf
      simp only at hloop hsame hwf
      obtain ⟨hr, hb2⟩ := hloop
      subst hr
      cases rA with
      | error ex => exact ⟨rfl, hb2⟩
      | ok u =>
        simp only at hwf ⊢
        refine ⟨trivial, erase_node_at_sim hb2 (hsame.2 ▸ hp1) (hsame.1 ▸ hdp1) hwf⟩
  · simp only [replace_node, gdwg.replace_node, h1, h1']
    exact ⟨trivial, hb⟩

theorem merge_replace_node_sim
    {st : store N × graph E} {g : gdwg.graph N E} (hb : Boxed st g) (old_data new_data : N) :
    (merge_replace_node st old_data new_data).1
      = (gdwg.merge_replace_node g old_data new_data).1 ∧
    Boxed (merge_replace_node st old_data new_data).2
      (gdwg.merge_replace_node g old_data new_data).2 := by
  have hwf := hb.wf.merge_replace_node old_data new_data
  rcases hb.find_node old_data with ⟨p, h1, h1', hp, hdp, ho⟩ | ⟨h1, h1', ho⟩
  · rcases hb.find_node new_data with ⟨q, h2, h2', hq, hdq, hn⟩ | ⟨h2, h2', hn⟩
    · have hpq : p = q ↔ old_data = new_data :=
        ⟨fun h => Option.some.inj (hdp.symm.trans (h ▸ hdq)),
          fun h => hb.deref_inj hp hq hdp (h ▸ hdq)⟩
      simp only [merge_replace_node, gdwg.merge_replace_node, h1, h1', h2, h2', hpq] at hwf ⊢
      by_cases hne : old_data = new_data
      · simp only [hne, if_true]
        exact ⟨trivial, hb⟩
      · simp only [hne, if_false] at hwf ⊢
        rw [incident_edges_sim hb hp hdp]
        have hloop := for_each_sim Boxed (merge_replace_node_body old_data new_data)
          (gdwg.merge_replace_node_body old_data new_data)
          (merge_replace_node_body_sim old_data new_data)
          (gdwg.incident_edges g old_data) _ _ hb
        have hsame := for_each_same (merge_replace_node_body old_data new_data)
          (merge_replace_node_body_same old_data new_data)
          (gdwg.incident_edges g old_data) st
        rcases hA : for_each (gdwg.incident_edges g old_data)
          (merge_replace_node_body old_data new_data) st with ⟨rA, st2⟩
        rcases hB : for_each (gdwg.incident_edges g old_data)
          (gdwg.merge_replace_node_body old_data new_data) g with ⟨rB, g2⟩
        rw [hA, hB] at hloop
        rw [hA] at hsame
        rw [hB] at hwf
        simp only at hloop hsame hwf
        obtain ⟨hr, hb2⟩ := hloop
        subst hr
        cases rA with
        | error ex => exact ⟨rfl, hb2⟩
        | ok u =>
          simp only at hwf ⊢
          refine ⟨trivial, erase_node_at_sim hb2 (hsame.2 ▸ hp) (hsame.1 ▸ hdp) hwf⟩
    · simp only [merge_replace_node, gdwg.merge_replace_node, h1, h1', h2, h2']
      exact ⟨trivial, hb⟩
  · simp only [merge_replace_node, gdwg.merge_replace_node, h1, h1']
    exact ⟨trivial, hb⟩

theorem erase_node_sim
    {st : store N × graph E} {g : gdwg.graph N E} (hb : Boxed st g) (value : N) :
    (erase_node st value).1 = (gdwg.erase_node g value).1 ∧
    Boxed (erase_node st value).2 (gdwg.erase_node g value).2 := by
  have hwf := hb.wf.erase_node value
  rcases hb.find_node value with ⟨p, h1, h1', hp, hdp, ho⟩ | ⟨h1, h1', ho⟩
  · simp only [erase_node, gdwg.erase_node, h1, h1'] at hwf ⊢
    rw [incident_edges_sim hb hp hdp]
    have hloop := for_each_sim Boxed erase_node_body gdwg.erase_node_body erase_node_body_sim
      (gdwg.incident_edges g value) _ _ hb
    have hsame := for_each_same erase_node_body erase_node_body_same
      (gdwg.incident_edges g value) st
    rcases hA : for_each (gdwg.incident_edges g value) erase_node_body st with ⟨rA, st2⟩
    rcases hB : for_each (gdwg.incident_edges g value) gdwg.erase_node_body g with ⟨rB, g2⟩
    rw [hA, hB] at hloop
    rw [hA] at hsame
    rw [hB] at hwf
    simp only at hloop hsame hwf
    obtain ⟨hr, hb2⟩ := hloop
    subst hr
    cases rA with
    | error ex => exact ⟨rfl, hb2⟩
    | ok u =>
      simp only at hwf ⊢
      refine ⟨trivial, erase_node_at_sim hb2 (hsame.2 ▸ hp) (hsame.1 ▸ hdp) hwf⟩
  · simp only [erase_node, gdwg.erase_node, h1, h1']
    exact ⟨trivial, hb⟩

end

end boxed

end gdwg

namespace gdwg

namespace stdset
variable {A B : Type} {R : A → B → Prop}

theorem rel_get? {l : List A} {l' : List B} (h : List.Forall₂ R l l') (i : Nat) :
    (l.get? i = none ∧ l'.get? i = none) ∨
    (∃ a b, l.get? i = some a ∧ l'.get? i = some b ∧ R a b ∧ a ∈ l) := by
  induction h generalizing i with
  | nil => exact Or.inl ⟨rfl, rfl⟩
  | @cons a b as bs hab _ ih =>
    cases i with
    | zero => exact Or.inr ⟨a, b, rfl, rfl, hab, List.mem_cons_self _ _⟩
    | succ i =>
      rcases ih i with h | ⟨x, y, h1, h2, h3, h4⟩
      · exact Or.inl h
      · exact Or.inr ⟨x, y, h1, h2, h3, List.mem_cons_of_mem _ h4⟩

theorem rel_find?_isSome {pA : A → Bool} {pB : B → Bool} {l : List A} {l' : List B}
    (h : List.Forall₂ R l l') (hp : ∀ a b, a ∈ l → R a b → pA a = pB b) :
    (l.find? pA).isSome = (l'.find? pB).isSome := by
  induction h with
  | nil => rfl
  | @cons a b as bs hab _ ih =>
    have hpa := hp a b (List.mem_cons_self _ _) hab
    have ih' := ih fun a' b' ha' => hp a' b' (List.mem_cons_of_mem _ ha')
    rw [List.find?_cons, List.find?_cons, hpa]
    cases pB b with
    | true => rfl
    | false => exact ih'

theorem rel_ne_pos (hfun : ∀ a b b', R a b → R a b' → b = b') [DecidableEq A] [DecidableEq B]
    {l : List A} {l' : List B} (h : List.Forall₂ R l l')
    (hinj : ∀ a a' b, a ∈ l → a' ∈ l → R a b → R a' b → a = a') (i : Nat)
    (a : A) (b : B) (ha : a ∈ l) (hab : R a b) :
    decide (some a ≠ l.get? i) = decide (some b ≠ l'.get? i) := by
  rcases rel_get? h i with ⟨h1, h2⟩ | ⟨x, y, h1, h2, h3, h4⟩
  · rw [h1, h2]
    simp
  · rw [h1, h2]
    have : a = x ↔ b = y :=
      ⟨fun hax => hfun _ _ _ hab (hax ▸ h3), fun hby => hinj _ _ _ ha h4 hab (hby ▸ h3)⟩
    simp only [ne_eq, Option.some.injEq, this]

theorem rel_erase_range (hfun : ∀ a b b', R a b → R a b' → b = b') [DecidableEq A]
    [DecidableEq B] {l : List A} {l' : List B} (h : List.Forall₂ R l l')
    (hinj : ∀ a a' b, a ∈ l → a' ∈ l → R a b → R a' b → a = a') (i j : Nat) :
    List.Forall₂ R (erase_range (l.get? i) (l.get? j) l)
      (erase_range (l'.get? i) (l'.get? j) l') := by
  unfold erase_range
  refine List.rel_append
    (rel_takeWhile h fun a b ha hab => rel_ne_pos hfun h hinj i a b ha hab)
    (rel_dropWhile (rel_dropWhile h fun a b ha hab => rel_ne_pos hfun h hinj i a b ha hab)
      fun a b ha hab => rel_ne_pos hfun h hinj j a b ((List.dropWhile_sublist _).subset ha) hab)

end stdset

namespace boxed

section
variable {N E : Type} [LinearOrder N] [LinearOrder E]

theorem erase_edge_iterator_sim {st : store N × graph E} {g : gdwg.graph N E}
    (hb : Boxed st g) (i : Nat) :
    Boxed (erase_edge_iterator st (st.2.edges_.get? i)).2
      (gdwg.erase_edge_iterator g (g.at_ i)).2 := by
  have hwf := hb.wf.erase_edge_iterator (g.at_ i)
  unfold erase_edge_iterator gdwg.erase_edge_iterator graph.at_ at *
  rcases stdset.rel_get? hb.edges i with ⟨h1, h2⟩ | ⟨x, y, h1, h2, h3, h4⟩
  · simp only [h1, h2]
    exact hb
  · simp only [h1, h2] at hwf ⊢
    refine ⟨hb.nodes, ?_, fun e he => hb.owned e (List.mem_of_mem_erase he), hwf⟩
    refine stdset.rel_erase hb.edges _ _ fun a b ha hab => ⟨fun h => ?_, fun h => ?_⟩
    · subst h
      exact Option.some.inj (hab.symm.trans h3)
    · subst h
      exact hb.read_inj ha h4 hab h3

theorem erase_edge_range_sim {st : store N × graph E} {g : gdwg.graph N E}
    (hb : Boxed st g) (i j : Nat) :
    Boxed (erase_edge_range st (st.2.edges_.get? i) (st.2.edges_.get? j)).2
      (gdwg.erase_edge_range g (g.at_ i) (g.at_ j)).2 := by
  have hwf := hb.wf.erase_edge_range (g.at_ i) (g.at_ j)
  unfold erase_edge_range gdwg.erase_edge_range graph.at_ at *
  simp only at hwf ⊢
  refine ⟨hb.nodes, ?_,
    fun e he => hb.owned e ((stdset.erase_range_sublist _ _ _).subset he), hwf⟩
  exact stdset.rel_erase_range (fun _ _ _ h1 h2 => Option.some.inj (h1.symm.trans h2)) hb.edges
    (fun a a' b ha ha' hab hab' => hb.read_inj ha ha' hab hab') i j

theorem clear_sim (st : store N × graph E) (g : gdwg.graph N E) :
    Boxed (clear st) (gdwg.clear g) :=
  ⟨List.Forall₂.nil, List.Forall₂.nil, fun _ h => absurd h (List.not_mem_nil _), graph.WF.empty⟩

theorem apply_sim (alloc : store N → Nat) (halloc : ∀ s : store N, s.deref (alloc s) = none)
    {st : store N × graph E} {g : gdwg.graph N E} (hb : Boxed st g) (m : mutation N E) :
    Boxed (boxed.apply alloc m st) (m.apply g) := by
  cases m with
  | insert_node v => exact (insert_node_sim alloc halloc hb v).2
  | insert_edge s d w => exact (insert_edge_sim hb s d w).2
  | replace_node a b => exact (replace_node_sim alloc halloc hb a b).2
  | merge_replace_node a b => exact (merge_replace_node_sim hb a b).2
  | erase_node v => exact (erase_node_sim hb v).2
  | erase_edge s d w => exact (erase_edge_sim hb s d w).2
  | erase_edge_iterator i => exact erase_edge_iterator_sim hb i
  | erase_edge_range i j => exact erase_edge_range_sim hb i j
  | clear => exact clear_sim st g

theorem run_sim (alloc : store N → Nat) (halloc : ∀ s : store N, s.deref (alloc s) = none)
    (ms : List (mutation N E)) {st : store N × graph E} {g : gdwg.graph N E} (hb : Boxed st g) :
    Boxed (ms.foldl (fun st m => boxed.apply alloc m st) st)
      (ms.foldl (fun g m => m.apply g) g) := by
  induction ms generalizing st g with
  | nil => exact hb
  | cons m rest ih => exact ih (apply_sim alloc halloc hb m)

theorem Boxed.read_eq {st : store N × graph E} {g : gdwg.graph N E} (hb : Boxed st g) :
    read st = some g := by
  unfold read
  rw [(collect_eq_some_iff _ _ _).2 hb.nodes, (collect_eq_some_iff _ _ _).2 hb.edges]

theorem Boxed.of_read {st : store N × graph E} {g : gdwg.graph N E} (hr : read st = some g)
    (hown : st.2.Owned) (hwf : g.WF) : Boxed st g := by
  unfold read at hr
  cases h1 : collect st.1.deref st.2.nodes_ with
  | none => simp [h1] at hr
  | some ns =>
    cases h2 : collect (edge.read st.1) st.2.edges_ with
    | none => simp [h1, h2] at hr
    | some es =>
      simp only [h1, h2, Option.some.injEq] at hr
      subst hr
      exact ⟨(collect_eq_some_iff _ _ _).1 h1, (collect_eq_some_iff _ _ _).1 h2, hown, hwf⟩

theorem nodes_sim {st : store N × graph E} {g : gdwg.graph N E} (hb : Boxed st g) :
    nodes st = some (gdwg.nodes g) := by
  unfold nodes gdwg.nodes
  rw [(collect_eq_some_iff _ _ _).2 hb.nodes, List.map_id']

theorem is_connected_sim {st : store N × graph E} {g : gdwg.graph N E} (hb : Boxed st g)
    (s d : N) : is_connected st s d = gdwg.is_connected g s d := by
  rcases hb.find_node s with ⟨ps, h1, h1', hps, hds, hs⟩ | ⟨h1, h1', hs⟩
  · rcases hb.find_node d with ⟨pd, h2, h2', hpd, hdd, hd⟩ | ⟨h2, h2', hd⟩
    · simp only [is_connected, gdwg.is_connected, h1, h1', h2, h2']
      congr 1
      refine stdset.rel_find?_isSome hb.edges fun pe e hpe hre => ?_
      have e1 := (hb.src_eq_iff hps hds hpe hre).1
      have e2 := (hb.src_eq_iff hpd hdd hpe hre).2
      simp only [e1, e2]
    · simp only [is_connected, gdwg.is_connected, h1, h1', h2, h2']
  · simp only [is_connected, gdwg.is_connected, h1, h1']

theorem output_sim (put_N : N → String) (put_E : E → String)
    {st : store N × graph E} {g : gdwg.graph N E} (hb : Boxed st g) :
    output put_N put_E st = some (g.output put_N put_E) := by
  have inner : ∀ (n : Nat) (v : N), n ∈ st.2.nodes_ → st.1.deref n = some v →
      ∀ (l : List (edge E)) (l' : List (gdwg.edge N E)),
      List.Forall₂ (fun pe e => edge.read st.1 pe = some e) l l' →
      (∀ pe ∈ l, pe ∈ st.2.edges_) → ∀ oss : String,
      l.foldlM
          (fun oss e =>
            if e.src = n then
              match st.1.deref e.dest with
              | none => none
              | some d => some (oss ++ "  " ++ put_N d ++ " | " ++ put_E e.weight ++ "\n")
            else some oss) oss
        = some (l'.foldl
          (fun oss e =>
            if e.src = v then oss ++ "  " ++ put_N e.dest ++ " | " ++ put_E e.weight ++ "\n"
            else oss) oss) := by
    intro n v hn hv l l' hrel
    induction hrel with
    | nil => intro _ oss; rfl
    | @cons pe e ps es hpe _ ih =>
      intro hmem oss
      have hiff := (hb.src_eq_iff hn hv (hmem pe (List.mem_cons_self _ _)) hpe).1
      have hre := (edge.read_eq_some_iff _ _ _).1 hpe
      rw [List.foldlM_cons, List.foldl_cons]
      by_cases hsrc : e.src = v
      · simp only [hiff.2 hsrc, hsrc, if_true, hre.2.1, hre.2.2]
        exact ih (fun pe' h' => hmem pe' (List.mem_cons_of_mem _ h')) _
      · have hsrc' : ¬ pe.src = n := fun h => hsrc (hiff.1 h)
        simp only [hsrc', hsrc, if_false]
        exact ih (fun pe' h' => hmem pe' (List.mem_cons_of_mem _ h')) _
  have outer : ∀ (l : List Nat) (l' : List N),
      List.Forall₂ (fun p v => st.1.deref p = some v) l l' →
      (∀ p ∈ l, p ∈ st.2.nodes_) → ∀ oss : String,
      l.foldlM
          (fun oss n =>
            match st.1.deref n with
            | none => none
            | some v =>
              (st.2.edges_.foldlM
                (fun oss e =>
                  if e.src = n then
                    match st.1.deref e.dest with
                    | none => none
                    | some d =>
                      some (oss ++ "  " ++ put_N d ++ " | " ++ put_E e.weight ++ "\n")
                  else some oss)
                (oss ++ put_N v ++ " (\n")).map (fun oss => oss ++ ")\n")) oss
        = some (l'.foldl
          (fun oss n =>
            (g.edges_.foldl
              (fun oss e =>
                if e.src = n then
                  oss ++ "  " ++ put_N e.dest ++ " | " ++ put_E e.weight ++ "\n"
                else oss)
              (oss ++ put_N n ++ " (\n")) ++ ")\n") oss) := by
    intro l l' hrel
    induction hrel with
    | nil => intro _ oss; rfl
    | @cons p v ps vs hpv _ ih =>
      intro hmem oss
      rw [List.foldlM_cons, List.foldl_cons]
      simp only [hpv]
      rw [inner p v (hmem p (List.mem_cons_self _ _)) hpv _ _ hb.edges (fun _ h => h)]
      simp only [Option.map_some', Option.some_bind, Option.bind_eq_bind]
      exact ih (fun p' h' => hmem p' (List.mem_cons_of_mem _ h')) _
  exact outer _ _ hb.nodes (fun _ h => h) ""

end

end boxed

end gdwg

namespace gdwg

/-! ## Facts about copies as objects of their own -/

namespace boxed

section
variable {N E : Type} [LinearOrder N] [LinearOrder E]

theorem Boxed.deref_ne_none {st : store N × graph E} {g : gdwg.graph N E} (hb : Boxed st g)
    {p : Nat} (hp : p ∈ st.2.nodes_) : st.1.deref p ≠ none := by
  obtain ⟨v, _, hv⟩ := stdset.rel_mem_left hb.nodes hp
  rw [hv]
  exact Option.noConfusion

theorem Boxed.of_frame {st st' : store N × graph E} (hf : Frame st st') {obj : graph E}
    {g : gdwg.graph N E} (hb : Boxed (st.1, obj) g) (hdisj : ∀ p ∈ obj.nodes_, p ∉ st.2.nodes_) :
    Boxed (st'.1, obj) g ∧ ∀ p ∈ obj.nodes_, p ∉ st'.2.nodes_ := by
  refine ⟨hb.of_agree fun p hp => hf.1 p (hdisj p hp) (hb.deref_ne_none hp), fun p hp hp' => ?_⟩
  rcases hf.2 p hp' with h | h
  · exact hdisj p hp h
  · exact hb.deref_ne_none hp h

theorem copy_nodes_sim (alloc : store N → Nat)
    (halloc : ∀ s : store N, s.deref (alloc s) = none) (orig : graph E) (g : gdwg.graph N E)
    (l : List Nat) (vs : List N) (st : store N × graph E) (gk : gdwg.graph N E)
    (hl : ∀ p ∈ l, p ∈ orig.nodes_)
    (hrel : List.Forall₂ (fun p v => st.1.deref p = some v) l vs)
    (hb : Boxed st gk) (horig : Boxed (st.1, orig) g)
    (hdisj : ∀ p ∈ orig.nodes_, p ∉ st.2.nodes_) :
    Boxed (l.foldl (fun st n => copy_node alloc n st) st)
      (vs.foldl (fun g n => (gdwg.insert_node g n).2) gk) ∧
    Boxed ((l.foldl (fun st n => copy_node alloc n st) st).1, orig) g ∧
    ∀ p ∈ orig.nodes_, p ∉ (l.foldl (fun st n => copy_node alloc n st) st).2.nodes_ := by
  induction l generalizing vs st gk with
  | nil =>
    cases hrel
    exact ⟨hb, horig, hdisj⟩
  | cons p ps ih =>
    cases hrel with
    | @cons _ v _ vs' hpv hrest =>
      rw [List.foldl_cons, List.foldl_cons]
      have hstep : copy_node alloc p st = (insert_node alloc st v).2 := by
        simp only [copy_node, hpv]
      rw [hstep]
      have hf : Frame st (insert_node alloc st v).2 := emplace_node_frame alloc halloc st v
      obtain ⟨horig', hdisj'⟩ := Boxed.of_frame hf horig hdisj
      refine ih vs' _ _ (fun q hq => hl q (List.mem_cons_of_mem _ hq)) ?_
        (insert_node_sim alloc halloc hb v).2 horig' hdisj'
      refine stdset.rel_imp_mem hrest fun q w hq h => ?_
      have hq' := hl q (List.mem_cons_of_mem _ hq)
      exact (hf.1 q (hdisj q hq') (horig.deref_ne_none hq')).trans h

theorem copy_edges_sim (l : List (edge E)) (l' : List (gdwg.edge N E))
    (st : store N × graph E) (gk : gdwg.graph N E)
    (hrel : List.Forall₂ (fun pe e => edge.read st.1 pe = some e) l l') (hb : Boxed st gk) :
    (for_each l copy_edge st).1 = (for_each l' gdwg.copy_edge gk).1 ∧
    Boxed (for_each l copy_edge st).2 (for_each l' gdwg.copy_edge gk).2 ∧
    (for_each l copy_edge st).2.1 = st.1 ∧
    (for_each l copy_edge st).2.2.nodes_ = st.2.nodes_ := by
  induction l generalizing l' st gk with
  | nil =>
    cases hrel
    exact ⟨rfl, hb, rfl, rfl⟩
  | cons pe ps ih =>
    cases hrel with
    | @cons _ e _ es hpe hrest =>
      unfold for_each
      have hi := insert_edge_sim hb e.src e.dest e.weight
      have hs := insert_edge_same st e.src e.dest e.weight
      simp only [copy_edge, gdwg.copy_edge, hpe]
      rcases hA : insert_edge st e.src e.dest e.weight with ⟨rA, st1⟩
      rcases hB : gdwg.insert_edge gk e.src e.dest e.weight with ⟨rB, g1⟩
      rw [hA, hB] at hi
      rw [hA] at hs
      simp only at hi hs
      obtain ⟨h1, hb1⟩ := hi
      subst h1
      cases rA with
      | error ex => exact ⟨rfl, hb1, hs.1, hs.2⟩
      | ok u =>
        simp only
        obtain ⟨r1, r2, r3, r4⟩ := ih es st1 g1 (hs.1 ▸ hrest) hb1
        exact ⟨r1, r2, r3.trans hs.1, r4.trans hs.2⟩

theorem copy_onto_empty_object (alloc : store N → Nat)
    (halloc : ∀ s : store N, s.deref (alloc s) = none) (s : store N) (orig : graph E)
    (g : gdwg.graph N E) (horig : Boxed (s, orig) g) :
    ∃ s1 cp, for_each orig.edges_ copy_edge
        (orig.nodes_.foldl (fun st n => copy_node alloc n st) (s, graph.empty)) = (.ok (), s1, cp) ∧
      Boxed (s1, cp) g ∧ Boxed (s1, orig) g ∧ ∀ p ∈ cp.nodes_, p ∉ orig.nodes_ := by
  have hempty : Boxed ((s, graph.empty) : store N × graph E) (gdwg.graph.empty : gdwg.graph N E) :=
    ⟨List.Forall₂.nil, List.Forall₂.nil, fun _ h => absurd h (List.not_mem_nil _), graph.WF.empty⟩
  obtain ⟨hb1, ho1, hd1⟩ := copy_nodes_sim alloc halloc orig g orig.nodes_ g.nodes_
    (s, graph.empty) gdwg.graph.empty (fun _ h => h) horig.nodes hempty horig
    (fun _ _ h => absurd h (List.not_mem_nil _))
  obtain ⟨r1, r2, r3, r4⟩ := copy_edges_sim orig.edges_ g.edges_
    (orig.nodes_.foldl (fun st n => copy_node alloc n st) (s, graph.empty))
    (g.nodes_.foldl (fun g n => (gdwg.insert_node g n).2) gdwg.graph.empty) ho1.edges hb1
  rw [copy_onto_empty g horig.wf] at r1 r2
  simp only at r1 r2
  rcases hA : for_each orig.edges_ copy_edge
    (orig.nodes_.foldl (fun st n => copy_node alloc n st) (s, graph.empty)) with ⟨rA, s1, cp⟩
  rw [hA] at r1 r2 r3 r4
  simp only at r1 r2 r3 r4
  subst r1
  refine ⟨s1, cp, rfl, r2, r3 ▸ ho1, fun p hp hp' => ?_⟩
  exact hd1 p hp' (r4 ▸ hp)

theorem copy_sim (alloc : store N → Nat)
    (halloc : ∀ s : store N, s.deref (alloc s) = none) (s : store N) (orig : graph E)
    (g : gdwg.graph N E) (horig : Boxed (s, orig) g) :
    ∃ s1 cp, copy alloc s orig = (.ok (), s1, cp) ∧
      Boxed (s1, cp) g ∧ Boxed (s1, orig) g ∧ ∀ p ∈ cp.nodes_, p ∉ orig.nodes_ :=
  copy_onto_empty_object alloc halloc s orig g horig

theorem copy_assign_sim (alloc : store N → Nat)
    (halloc : ∀ s : store N, s.deref (alloc s) = none) (s : store N) (orig target : graph E)
    (g : gdwg.graph N E) (horig : Boxed (s, orig) g)
    (htarget : ∀ p ∈ target.nodes_, p ∉ orig.nodes_) :
    ∃ s1 cp, copy_assign alloc (s, target) orig false = (.ok (), s1, cp) ∧
      Boxed (s1, cp) g ∧ Boxed (s1, orig) g ∧ ∀ p ∈ cp.nodes_, p ∉ orig.nodes_ := by
  have h0 : Boxed ((clear (s, target)).1, orig) g := by
    refine horig.of_agree fun p hp => ?_
    have : p ∉ target.nodes_ := fun h => htarget p h hp
    simp only [clear, store.deref_foldl_free, if_neg this]
  exact copy_onto_empty_object alloc halloc (clear (s, target)).1 orig g h0

theorem copy_independent (alloc : store N → Nat)
    (halloc : ∀ s : store N, s.deref (alloc s) = none) (s1 : store N) (orig cp : graph E)
    (g : gdwg.graph N E) (hcp : Boxed (s1, cp) g) (hdisj : ∀ p ∈ cp.nodes_, p ∉ orig.nodes_)
    (ms : List (mutation N E)) :
    Boxed ((ms.foldl (fun st m => boxed.apply alloc m st) (s1, orig)).1, cp) g ∧
    ∀ p ∈ cp.nodes_, p ∉ (ms.foldl (fun st m => boxed.apply alloc m st) (s1, orig)).2.nodes_ :=
  Boxed.of_frame (run_frame alloc halloc ms (s1, orig)) hcp hdisj

end

end boxed

end gdwg

namespace gdwg

namespace stdset
variable {A B : Type}

theorem rel_eq (R : A → B → Prop) (eqA : A → A → Bool) (eqB : B → B → Bool)
    (he : ∀ a b a' b', R a b → R a' b' → eqA a a' = eqB b b')
    {l1 l2 : List A} {l1' l2' : List B} (h1 : List.Forall₂ R l1 l1')
    (h2 : List.Forall₂ R l2 l2') : eq eqA l1 l2 = eq eqB l1' l2' := by
  induction h1 generalizing l2 l2' with
  | nil =>
    cases h2 with
    | nil => rfl
    | cons _ _ => rfl
  | @cons a b as bs hab _ ih =>
    cases h2 with
    | nil => rfl
    | @cons a' b' as' bs' hab' hrest' =>
      simp only [eq]
      rw [he _ _ _ _ hab hab', ih hrest']

end stdset

namespace boxed

section
variable {N E : Type} [LinearOrder N] [LinearOrder E]

theorem eq_sim {s : store N} {a b : graph E} {ga gb : gdwg.graph N E}
    (ha : Boxed (s, a) ga) (hb : Boxed (s, b) gb) : eq s a b = gdwg.graph.eq ga gb := by
  unfold eq gdwg.graph.eq
  rw [stdset.rel_eq (fun p v => s.deref p = some v) (node_eq s) gdwg.node_eq
      (fun p v p' v' h h' => by simp only [node_eq, gdwg.node_eq, h, h']) ha.nodes hb.nodes,
    stdset.rel_eq (fun pe e => edge.read s pe = some e) (edge.eq s) gdwg.edge.eq
      (fun p v p' v' h h' => by simp only [edge.eq, h, h']) ha.edges hb.edges]

end

end boxed

end gdwg

namespace gdwg

/-! ## Facts about the objects that calls of modifiers give -/

section
variable {N E : Type} [LinearOrder N] [LinearOrder E]

theorem reachable_apply (m : mutation N E) (g : graph N E) (h : Reachable g) (hv : m.Valid g) :
    Reachable (m.apply g) := by
  cases m with
  | insert_node v => exact Reachable.insert_node g v h
  | insert_edge s d w => exact Reachable.insert_edge g s d w h
  | replace_node a b => exact Reachable.replace_node g a b h
  | merge_replace_node a b => exact Reachable.merge_replace_node g a b h
  | erase_node v => exact Reachable.erase_node g v h
  | erase_edge s d w => exact Reachable.erase_edge g s d w h
  | erase_edge_iterator i =>
    simp only [mutation.Valid] at hv
    have hget : g.edges_.get? i = some (g.edges_.get ⟨i, hv⟩) := List.get?_eq_get hv
    simp only [mutation.apply, graph.at_, hget]
    exact Reachable.erase_edge_iterator g _ h (List.get_mem _ _ _)
  | erase_edge_range i j =>
    simp only [mutation.Valid] at hv
    exact Reachable.erase_edge_range g i j h hv.1 hv.2
  | clear => exact Reachable.clear g h

theorem reachable_run (ms : List (mutation N E)) (g : graph N E) (h : Reachable g)
    (hv : mutation.ValidRun ms g) : Reachable (mutation.run ms g) := by
  induction ms generalizing g with
  | nil => exact h
  | cons m rest ih =>
    exact ih (m.apply g) (reachable_apply m g h hv.1) hv.2

theorem boxed.objects_of_calls (alloc : store N → Nat)
    (halloc : ∀ s : store N, s.deref (alloc s) = none) (s : store N)
    (ms : List (mutation N E)) (hv : mutation.ValidRun ms (gdwg.graph.empty : gdwg.graph N E)) :
    Reachable (mutation.run ms (gdwg.graph.empty : gdwg.graph N E)) ∧
    boxed.read (boxed.run alloc ms (s, boxed.graph.empty))
      = some (mutation.run ms (gdwg.graph.empty : gdwg.graph N E)) ∧
    (boxed.run alloc ms (s, boxed.graph.empty)).2.Owned := by
  have hempty : boxed.Boxed ((s, boxed.graph.empty) : store N × boxed.graph E)
      (gdwg.graph.empty : gdwg.graph N E) :=
    ⟨List.Forall₂.nil, List.Forall₂.nil, fun _ h => absurd h (List.not_mem_nil _), gdwg.graph.WF.empty⟩
  have hb := boxed.run_sim alloc halloc ms hempty
  exact ⟨reachable_run ms _ Reachable.default hv, hb.read_eq, hb.owned⟩

end

end gdwg

namespace gdwg

/-! ## The contract: copies -/

theorem test_copy_objects :
    boxed.test_copy_orig.2
      = ⟨[2, 0, 1], [⟨2, 2, 4⟩, ⟨2, 1, 2⟩, ⟨0, 2, 8⟩, ⟨0, 1, 5⟩]⟩ ∧
    boxed.read boxed.test_copy_orig = some test_copy_graph ∧
    boxed.test_copy_target.2 = ⟨[3, 4, 5], [⟨3, 4, 5⟩, ⟨4, 4, 4⟩]⟩ ∧
    (boxed.copy store.bump boxed.test_copy_target.1 boxed.test_copy_orig.2).2.2
      = ⟨[6, 7, 8], [⟨6, 6, 4⟩, ⟨6, 8, 2⟩, ⟨7, 6, 8⟩, ⟨7, 8, 5⟩]⟩ ∧
    (boxed.copy_assign store.bump boxed.test_copy_target boxed.test_copy_orig.2 false).2.2
      = ⟨[3, 4, 5], [⟨3, 3, 4⟩, ⟨3, 5, 2⟩, ⟨4, 3, 8⟩, ⟨4, 5, 5⟩]⟩ := by
  decide

theorem test_copy_constructor_objects :
    boxed.is_node
      (boxed.run store.bump [.insert_node 2, .insert_edge 4 1 9]
        ((boxed.copy store.bump boxed.test_copy_orig.1 boxed.test_copy_orig.2).2.1,
          boxed.test_copy_orig.2)) 2 = true ∧
    boxed.is_connected
      (boxed.run store.bump [.insert_node 2, .insert_edge 4 1 9]
        ((boxed.copy store.bump boxed.test_copy_orig.1 boxed.test_copy_orig.2).2.1,
          boxed.test_copy_orig.2)) 4 1 = .ok true ∧
    boxed.is_node
      ((boxed.run store.bump [.insert_node 2, .insert_edge 4 1 9]
        ((boxed.copy store.bump boxed.test_copy_orig.1 boxed.test_copy_orig.2).2.1,
          boxed.test_copy_orig.2)).1,
        (boxed.copy store.bump boxed.test_copy_orig.1 boxed.test_copy_orig.2).2.2) 2 = false ∧
    boxed.is_connected
      ((boxed.run store.bump [.insert_node 2, .insert_edge 4 1 9]
        ((boxed.copy store.bump boxed.test_copy_orig.1 boxed.test_copy_orig.2).2.1,
          boxed.test_copy_orig.2)).1,
        (boxed.copy store.bump boxed.test_copy_orig.1 boxed.test_copy_orig.2).2.2) 4 1
      = .ok false ∧
    boxed.is_connected
      ((boxed.run store.bump [.insert_node 2, .insert_edge 4 1 9]
        ((boxed.copy store.bump boxed.test_copy_orig.1 boxed.test_copy_orig.2).2.1,
          boxed.test_copy_orig.2)).1,
        (boxed.copy store.bump boxed.test_copy_orig.1 boxed.test_copy_orig.2).2.2) 3 4
      = .ok true :=
  ⟨by decide, by rfl, by decide, by rfl, by rfl⟩

theorem test_copy_survives_erase :
    boxed.nodes
      (boxed.run store.bump [.erase_node 1, .erase_edge 3 4 5, .clear]
        ((boxed.copy store.bump boxed.test_copy_orig.1 boxed.test_copy_orig.2).2.1,
          boxed.test_copy_orig.2)) = some [] ∧
    boxed.nodes
      ((boxed.run store.bump [.erase_node 1, .erase_edge 3 4 5, .clear]
        ((boxed.copy store.bump boxed.test_copy_orig.1 boxed.test_copy_orig.2).2.1,
          boxed.test_copy_orig.2)).1,
        (boxed.copy store.bump boxed.test_copy_orig.1 boxed.test_copy_orig.2).2.2)
      = some [1, 3, 4] ∧
    boxed.read
      ((boxed.run store.bump [.erase_node 1, .erase_edge 3 4 5, .clear]
        ((boxed.copy store.bump boxed.test_copy_orig.1 boxed.test_copy_orig.2).2.1,
          boxed.test_copy_orig.2)).1,
        (boxed.copy store.bump boxed.test_copy_orig.1 boxed.test_copy_orig.2).2.2)
      = some test_copy_graph ∧
    boxed.read
      ((boxed.run store.bump [.erase_node 1, .erase_edge 3 4 5, .clear]
        (boxed.test_copy_orig.1, boxed.test_copy_orig.2)).1, boxed.test_copy_orig.2)
      = none := by
  decide

/-- C25. The copy constructor and the copy assignment (whatever the target
held) applied to a reachable graph `g` return normally, no `insert_edge` having
thrown, with a graph that equals `g`: it compares equal to `g` and has its
`nodes()`, edges, `is_connected` results and text dump.

The copy is an object of its own.  With `g` held by an object `orig` in a store
of boxes, either operation returns normally with an object `cp` that stands for
`g` and compares equal to `orig`, whose nodes own boxes that no node of `orig`
owns and whose edges point to boxes of its own nodes.  After any sequence `ms`
of calls of modifiers on `orig` (insertions, replacements and erasures of nodes
and edges, `clear`; `orig` then stands for the graph that these calls give),
`cp` still stands for `g`, and its `nodes()`, its `is_connected` results and
its text dump are those of `g`.  Assigning an object to itself leaves it as it
is. -/
theorem copy_equals_original {N E : Type} [LinearOrder N] [LinearOrder E]
    (g : graph N E) (h : Reachable g) (self : graph N E) (same_object : Bool)
    (hsame : same_object = true → self = g)
    (alloc : store N → Nat) (halloc : ∀ s : store N, s.deref (alloc s) = none)
    (s : store N) (orig target : boxed.graph E)
    (hread : boxed.read (s, orig) = some g) (hown : orig.Owned)
    (htarget : ∀ p ∈ target.nodes_, p ∉ orig.nodes_)
    (ms : List (mutation N E)) :
    (graph.copy g = (.ok (), g) ∧ graph.copy_assign self g same_object = (.ok (), g) ∧
      graph.eq (graph.copy g).2 g = true ∧
      graph.eq (graph.copy_assign self g same_object).2 g = true ∧
      nodes (graph.copy g).2 = nodes g ∧ (graph.copy g).2.edges_ = g.edges_ ∧
      (∀ s d, is_connected (graph.copy g).2 s d = is_connected g s d) ∧
      (∀ (put_N : N → String) (put_E : E → String),
        (graph.copy g).2.output put_N put_E = g.output put_N put_E)) ∧
    (∀ r, (r = boxed.copy alloc s orig ∨ r = boxed.copy_assign alloc (s, target) orig false) →
      ∃ s1 cp, r = (.ok (), s1, cp) ∧
        boxed.read (s1, cp) = some g ∧ cp.Owned ∧ (∀ p ∈ cp.nodes_, p ∉ orig.nodes_) ∧
        boxed.read (s1, orig) = some g ∧ boxed.eq s1 cp orig = true ∧
        boxed.nodes (s1, cp) = some (nodes g) ∧
        (∀ a b, boxed.is_connected (s1, cp) a b = is_connected g a b) ∧
        (∀ (put_N : N → String) (put_E : E → String),
          boxed.output put_N put_E (s1, cp) = some (g.output put_N put_E)) ∧
        boxed.read (boxed.run alloc ms (s1, orig)) = some (mutation.run ms g) ∧
        boxed.read ((boxed.run alloc ms (s1, orig)).1, cp) = some g ∧
        boxed.nodes ((boxed.run alloc ms (s1, orig)).1, cp) = some (nodes g) ∧
        (∀ a b, boxed.is_connected ((boxed.run alloc ms (s1, orig)).1, cp) a b
          = is_connected g a b) ∧
        (∀ (put_N : N → String) (put_E : E → String),
          boxed.output put_N put_E ((boxed.run alloc ms (s1, orig)).1, cp)
            = some (g.output put_N put_E))) ∧
    boxed.copy_assign alloc (s, orig) orig true = (.ok (), s, orig) := by
  have hcopy : graph.copy g = (.ok (), g) := copy_onto_empty g h.wf
  have hassign : graph.copy_assign self g same_object = (.ok (), g) := by
    unfold graph.copy_assign
    cases same_object with
    | true => simp [hsame rfl]
    | false => exact copy_onto_empty g h.wf
  have horig : boxed.Boxed (s, orig) g := boxed.Boxed.of_read hread hown h.wf
  have key : ∀ s1 cp, boxed.Boxed (s1, cp) g → boxed.Boxed (s1, orig) g →
      (∀ p ∈ cp.nodes_, p ∉ orig.nodes_) →
      boxed.read (s1, cp) = some g ∧ cp.Owned ∧ (∀ p ∈ cp.nodes_, p ∉ orig.nodes_) ∧
        boxed.read (s1, orig) = some g ∧ boxed.eq s1 cp orig = true ∧
        boxed.nodes (s1, cp) = some (nodes g) ∧
        (∀ a b, boxed.is_connected (s1, cp) a b = is_connected g a b) ∧
        (∀ (put_N : N → String) (put_E : E → String),
          boxed.output put_N put_E (s1, cp) = some (g.output put_N put_E)) ∧
        boxed.read (boxed.run alloc ms (s1, orig)) = some (mutation.run ms g) ∧
        boxed.read ((boxed.run alloc ms (s1, orig)).1, cp) = some g ∧
        boxed.nodes ((boxed.run alloc ms (s1, orig)).1, cp) = some (nodes g) ∧
        (∀ a b, boxed.is_connected ((boxed.run alloc ms (s1, orig)).1, cp) a b
          = is_connected g a b) ∧
        (∀ (put_N : N → String) (put_E : E → String),
          boxed.output put_N put_E ((boxed.run alloc ms (s1, orig)).1, cp)
            = some (g.output put_N put_E)) := by
    intro s1 cp hcp ho hdisj
    have hafter := (boxed.copy_independent alloc halloc s1 orig cp g hcp hdisj ms).1
    exact ⟨hcp.read_eq, hcp.owned, hdisj, ho.read_eq,
      (boxed.eq_sim hcp ho).trans ((graph.eq_true_iff_same g g).2 rfl), boxed.nodes_sim hcp,
      fun a b => boxed.is_connected_sim hcp a b, fun pn pe => boxed.output_sim pn pe hcp,
      (boxed.run_sim alloc halloc ms ho).read_eq, hafter.read_eq, boxed.nodes_sim hafter,
      fun a b => boxed.is_connected_sim hafter a b, fun pn pe => boxed.output_sim pn pe hafter⟩
  refine ⟨?_, ?_, rfl⟩
  · rw [hcopy, hassign]
    exact ⟨rfl, rfl, (graph.eq_true_iff_same g g).2 rfl, (graph.eq_true_iff_same g g).2 rfl, rfl,
      rfl, fun _ _ => rfl, fun _ _ => rfl⟩
  · rintro r (rfl | rfl)
    · obtain ⟨s1, cp, h1, h2, h3, h4⟩ := boxed.copy_sim alloc halloc s orig g horig
      exact ⟨s1, cp, h1, key s1 cp h2 h3 h4⟩
    · obtain ⟨s1, cp, h1, h2, h3, h4⟩ :=
        boxed.copy_assign_sim alloc halloc s orig target g horig htarget
      exact ⟨s1, cp, h1, key s1 cp h2 h3 h4⟩

theorem copy_equals_original_witness :
    Reachable test_copy_graph ∧ (false = true → test_eq_graph1 = test_copy_graph) ∧
    (∀ s : store Nat, s.deref (store.bump s) = none) ∧
    boxed.read (boxed.test_copy_target.1, boxed.test_copy_orig.2) = some test_copy_graph ∧
    boxed.test_copy_orig.2.Owned ∧
    (∀ p ∈ boxed.test_copy_target.2.nodes_, p ∉ boxed.test_copy_orig.2.nodes_) ∧
    (graph.copy test_copy_graph = (.ok (), test_copy_graph) ∧
      graph.copy_assign test_eq_graph1 test_copy_graph false = (.ok (), test_copy_graph) ∧
      graph.eq (graph.copy test_copy_graph).2 test_copy_graph = true ∧
      graph.eq (graph.copy_assign test_eq_graph1 test_copy_graph false).2 test_copy_graph = true ∧
      nodes (graph.copy test_copy_graph).2 = nodes test_copy_graph ∧
      (graph.copy test_copy_graph).2.edges_ = test_copy_graph.edges_ ∧
      (∀ s d, is_connected (graph.copy test_copy_graph).2 s d = is_connected test_copy_graph s d) ∧
      (∀ (put_N : Nat → String) (put_E : Int → String),
        (graph.copy test_copy_graph).2.output put_N put_E
          = test_copy_graph.output put_N put_E)) ∧
    (∀ r, (r = boxed.copy store.bump boxed.test_copy_target.1 boxed.test_copy_orig.2 ∨
        r = boxed.copy_assign store.bump (boxed.test_copy_target.1, boxed.test_copy_target.2)
          boxed.test_copy_orig.2 false) →
      ∃ s1 cp, r = (.ok (), s1, cp) ∧
        boxed.read (s1, cp) = some test_copy_graph ∧ cp.Owned ∧
        (∀ p ∈ cp.nodes_, p ∉ boxed.test_copy_orig.2.nodes_) ∧
        boxed.read (s1, boxed.test_copy_orig.2) = some test_copy_graph ∧
        boxed.eq s1 cp boxed.test_copy_orig.2 = true ∧
        boxed.nodes (s1, cp) = some (nodes test_copy_graph) ∧
        (∀ a b, boxed.is_connected (s1, cp) a b = is_connected test_copy_graph a b) ∧
        (∀ (put_N : Nat → String) (put_E : Int → String),
          boxed.output put_N put_E (s1, cp) = some (test_copy_graph.output put_N put_E)) ∧
        boxed.read (boxed.run store.bump [.insert_node 2, .insert_edge 4 1 9, .erase_node 3]
            (s1, boxed.test_copy_orig.2))
          = some (mutation.run [.insert_node 2, .insert_edge 4 1 9, .erase_node 3]
              test_copy_graph) ∧
        boxed.read ((boxed.run store.bump [.insert_node 2, .insert_edge 4 1 9, .erase_node 3]
            (s1, boxed.test_copy_orig.2)).1, cp) = some test_copy_graph ∧
        boxed.nodes ((boxed.run store.bump [.insert_node 2, .insert_edge 4 1 9, .erase_node 3]
            (s1, boxed.test_copy_orig.2)).1, cp) = some (nodes test_copy_graph) ∧
        (∀ a b, boxed.is_connected
            ((boxed.run store.bump [.insert_node 2, .insert_edge 4 1 9, .erase_node 3]
              (s1, boxed.test_copy_orig.2)).1, cp) a b
          = is_connected test_copy_graph a b) ∧
        (∀ (put_N : Nat → String) (put_E : Int → String),
          boxed.output put_N put_E
            ((boxed.run store.bump [.insert_node 2, .insert_edge 4 1 9, .erase_node 3]
              (s1, boxed.test_copy_orig.2)).1, cp)
            = some (test_copy_graph.output put_N put_E))) ∧
    boxed.copy_assign store.bump (boxed.test_copy_target.1, boxed.test_copy_orig.2)
      boxed.test_copy_orig.2 true
      = (.ok (), boxed.test_copy_target.1, boxed.test_copy_orig.2) :=
  ⟨test_copy_graph_reachable, fun hft => absurd hft Bool.false_ne_true, store.bump_fresh,
    by decide, (by unfold boxed.graph.Owned; decide), by decide,
    copy_equals_original test_copy_graph test_copy_graph_reachable test_eq_graph1 false
      (fun hft => absurd hft Bool.false_ne_true) store.bump store.bump_fresh
      boxed.test_copy_target.1 boxed.test_copy_orig.2 boxed.test_copy_target.2
      (by decide) (by unfold boxed.graph.Owned; decide) (by decide)
      [.insert_node 2, .insert_edge 4 1 9, .erase_node 3]⟩

end gdwg
